import Mathlib

/-!
# Nomad front end: Pratt parser over a token stream

A shallow embedding of `token/token.go` and `parser/parser.go`.

* Go pointers and interface values that may be `nil` are `Option`s.
* Go slices are `List`s; a slice that the code may return as `nil` is an
  `Option (List _)`.
* Every loop and every (mutually) recursive call consumes one unit of a
  `fuel : Nat`; running out of fuel is the result `none`, so `none` at the
  outermost level stands for "has not returned yet".
-/

set_option maxRecDepth 4096

namespace token

/-- The `TokenKind` enumeration of `token.go`, in declaration order. -/
inductive TokenKind where
  | ILLEGAL | EOF | TRIVIA | COMMENT
  | IDENT | INT
  | LBRACK | RBRACK | LBRACE | RBRACE | LPAREN | RPAREN | LCHEV | RCHEV
  | COMMA | DOT | COLON | SEMI
  | ASSIGN
  | PIPE | AMP | BANG | INTERO
  | NEG | SUM | MUL | QUO
  | EQL | NEQL
  | _keywords_beg
  | TYPE | SWITCH | RETURN | TRUE | FALSE | IF | ELSE | FUNC | LET | NONE | NULL
  | _keywords_end
  deriving DecidableEq

/-- The `Token` struct of `token.go`. -/
structure Token where
  TokenKind : TokenKind
  Literal : String
  deriving DecidableEq

/-- The integer value (`iota`) of a kind. -/
def TokenKind.toNat : TokenKind → Nat
  | .ILLEGAL => 0 | .EOF => 1 | .TRIVIA => 2 | .COMMENT => 3
  | .IDENT => 4 | .INT => 5
  | .LBRACK => 6 | .RBRACK => 7 | .LBRACE => 8 | .RBRACE => 9
  | .LPAREN => 10 | .RPAREN => 11 | .LCHEV => 12 | .RCHEV => 13
  | .COMMA => 14 | .DOT => 15 | .COLON => 16 | .SEMI => 17
  | .ASSIGN => 18
  | .PIPE => 19 | .AMP => 20 | .BANG => 21 | .INTERO => 22
  | .NEG => 23 | .SUM => 24 | .MUL => 25 | .QUO => 26
  | .EQL => 27 | .NEQL => 28
  | ._keywords_beg => 29
  | .TYPE => 30 | .SWITCH => 31 | .RETURN => 32 | .TRUE => 33 | .FALSE => 34
  | .IF => 35 | .ELSE => 36 | .FUNC => 37 | .LET => 38 | .NONE => 39 | .NULL => 40
  | ._keywords_end => 41

/-- The `tokens` table of `token.go`: entries that the array literal does not
set are the empty string; the array has 41 entries (indices 0 to 40). -/
def tokens : TokenKind → String
  | .ILLEGAL => "ILLEGAL" | .EOF => "EOF" | .TRIVIA => "TRIVIA" | .COMMENT => "COMMENT"
  | .IDENT => "IDENTITY" | .INT => "INT"
  | .LBRACK => "[" | .RBRACK => "]" | .LBRACE => "\x7b" | .RBRACE => "\x7d"
  | .LPAREN => "(" | .RPAREN => ")" | .LCHEV => "<" | .RCHEV => ">"
  | .COMMA => "," | .DOT => "." | .COLON => ":" | .SEMI => ";"
  | .ASSIGN => "="
  | .PIPE => "|" | .AMP => "&" | .BANG => "!" | .INTERO => "?"
  | .NEG => "-" | .SUM => "+" | .MUL => "*" | .QUO => "/"
  | .EQL => "==" | .NEQL => "!="
  | ._keywords_beg => ""
  | .TYPE => "type" | .SWITCH => "switch" | .RETURN => "return" | .TRUE => "true"
  | .FALSE => "false" | .IF => "if" | .ELSE => "else" | .FUNC => "func" | .LET => "let"
  | .NONE => "none" | .NULL => "null"
  | ._keywords_end => ""

/-- The method `TokenKind.String` of `token.go`. -/
def TokenKind.String (k : TokenKind) : String :=
  let s := if k.toNat < 41 then tokens k else ""
  if s = "" then "token(" ++ toString k.toNat ++ ")" else s

end token

namespace scanner

/-- Modelled from the spec: the tokenizer collaborator (package `scanner`, not
part of the sources) is an ordered, finite token sequence behind a pull
interface; `tokens` is what it has not handed out yet. -/
structure Scanner where
  tokens : List token.Token

/-- Modelled from the spec: `NextToken` hands out the next token of the
sequence, and the end-of-file token forever once the sequence is exhausted. -/
def Scanner.NextToken (s : Scanner) : token.Token × Scanner :=
  match s.tokens with
  | [] => (⟨.EOF, ""⟩, s)
  | t :: ts => (t, ⟨ts⟩)

end scanner

namespace strconv

/-- The error kinds of Go's `strconv` number conversions. -/
inductive NumError where
  | ErrSyntax | ErrRange
  deriving DecidableEq

/-- Go's `lower(c)`, which is `c | ('x' - 'X')`. -/
def lower (c : Nat) : Nat := c ||| 32

/-- The digit loop of Go's `strconv.ParseUint` on unsigned 64-bit integers;
`us` records whether an underscore was seen. -/
def ParseUintLoop (base : Nat) (base0 : Bool) (cutoff maxVal : Nat) :
    List Nat → Nat → Bool → Except NumError (Nat × Bool)
  | [], n, us => .ok (n, us)
  | c :: cs, n, us =>
    if c = 95 ∧ base0 = true then ParseUintLoop base base0 cutoff maxVal cs n true
    else
      let d : Option Nat :=
        if 48 ≤ c ∧ c ≤ 57 then some (c - 48)
        else if 97 ≤ lower c ∧ lower c ≤ 122 then some (lower c - 97 + 10)
        else none
      match d with
      | none => .error .ErrSyntax
      | some d =>
        if d ≥ base then .error .ErrSyntax
        else if n ≥ cutoff then .error .ErrRange
        else
          let n0 := (n * base) % 2 ^ 64
          let n1 := (n0 + d) % 2 ^ 64
          if n1 < n0 ∨ n1 > maxVal then .error .ErrRange
          else ParseUintLoop base base0 cutoff maxVal cs n1 us

/-- The scanning loop of Go's `underscoreOK`; `saw` is one of `'^'` (94),
`'0'` (48), `'_'` (95), `'!'` (33). -/
def underscoreOKLoop (hex : Bool) : List Nat → Nat → Bool
  | [], saw => saw != 95
  | c :: cs, saw =>
    if (48 ≤ c ∧ c ≤ 57) ∨ (hex = true ∧ 97 ≤ lower c ∧ lower c ≤ 102) then
      underscoreOKLoop hex cs 48
    else if c = 95 then
      if saw != 48 then false else underscoreOKLoop hex cs 95
    else if saw = 95 then false
    else underscoreOKLoop hex cs 33

/-- Go's `underscoreOK`: underscores only between digits or after a base
prefix. -/
def underscoreOK (s : List Nat) : Bool :=
  let s := match s with
    | c :: cs => if c = 45 ∨ c = 43 then cs else s
    | [] => s
  match s with
  | 48 :: c :: cs =>
    if lower c = 98 ∨ lower c = 111 ∨ lower c = 120 then
      underscoreOKLoop (lower c = 120) cs 48
    else underscoreOKLoop false s 94
  | _ => underscoreOKLoop false s 94

/-- Go's `strconv.ParseUint(s, 0, 64)` on the code points of `s`: the base is
taken from the prefix of the text. -/
def ParseUint (s : List Nat) : Except NumError Nat :=
  match s with
  | [] => .error .ErrSyntax
  | c0 :: rest =>
    let bs : Nat × List Nat :=
      if c0 = 48 then
        match rest with
        | c1 :: c2 :: cs =>
          if lower c1 = 98 then (2, c2 :: cs)
          else if lower c1 = 111 then (8, c2 :: cs)
          else if lower c1 = 120 then (16, c2 :: cs)
          else (8, rest)
        | _ => (8, rest)
      else (10, s)
    let cutoff := (2 ^ 64 - 1) / bs.1 + 1
    match ParseUintLoop bs.1 true cutoff (2 ^ 64 - 1) bs.2 0 false with
    | .error e => .error e
    | .ok (n, us) =>
      if us = true ∧ underscoreOK s = false then .error .ErrSyntax else .ok n

/-- Go's `strconv.ParseInt(s, 0, 64)`: an optional sign, then `ParseUint`, then
the signed 64-bit range check. The text is read as its code points; every
byte of a rune outside ASCII is rejected by Go just as the rune is here. -/
def ParseInt (s : String) : Except NumError Int :=
  match s.data.map Char.toNat with
  | [] => .error .ErrSyntax
  | c0 :: rest =>
    let neg : Bool := c0 = 45
    let body := if c0 = 43 ∨ c0 = 45 then rest else c0 :: rest
    match ParseUint body with
    | .error .ErrSyntax => .error .ErrSyntax
    | .error .ErrRange => .error .ErrRange
    | .ok un =>
      let cutoff := 2 ^ 63
      if neg = false ∧ un ≥ cutoff then .error .ErrRange
      else if neg = true ∧ un > cutoff then .error .ErrRange
      else .ok (if neg then -(un : Int) else (un : Int))

/-- Two hexadecimal digits of a byte. -/
def hex2 (n : Nat) : String :=
  String.mk [Nat.digitChar (n / 16 % 16), Nat.digitChar (n % 16)]

/-- One rune of Go's `strconv.Quote` (the verb `%q`). Runes outside ASCII are
rendered as they are. -/
def quoteRune (c : Char) : String :=
  if c = '"' then "\\\""
  else if c = '\\' then "\\\\"
  else if c.toNat = 7 then "\\a"
  else if c.toNat = 8 then "\\b"
  else if c.toNat = 12 then "\\f"
  else if c.toNat = 10 then "\\n"
  else if c.toNat = 13 then "\\r"
  else if c.toNat = 9 then "\\t"
  else if c.toNat = 11 then "\\v"
  else if c.toNat < 32 ∨ c.toNat = 127 then "\\x" ++ hex2 c.toNat
  else String.singleton c

/-- Go's `strconv.Quote`, used by the verb `%q`. -/
def Quote (s : String) : String :=
  "\"" ++ String.join (s.data.map quoteRune) ++ "\""

end strconv

namespace ast

open token

/-- Modelled from the spec: `Identifier{name}` (package `ast` is not part of
the sources), with the fields the parser sets: the origin token and the
name. -/
structure Identifier where
  Token : Token
  Value : String

/-- Modelled from the spec: `TypeDeclarationStatement{name: Identifier}`; the
name is a pointer the parser sets after the node exists. -/
structure TypeDeclarationStatement where
  Token : Token
  Name : Option Identifier

mutual

/-- Modelled from the spec: the closed set of expression nodes, each with the
fields the parser sets. An interface or pointer field is an `Option`, absent
when `none`; `Arguments` is `none` for a `nil` slice. -/
inductive Expression where
  | Identifier (node : Identifier)
  | IntegerLiteral (Token : Token) (Value : Int)
  | Boolean (Token : Token) (Value : Bool)
  | NoneLiteral (Token : Token)
  | NullLiteral (Token : Token)
  | PrefixExpression (Token : Token) (Operator : String) (Right : Option Expression)
  | InfixExpression (Token : Token) (Operator : String) (Left : Option Expression)
      (Right : Option Expression)
  | IfExpression (Token : Token) (Condition : Option Expression)
      (Consequence : Option BlockStatement) (Alternative : Option BlockStatement)
  | FunctionLiteral (Token : Token) (Arguments : Option (List Identifier))
      (Body : Option BlockStatement)
  | InvocationExpression (Token : Token) (Function : Option Expression)
      (Arguments : Option (List (Option Expression)))

/-- Modelled from the spec: `LetStatement{name, value}`. -/
inductive LetStatement where
  | mk (Token : Token) (Name : Option Identifier) (Value : Option Expression)

/-- Modelled from the spec: `ReturnStatement{value}`. -/
inductive ReturnStatement where
  | mk (Token : Token) (ReturnValue : Option Expression)

/-- Modelled from the spec: `ExpressionStatement{expr}`. -/
inductive ExpressionStatement where
  | mk (Token : Token) (Expression : Option Expression)

/-- Modelled from the spec: `BlockStatement{statements}`. -/
inductive BlockStatement where
  | mk (Token : Token) (Statements : List Statement)

/-- Modelled from the spec: a non-nil value of the interface `ast.Statement`
as the parser builds it, which is a pointer of one of four types; the pointer
inside may itself be `nil` (`none`). -/
inductive Statement where
  | LetStatement (ptr : Option LetStatement)
  | ReturnStatement (ptr : Option ReturnStatement)
  | TypeDeclarationStatement (ptr : Option TypeDeclarationStatement)
  | ExpressionStatement (ptr : Option ExpressionStatement)

end

/-- Modelled from the spec: `Program`, the ordered sequence of top-level
statements. -/
structure Program where
  Statements : List Statement

end ast

namespace parser

open token ast

/-- The Go type `Precedence` (an `int`). -/
abbrev Precedence := Nat

def LOWEST : Precedence := 1
def EQUALITY : Precedence := 2
def COMPARE : Precedence := 3
def SUMMATION : Precedence := 4
def PRODUCT : Precedence := 5
def PREFIX : Precedence := 6
def INVOCATION : Precedence := 7

/-- The table `precedences`; `none` where the map has no entry. -/
def precedences : TokenKind → Option Precedence
  | .EQL => some EQUALITY
  | .NEQL => some EQUALITY
  | .LCHEV => some COMPARE
  | .RCHEV => some COMPARE
  | .NEG => some SUMMATION
  | .SUM => some SUMMATION
  | .MUL => some PRODUCT
  | .QUO => some PRODUCT
  | .LPAREN => some INVOCATION
  | .INTERO => some EQUALITY
  | _ => none

/-- The methods that `New` registers as prefix handlers. -/
inductive prefixParseFn where
  | parseIdentifier | parseIntegerLiteral | parsePrefixExpression | parseBoolean
  | parseNone | parseNull | parseExpressionGroup | parseIfExpression
  | parseFunctionLiteral
  deriving DecidableEq

/-- The methods that `New` registers as infix handlers. -/
inductive infixParseFn where
  | parseInfixExpression | parseInvocationExpression
  deriving DecidableEq

/-- The `Parser` struct. A Go map is a function to `Option`, `none` where the
map has no entry. -/
structure Parser where
  lxr : scanner.Scanner
  currentToken : Token
  peekToken : Token
  errors : List String
  prefixParseFns : TokenKind → Option prefixParseFn
  infixParseFns : TokenKind → Option infixParseFn

def Parser.Errors (p : Parser) : List String := p.errors

def registerPrefix (k : TokenKind) (fn : prefixParseFn) (p : Parser) : Parser :=
  { p with prefixParseFns := fun k' => if k' = k then some fn else p.prefixParseFns k' }

def registerInfix (k : TokenKind) (fn : infixParseFn) (p : Parser) : Parser :=
  { p with infixParseFns := fun k' => if k' = k then some fn else p.infixParseFns k' }

def nextToken (p : Parser) : Parser :=
  { p with
    currentToken := p.peekToken
    peekToken := p.lxr.NextToken.1
    lxr := p.lxr.NextToken.2 }

/-- The constructor `New`; the zero `Token` is `ILLEGAL` with empty text. -/
def New (lxr : scanner.Scanner) : Parser :=
  let p : Parser :=
    { lxr := lxr
      currentToken := ⟨.ILLEGAL, ""⟩
      peekToken := ⟨.ILLEGAL, ""⟩
      errors := []
      prefixParseFns := fun _ => none
      infixParseFns := fun _ => none }
  let p := registerPrefix .IDENT .parseIdentifier p
  let p := registerPrefix .INT .parseIntegerLiteral p
  let p := registerPrefix .BANG .parsePrefixExpression p
  let p := registerPrefix .NEG .parsePrefixExpression p
  let p := registerPrefix .TRUE .parseBoolean p
  let p := registerPrefix .FALSE .parseBoolean p
  let p := registerPrefix .NONE .parseNone p
  let p := registerPrefix .NULL .parseNull p
  let p := registerPrefix .LPAREN .parseExpressionGroup p
  let p := registerPrefix .IF .parseIfExpression p
  let p := registerPrefix .FUNC .parseFunctionLiteral p
  let p := registerInfix .SUM .parseInfixExpression p
  let p := registerInfix .NEG .parseInfixExpression p
  let p := registerInfix .MUL .parseInfixExpression p
  let p := registerInfix .QUO .parseInfixExpression p
  let p := registerInfix .EQL .parseInfixExpression p
  let p := registerInfix .NEQL .parseInfixExpression p
  let p := registerInfix .LCHEV .parseInfixExpression p
  let p := registerInfix .RCHEV .parseInfixExpression p
  let p := registerInfix .LPAREN .parseInvocationExpression p
  let p := registerInfix .INTERO .parseInfixExpression p
  nextToken (nextToken p)

def currentTokenIs (t : TokenKind) (p : Parser) : Bool :=
  p.currentToken.TokenKind = t

def peekTokenIs (t : TokenKind) (p : Parser) : Bool :=
  p.peekToken.TokenKind = t

def peekError (t : TokenKind) (p : Parser) : Parser :=
  let msg := "expected next token to be '" ++ t.String ++ "', received " ++
    p.peekToken.TokenKind.String
  { p with errors := p.errors ++ [msg] }

def expectPeek (t : TokenKind) (p : Parser) : Bool × Parser :=
  if peekTokenIs t p then (true, nextToken p) else (false, peekError t p)

def noPrefixParseFn (t : TokenKind) (p : Parser) : Parser :=
  let msg := "no prefix parse function defined for TokenKind " ++ t.String
  { p with errors := p.errors ++ [msg] }

def peekPrecedence (p : Parser) : Precedence :=
  match precedences p.peekToken.TokenKind with
  | some q => q
  | none => LOWEST

def currentPrecedence (p : Parser) : Precedence :=
  match precedences p.currentToken.TokenKind with
  | some q => q
  | none => LOWEST

def parseIdentifier (p : Parser) : Option Expression × Parser :=
  (some (.Identifier ⟨p.currentToken, p.currentToken.Literal⟩), p)

def parseIntegerLiteral (p : Parser) : Option Expression × Parser :=
  match strconv.ParseInt p.currentToken.Literal with
  | .error _ =>
    let msg := "could not parse " ++ strconv.Quote p.currentToken.Literal ++ " as integer"
    (none, { p with errors := p.errors ++ [msg] })
  | .ok value => (some (.IntegerLiteral p.currentToken value), p)

def parseBoolean (p : Parser) : Option Expression × Parser :=
  (some (.Boolean p.currentToken (currentTokenIs .TRUE p)), p)

/-- The method `parseNone`: the literal `&ast.NoneLiteral{}` sets no field,
so the node holds the zero `Token`. -/
def parseNone (p : Parser) : Option Expression × Parser :=
  (some (.NoneLiteral ⟨.ILLEGAL, ""⟩), p)

/-- The method `parseNull`: the literal `&ast.NullLiteral{}` sets no field,
so the node holds the zero `Token`. -/
def parseNull (p : Parser) : Option Expression × Parser :=
  (some (.NullLiteral ⟨.ILLEGAL, ""⟩), p)

/-- The loop `for !p.currentTokenIs(token.SEMI) { p.nextToken() }` of
`parseTypeDeclaration`. -/
def parseTypeDeclarationLoop : Nat → Parser → Option Parser
  | 0, _ => none
  | fuel + 1, p =>
    if !currentTokenIs .SEMI p then parseTypeDeclarationLoop fuel (nextToken p)
    else some p

def parseTypeDeclaration (fuel : Nat) (p : Parser) :
    Option (Option TypeDeclarationStatement × Parser) :=
  let tok := p.currentToken
  match expectPeek .IDENT p with
  | (false, p) => some (none, p)
  | (true, p) =>
    let name : Identifier := ⟨p.currentToken, p.currentToken.Literal⟩
    match expectPeek .EQL p with
    | (false, p) => some (none, p)
    | (true, p) =>
      match parseTypeDeclarationLoop fuel p with
      | none => none
      | some p => some (some ⟨tok, some name⟩, p)

/-- The loop `for !p.currentTokenIs(token.SEMI) { p.nextToken() }` of
`parseReturnStatement`. -/
def parseReturnStatementLoop : Nat → Parser → Option Parser
  | 0, _ => none
  | fuel + 1, p =>
    if !currentTokenIs .SEMI p then parseReturnStatementLoop fuel (nextToken p)
    else some p

/-- The loop `for p.peekTokenIs(token.COMMA) { ... }` of `parseFunctionArgs`. -/
def parseFunctionArgsLoop : Nat → List Identifier → Parser → Option (List Identifier × Parser)
  | 0, _, _ => none
  | fuel + 1, ids, p =>
    if peekTokenIs .COMMA p then
      let p := nextToken p
      let p := nextToken p
      let ident : Identifier := ⟨p.currentToken, p.currentToken.Literal⟩
      parseFunctionArgsLoop fuel (ids ++ [ident]) p
    else some (ids, p)

def parseFunctionArgs (fuel : Nat) (p : Parser) : Option (Option (List Identifier) × Parser) :=
  let ids : List Identifier := []
  if peekTokenIs .RPAREN p then some (some ids, nextToken p)
  else
    let p := nextToken p
    let ident : Identifier := ⟨p.currentToken, p.currentToken.Literal⟩
    let ids := ids ++ [ident]
    match parseFunctionArgsLoop fuel ids p with
    | none => none
    | some (ids, p) =>
      match expectPeek .RPAREN p with
      | (false, p) => some (none, p)
      | (true, p) => some (some ids, p)

mutual

def parseExpression : Nat → Precedence → Parser → Option (Option Expression × Parser)
  | 0, _, _ => none
  | fuel + 1, precendece, p =>
    match p.prefixParseFns p.currentToken.TokenKind with
    | none => some (none, noPrefixParseFn p.currentToken.TokenKind p)
    | some fn =>
      let leftExp : Option (Option Expression × Parser) :=
        match fn with
        | .parseIdentifier => some (parseIdentifier p)
        | .parseIntegerLiteral => some (parseIntegerLiteral p)
        | .parsePrefixExpression => parsePrefixExpression fuel p
        | .parseBoolean => some (parseBoolean p)
        | .parseNone => some (parseNone p)
        | .parseNull => some (parseNull p)
        | .parseExpressionGroup => parseExpressionGroup fuel p
        | .parseIfExpression => parseIfExpression fuel p
        | .parseFunctionLiteral => parseFunctionLiteral fuel p
      match leftExp with
      | none => none
      | some (leftExp, p) => parseExpressionLoop fuel precendece leftExp p

/-- The loop `for !p.peekTokenIs(token.SEMI) && precendece < p.peekPrecedence()`
of `parseExpression`. -/
def parseExpressionLoop :
    Nat → Precedence → Option Expression → Parser → Option (Option Expression × Parser)
  | 0, _, _, _ => none
  | fuel + 1, precendece, leftExp, p =>
    if !peekTokenIs .SEMI p && decide (precendece < peekPrecedence p) then
      match p.infixParseFns p.peekToken.TokenKind with
      | none => some (leftExp, p)
      | some fn =>
        let p := nextToken p
        let r : Option (Option Expression × Parser) :=
          match fn with
          | .parseInfixExpression => parseInfixExpression fuel leftExp p
          | .parseInvocationExpression => parseInvocationExpression fuel leftExp p
        match r with
        | none => none
        | some (leftExp, p) => parseExpressionLoop fuel precendece leftExp p
    else some (leftExp, p)

def parsePrefixExpression : Nat → Parser → Option (Option Expression × Parser)
  | 0, _ => none
  | fuel + 1, p =>
    let tok := p.currentToken
    let p := nextToken p
    match parseExpression fuel PREFIX p with
    | none => none
    | some (right, p) => some (some (.PrefixExpression tok tok.Literal right), p)

def parseInfixExpression : Nat → Option Expression → Parser → Option (Option Expression × Parser)
  | 0, _, _ => none
  | fuel + 1, left, p =>
    let tok := p.currentToken
    let precedence := currentPrecedence p
    let p := nextToken p
    match parseExpression fuel precedence p with
    | none => none
    | some (right, p) => some (some (.InfixExpression tok tok.Literal left right), p)

def parseExpressionGroup : Nat → Parser → Option (Option Expression × Parser)
  | 0, _ => none
  | fuel + 1, p =>
    let p := nextToken p
    match parseExpression fuel LOWEST p with
    | none => none
    | some (exp, p) =>
      match expectPeek .RPAREN p with
      | (false, p) => some (none, p)
      | (true, p) => some (exp, p)

def parseIfExpression : Nat → Parser → Option (Option Expression × Parser)
  | 0, _ => none
  | fuel + 1, p =>
    let tok := p.currentToken
    match expectPeek .LPAREN p with
    | (false, p) => some (none, p)
    | (true, p) =>
      let p := nextToken p
      match parseExpression fuel LOWEST p with
      | none => none
      | some (condition, p) =>
        match expectPeek .RPAREN p with
        | (false, p) => some (none, p)
        | (true, p) =>
          match expectPeek .LBRACE p with
          | (false, p) => some (none, p)
          | (true, p) =>
            match parseBlockStatement fuel p with
            | none => none
            | some (consequence, p) =>
              if peekTokenIs .ELSE p then
                let p := nextToken p
                match expectPeek .LBRACE p with
                | (false, p) => some (none, p)
                | (true, p) =>
                  match parseBlockStatement fuel p with
                  | none => none
                  | some (alternative, p) =>
                    some (some (.IfExpression tok condition consequence alternative), p)
              else some (some (.IfExpression tok condition consequence none), p)

def parseFunctionLiteral : Nat → Parser → Option (Option Expression × Parser)
  | 0, _ => none
  | fuel + 1, p =>
    let tok := p.currentToken
    match expectPeek .LPAREN p with
    | (false, p) => some (none, p)
    | (true, p) =>
      match parseFunctionArgs fuel p with
      | none => none
      | some (arguments, p) =>
        match expectPeek .LBRACE p with
        | (false, p) => some (none, p)
        | (true, p) =>
          match parseBlockStatement fuel p with
          | none => none
          | some (body, p) => some (some (.FunctionLiteral tok arguments body), p)

def parseInvocationExpression :
    Nat → Option Expression → Parser → Option (Option Expression × Parser)
  | 0, _, _ => none
  | fuel + 1, function, p =>
    let tok := p.currentToken
    match parseInvocationArguments fuel p with
    | none => none
    | some (arguments, p) => some (some (.InvocationExpression tok function arguments), p)

def parseInvocationArguments :
    Nat → Parser → Option (Option (List (Option Expression)) × Parser)
  | 0, _ => none
  | fuel + 1, p =>
    let args : List (Option Expression) := []
    let p := nextToken p
    if currentTokenIs .RPAREN p then some (some args, p)
    else
      match parseExpression fuel LOWEST p with
      | none => none
      | some (e, p) =>
        match parseInvocationArgumentsLoop fuel (args ++ [e]) p with
        | none => none
        | some (args, p) =>
          match expectPeek .RPAREN p with
          | (false, p) => some (none, p)
          | (true, p) => some (some args, p)

/-- The loop `for p.peekTokenIs(token.COMMA) { ... }` of
`parseInvocationArguments`. -/
def parseInvocationArgumentsLoop :
    Nat → List (Option Expression) → Parser → Option (List (Option Expression) × Parser)
  | 0, _, _ => none
  | fuel + 1, args, p =>
    if peekTokenIs .COMMA p then
      let p := nextToken p
      let p := nextToken p
      match parseExpression fuel LOWEST p with
      | none => none
      | some (e, p) => parseInvocationArgumentsLoop fuel (args ++ [e]) p
    else some (args, p)

def parseBlockStatement : Nat → Parser → Option (Option BlockStatement × Parser)
  | 0, _ => none
  | fuel + 1, p =>
    let tok := p.currentToken
    let p := nextToken p
    match parseBlockStatementLoop fuel [] p with
    | none => none
    | some (statements, p) => some (some (.mk tok statements), p)

/-- The loop `for !p.currentTokenIs(token.RBRACE) && !p.currentTokenIs(token.EOF)`
of `parseBlockStatement`. -/
def parseBlockStatementLoop :
    Nat → List Statement → Parser → Option (List Statement × Parser)
  | 0, _, _ => none
  | fuel + 1, statements, p =>
    if !currentTokenIs .RBRACE p && !currentTokenIs .EOF p then
      match parseStatement fuel p with
      | none => none
      | some (stmt, p) =>
        let statements :=
          match stmt with
          | some s => statements ++ [s]
          | none => statements
        parseBlockStatementLoop fuel statements (nextToken p)
    else some (statements, p)

/-- The method `parseStatement`. Its result is a value of the interface
`ast.Statement`: each branch converts the pointer it gets, `nil` or not, to an
interface value, and a pointer inside an interface value is not the `nil`
interface, so the result is always `some _`. -/
def parseStatement : Nat → Parser → Option (Option Statement × Parser)
  | 0, _ => none
  | fuel + 1, p =>
    match p.currentToken.TokenKind with
    | .TYPE =>
      match parseTypeDeclaration fuel p with
      | none => none
      | some (ptr, p) => some (some (.TypeDeclarationStatement ptr), p)
    | .LET =>
      match parseLetStatement fuel p with
      | none => none
      | some (ptr, p) => some (some (.LetStatement ptr), p)
    | .RETURN =>
      match parseReturnStatement fuel p with
      | none => none
      | some (ptr, p) => some (some (.ReturnStatement ptr), p)
    | _ =>
      match parseExpressionStatement fuel p with
      | none => none
      | some (ptr, p) => some (some (.ExpressionStatement ptr), p)

def parseLetStatement : Nat → Parser → Option (Option LetStatement × Parser)
  | 0, _ => none
  | fuel + 1, p =>
    let tok := p.currentToken
    match expectPeek .IDENT p with
    | (false, p) => some (none, p)
    | (true, p) =>
      let name : Identifier := ⟨p.currentToken, p.currentToken.Literal⟩
      match expectPeek .ASSIGN p with
      | (false, p) => some (none, p)
      | (true, p) =>
        let p := nextToken p
        match parseExpression fuel LOWEST p with
        | none => none
        | some (value, p) =>
          let p := if peekTokenIs .SEMI p then nextToken p else p
          some (some (.mk tok (some name) value), p)

def parseReturnStatement : Nat → Parser → Option (Option ReturnStatement × Parser)
  | 0, _ => none
  | fuel + 1, p =>
    let tok := p.currentToken
    let p := nextToken p
    match parseExpression fuel LOWEST p with
    | none => none
    | some (value, p) =>
      match parseReturnStatementLoop fuel p with
      | none => none
      | some p => some (some (.mk tok value), p)

def parseExpressionStatement : Nat → Parser → Option (Option ExpressionStatement × Parser)
  | 0, _ => none
  | fuel + 1, p =>
    let tok := p.currentToken
    match parseExpression fuel LOWEST p with
    | none => none
    | some (expression, p) =>
      let p := if peekTokenIs .SEMI p then nextToken p else p
      some (some (.mk tok expression), p)

end

/-- The loop `for p.currentToken.TokenKind != token.EOF` of `ParseProgram`. -/
def ParseProgramLoop : Nat → List Statement → Parser → Option (List Statement × Parser)
  | 0, _, _ => none
  | fuel + 1, statements, p =>
    if p.currentToken.TokenKind ≠ .EOF then
      match parseStatement fuel p with
      | none => none
      | some (stmt, p) =>
        let statements :=
          match stmt with
          | some s => statements ++ [s]
          | none => statements
        ParseProgramLoop fuel statements (nextToken p)
    else some (statements, p)

/-- The method `ParseProgram`; the parser after the call is returned with the
program, so that `Errors` can be read off it. -/
def ParseProgram (fuel : Nat) (p : Parser) : Option (Program × Parser) :=
  match ParseProgramLoop fuel [] p with
  | none => none
  | some (statements, p) => some (⟨statements⟩, p)

/-- What a caller sees of `New` followed by `ParseProgram` on a token sequence:
the statements of the program and `Errors()` afterwards. -/
def parse (fuel : Nat) (toks : List Token) : Option (List Statement × List String) :=
  match ParseProgram fuel (New ⟨toks⟩) with
  | none => none
  | some (program, p) => some (program.Statements, p.Errors)

end parser

/-!
# Vocabulary of the properties

Parser states as `New` and `nextToken` produce them, the token classes the
properties speak of, and the grammar of single expressions.
-/

namespace parser

open token ast

/-- The prefix handler map once `New` has registered every handler. -/
def registeredPrefix : TokenKind → Option prefixParseFn := (New ⟨[]⟩).prefixParseFns

/-- The infix handler map once `New` has registered every handler. -/
def registeredInfix : TokenKind → Option infixParseFn := (New ⟨[]⟩).infixParseFns

/-- The parser state with current token `cur`, the tokens `rest` still to come
(the first of them is the peek token, the others are with the scanner) and
the error log `errs`. -/
def st (cur : Token) (rest : List Token) (errs : List String) : Parser :=
  { lxr := (scanner.Scanner.NextToken ⟨rest⟩).2
    currentToken := cur
    peekToken := (scanner.Scanner.NextToken ⟨rest⟩).1
    errors := errs
    prefixParseFns := registeredPrefix
    infixParseFns := registeredInfix }

/-- The parser state whose current token is the first of `toks`; on the empty
sequence the scanner has already answered end-of-file. -/
def stL (toks : List Token) (errs : List String) : Parser :=
  match toks with
  | [] => st ⟨.EOF, ""⟩ [] errs
  | t :: rest => st t rest errs

/-- The binary operator kinds `+ - * / == != < > ?`. -/
def isBinop (k : TokenKind) : Bool :=
  k = .SUM || k = .NEG || k = .MUL || k = .QUO || k = .EQL || k = .NEQL ||
    k = .LCHEV || k = .RCHEV || k = .INTERO

/-- The table precedence of a kind, `LOWEST` for a kind without entry. -/
def precOf (k : TokenKind) : Precedence :=
  match precedences k with
  | some q => q
  | none => LOWEST

/-- The leaf of an atomic operand: an identifier token, or an integer-literal
token whose text denotes a 64-bit integer; `none` for any other token. -/
def operand (t : Token) : Option Expression :=
  match t.TokenKind with
  | .IDENT => some (.Identifier ⟨t, t.Literal⟩)
  | .INT =>
    match strconv.ParseInt t.Literal with
    | .ok v => some (.IntegerLiteral t v)
    | .error _ => none
  | _ => none

/-- The leaf of an atom of the expression grammar: identifier, integer
literal in range, `true`, `false`, `none`, `null`. -/
def atom (t : Token) : Option Expression :=
  match t.TokenKind with
  | .TRUE => some (.Boolean t true)
  | .FALSE => some (.Boolean t false)
  | .NONE => some (.NoneLiteral ⟨.ILLEGAL, ""⟩)
  | .NULL => some (.NullLiteral ⟨.ILLEGAL, ""⟩)
  | _ => operand t

/-- The prefix operator kinds `!` and `-`. -/
def isUnop (k : TokenKind) : Bool := k = .BANG || k = .NEG

mutual

/-- The grammar of single expressions, each node with the tokens it is written
with: `E ::= atom | ('!' | '-') E | E binop E | '(' E ')' | E '(' ')' |
E '(' E (',' E)* ')'`. -/
inductive GExpr where
  | atom (t : Token)
  | unary (op : Token) (e : GExpr)
  | binary (l : GExpr) (op : Token) (r : GExpr)
  | group (lp : Token) (e : GExpr) (rp : Token)
  | call0 (f : GExpr) (lp : Token) (rp : Token)
  | call (f : GExpr) (lp : Token) (args : GArgs) (rp : Token)

/-- A non-empty comma-separated argument list. -/
inductive GArgs where
  | one (e : GExpr)
  | cons (e : GExpr) (comma : Token) (rest : GArgs)

end

mutual

/-- The linearisation of an expression: its tokens in source order. -/
def GExpr.tokens : GExpr → List Token
  | .atom t => [t]
  | .unary op e => op :: e.tokens
  | .binary l op r => l.tokens ++ op :: r.tokens
  | .group lp e rp => lp :: (e.tokens ++ [rp])
  | .call0 f lp rp => f.tokens ++ [lp, rp]
  | .call f lp args rp => f.tokens ++ lp :: (args.tokens ++ [rp])

/-- The linearisation of an argument list. -/
def GArgs.tokens : GArgs → List Token
  | .one e => e.tokens
  | .cons e comma rest => e.tokens ++ comma :: rest.tokens

end

mutual

/-- Every token of the expression has the kind its place requires. -/
def GExpr.wf : GExpr → Bool
  | .atom t => (atom t).isSome
  | .unary op e => isUnop op.TokenKind && e.wf
  | .binary l op r => l.wf && isBinop op.TokenKind && r.wf
  | .group lp e rp => decide (lp.TokenKind = .LPAREN) && e.wf && decide (rp.TokenKind = .RPAREN)
  | .call0 f lp rp => f.wf && decide (lp.TokenKind = .LPAREN) && decide (rp.TokenKind = .RPAREN)
  | .call f lp args rp =>
    f.wf && decide (lp.TokenKind = .LPAREN) && args.wf && decide (rp.TokenKind = .RPAREN)

/-- Every token of the argument list has the kind its place requires. -/
def GArgs.wf : GArgs → Bool
  | .one e => e.wf
  | .cons e comma rest => e.wf && decide (comma.TokenKind = .COMMA) && rest.wf

end

mutual

/-- An operand of an operator chain: an atom, a group, or a prefix operator
in front of an operand. -/
inductive POperand where
  | atom (t : Token)
  | group (lp : Token) (o : POperand) (is : PItems) (rp : Token)
  | unary (op : Token) (o : POperand)

/-- What follows the first operand of an operator chain: binary operators
with their right operands, and argument lists of invocations. -/
inductive PItems where
  | nil
  | binary (op : Token) (o : POperand) (rest : PItems)
  | call0 (lp : Token) (rp : Token) (rest : PItems)
  | call (lp : Token) (args : PArgs) (rp : Token) (rest : PItems)

/-- A non-empty list of operator chains separated by commas. -/
inductive PArgs where
  | one (o : POperand) (is : PItems)
  | cons (o : POperand) (is : PItems) (comma : Token) (rest : PArgs)

end

mutual

def POperand.tokens : POperand → List Token
  | .atom t => [t]
  | .group lp o is rp => lp :: (o.tokens ++ is.tokens ++ [rp])
  | .unary op o => op :: o.tokens

def PItems.tokens : PItems → List Token
  | .nil => []
  | .binary op o rest => op :: (o.tokens ++ rest.tokens)
  | .call0 lp rp rest => lp :: rp :: rest.tokens
  | .call lp args rp rest => lp :: (args.tokens ++ rp :: rest.tokens)

def PArgs.tokens : PArgs → List Token
  | .one o is => o.tokens ++ is.tokens
  | .cons o is comma rest => o.tokens ++ is.tokens ++ comma :: rest.tokens

end

mutual

def POperand.wf : POperand → Bool
  | .atom t => (atom t).isSome
  | .group lp o is rp =>
    decide (lp.TokenKind = .LPAREN) && o.wf && is.wf && decide (rp.TokenKind = .RPAREN)
  | .unary op o => isUnop op.TokenKind && o.wf

def PItems.wf : PItems → Bool
  | .nil => true
  | .binary op o rest => isBinop op.TokenKind && o.wf && rest.wf
  | .call0 lp rp rest =>
    decide (lp.TokenKind = .LPAREN) && decide (rp.TokenKind = .RPAREN) && rest.wf
  | .call lp args rp rest =>
    decide (lp.TokenKind = .LPAREN) && args.wf && decide (rp.TokenKind = .RPAREN) && rest.wf

def PArgs.wf : PArgs → Bool
  | .one o is => o.wf && is.wf
  | .cons o is comma rest => o.wf && is.wf && decide (comma.TokenKind = .COMMA) && rest.wf

end

/-- Concatenation of item sequences. -/
def PItems.append : PItems → PItems → PItems
  | .nil, js => js
  | .binary op o rest, js => .binary op o (rest.append js)
  | .call0 lp rp rest, js => .call0 lp rp (rest.append js)
  | .call lp args rp rest, js => .call lp args rp (rest.append js)

/-- The items that the loop of `parseExpression` leaves unread at the floor
`p`: everything from the first binary operator whose precedence does not
exceed `p`. -/
def PItems.cut (p : Precedence) : PItems → PItems
  | .nil => .nil
  | .binary op o rest =>
    if p < precOf op.TokenKind then rest.cut p else .binary op o rest
  | .call0 _ _ rest => rest.cut p
  | .call _ _ _ rest => rest.cut p

mutual

/-- An expression of the grammar as an operator chain: first operand and
items, with the same tokens. -/
def GExpr.chain : GExpr → POperand × PItems
  | .atom t => (.atom t, .nil)
  | .unary op e => (.unary op e.chain.1, e.chain.2)
  | .binary l op r => (l.chain.1, l.chain.2.append (.binary op r.chain.1 r.chain.2))
  | .group lp e rp => (.group lp e.chain.1 e.chain.2 rp, .nil)
  | .call0 f lp rp => (f.chain.1, f.chain.2.append (.call0 lp rp .nil))
  | .call f lp args rp => (f.chain.1, f.chain.2.append (.call lp args.chain rp .nil))

def GArgs.chain : GArgs → PArgs
  | .one e => .one e.chain.1 e.chain.2
  | .cons e comma rest => .cons e.chain.1 e.chain.2 comma rest.chain

end

/-- The tokens `, q1 , q2 ...` that follow the first element of a
comma-separated list. -/
def commaList (cm : Token) : List Token → List Token
  | [] => []
  | q :: qs => cm :: q :: commaList cm qs

/-- The tokens of a comma-separated list. -/
def commaSeparated (cm : Token) : List Token → List Token
  | [] => []
  | q :: qs => q :: commaList cm qs

end parser

namespace parser

open token ast

/-- What `parseExpression` does on an operator chain of at most `n` tokens
followed by a token without table precedence: it returns a present
expression, logs nothing, and stops in front of the items that `cut` leaves. -/
def ExprOK (n : Nat) : Prop :=
  ∀ (o : POperand) (is : PItems), o.wf = true → is.wf = true →
    o.tokens.length + is.tokens.length ≤ n →
    ∀ p, LOWEST ≤ p → p ≤ PREFIX →
    ∃ (T : Expression) (tl : Token), ∀ (x : Token) (rest : List Token) (errs : List String),
      precOf x.TokenKind = LOWEST →
      ∃ fuel, parseExpression fuel p (stL (o.tokens ++ (is.tokens ++ x :: rest)) errs) =
        some (some T, st tl ((is.cut p).tokens ++ x :: rest) errs)

/-- What the loop of `parseExpression` does on the items of an operator chain
of at most `n` tokens. -/
def LoopOK (n : Nat) : Prop :=
  ∀ (is : PItems), is.wf = true → is.tokens.length ≤ n →
    ∀ p, LOWEST ≤ p → p ≤ PREFIX → ∀ (left : Expression) (cur : Token),
    ∃ (T : Expression) (tl : Token), ∀ (x : Token) (rest : List Token) (errs : List String),
      precOf x.TokenKind = LOWEST →
      ∃ fuel, parseExpressionLoop fuel p (some left) (st cur (is.tokens ++ x :: rest) errs) =
        some (some T, st tl ((is.cut p).tokens ++ x :: rest) errs)

/-- What the first argument and the comma loop of `parseInvocationArguments`
do on an argument list of at most `n` tokens. -/
def ArgsOK (n : Nat) : Prop :=
  ∀ (args : PArgs), args.wf = true → args.tokens.length ≤ n →
    ∃ (Ts : List Expression), ∀ (acc : List (Option Expression)) (x : Token)
      (rest : List Token) (errs : List String),
      precOf x.TokenKind = LOWEST → x.TokenKind ≠ .COMMA →
      ∃ fuel tl a q,
        parseExpression fuel LOWEST (stL (args.tokens ++ x :: rest) errs) = some (a, q) ∧
        parseInvocationArgumentsLoop fuel (acc ++ [a]) q =
          some (acc ++ Ts.map some, st tl (x :: rest) errs)

/-- The kinds an expression of the grammar can start with. -/
def isStart (k : TokenKind) : Bool :=
  k = .IDENT || k = .INT || k = .TRUE || k = .FALSE || k = .NONE || k = .NULL ||
    k = .LPAREN || k = .BANG || k = .NEG

/-- One more unit of fuel keeps every result of the mutually recursive parsing
methods at fuel `n`. -/
structure MonoAt (n : Nat) : Prop where
  expression : ∀ p s r, parseExpression n p s = some r → parseExpression (n + 1) p s = some r
  expressionLoop : ∀ p l s r,
    parseExpressionLoop n p l s = some r → parseExpressionLoop (n + 1) p l s = some r
  prefixExpression : ∀ s r,
    parsePrefixExpression n s = some r → parsePrefixExpression (n + 1) s = some r
  infixExpression : ∀ l s r,
    parseInfixExpression n l s = some r → parseInfixExpression (n + 1) l s = some r
  expressionGroup : ∀ s r,
    parseExpressionGroup n s = some r → parseExpressionGroup (n + 1) s = some r
  ifExpression : ∀ s r, parseIfExpression n s = some r → parseIfExpression (n + 1) s = some r
  functionLiteral : ∀ s r,
    parseFunctionLiteral n s = some r → parseFunctionLiteral (n + 1) s = some r
  invocationExpression : ∀ f s r,
    parseInvocationExpression n f s = some r → parseInvocationExpression (n + 1) f s = some r
  invocationArguments : ∀ s r,
    parseInvocationArguments n s = some r → parseInvocationArguments (n + 1) s = some r
  invocationArgumentsLoop : ∀ a s r,
    parseInvocationArgumentsLoop n a s = some r →
      parseInvocationArgumentsLoop (n + 1) a s = some r
  blockStatement : ∀ s r,
    parseBlockStatement n s = some r → parseBlockStatement (n + 1) s = some r
  blockStatementLoop : ∀ a s r,
    parseBlockStatementLoop n a s = some r → parseBlockStatementLoop (n + 1) a s = some r
  statement : ∀ s r, parseStatement n s = some r → parseStatement (n + 1) s = some r
  letStatement : ∀ s r, parseLetStatement n s = some r → parseLetStatement (n + 1) s = some r
  returnStatement : ∀ s r,
    parseReturnStatement n s = some r → parseReturnStatement (n + 1) s = some r
  expressionStatement : ∀ s r,
    parseExpressionStatement n s = some r → parseExpressionStatement (n + 1) s = some r

end parser
namespace parser
open token ast

/-- The tokens of a list of argument expressions separated by the comma `cm`. -/
def argTokens (cm : Token) : List GExpr → List Token
  | [] => []
  | [e] => e.tokens
  | e :: e' :: es => e.tokens ++ cm :: argTokens cm (e' :: es)

/-- The tree `T` is what `New` then `ParseProgram` return for the expression
`e` alone: from some fuel on, one expression statement holding `T`, and no
diagnostic. -/
def ParsesTo (e : GExpr) (T : Expression) : Prop :=
  ∃ (tok : Token) (N : Nat), ∀ fuel, N ≤ fuel →
    parse fuel (e.tokens ++ [⟨.EOF, ""⟩]) =
      some ([.ExpressionStatement (some (.mk tok (some T)))], [])

/-- The code points `'0'` to `'9'`. -/
def isDecimalDigit (c : Nat) : Bool := decide (48 ≤ c) && decide (c ≤ 57)

/-- The text is a non-empty string of decimal digits. -/
def isDecimal (s : String) : Bool :=
  !s.data.isEmpty && (s.data.map Char.toNat).all isDecimalDigit

/-- The decimal value of digits read after the value `n`. -/
def decimalFrom (n : Nat) (cs : List Nat) : Nat :=
  cs.foldl (fun n c => 10 * n + (c - 48)) n

/-- The decimal value of a string of decimal digits. -/
def decimalValue (s : String) : Nat := decimalFrom 0 (s.data.map Char.toNat)

/-- The text has a zero in front of further digits. -/
def hasLeadingZero (s : String) : Bool :=
  match s.data with
  | c :: _ :: _ => c.toNat = 48
  | _ => false

end parser

namespace ast
open token

mutual

/-- No slot of the expression is absent, the alternative of an `IfExpression`
apart. -/
def Expression.complete : Expression → Bool
  | .Identifier _ => true
  | .IntegerLiteral _ _ => true
  | .Boolean _ _ => true
  | .NoneLiteral _ => true
  | .NullLiteral _ => true
  | .PrefixExpression _ _ r => completeOptExpression r
  | .InfixExpression _ _ l r => completeOptExpression l && completeOptExpression r
  | .IfExpression _ c cons alt =>
    completeOptExpression c && completeOptBlock cons && completeAlternative alt
  | .FunctionLiteral _ args body => args.isSome && completeOptBlock body
  | .InvocationExpression _ f args => completeOptExpression f && completeOptArguments args

/-- The slot holds an expression, and a complete one. -/
def completeOptExpression : Option Expression → Bool
  | none => false
  | some e => e.complete

/-- The argument list is not `nil` and every entry is present and complete. -/
def completeOptArguments : Option (List (Option Expression)) → Bool
  | none => false
  | some l => completeArguments l

def completeArguments : List (Option Expression) → Bool
  | [] => true
  | a :: l => completeOptExpression a && completeArguments l

def completeOptBlock : Option BlockStatement → Bool
  | none => false
  | some b => b.complete

/-- An alternative may be absent; a present one is complete. -/
def completeAlternative : Option BlockStatement → Bool
  | none => true
  | some b => b.complete

def BlockStatement.complete : BlockStatement → Bool
  | .mk _ l => completeStatements l

def completeStatements : List Statement → Bool
  | [] => true
  | s :: l => s.complete && completeStatements l

def Statement.complete : Statement → Bool
  | .LetStatement none => false
  | .LetStatement (some s) => s.complete
  | .ReturnStatement none => false
  | .ReturnStatement (some s) => s.complete
  | .TypeDeclarationStatement none => false
  | .TypeDeclarationStatement (some s) => s.Name.isSome
  | .ExpressionStatement none => false
  | .ExpressionStatement (some s) => s.complete

def LetStatement.complete : LetStatement → Bool
  | .mk _ name value => name.isSome && completeOptExpression value

def ReturnStatement.complete : ReturnStatement → Bool
  | .mk _ value => completeOptExpression value

def ExpressionStatement.complete : ExpressionStatement → Bool
  | .mk _ e => completeOptExpression e

end

end ast

namespace ast
open token

mutual

/-- No argument list of an `InvocationExpression` anywhere in the expression
holds an absent entry. Absent slots other than argument entries are passed
over. -/
def Expression.entriesPresent : Expression → Bool
  | .Identifier _ => true
  | .IntegerLiteral _ _ => true
  | .Boolean _ _ => true
  | .NoneLiteral _ => true
  | .NullLiteral _ => true
  | .PrefixExpression _ _ r => entriesPresentOptExpression r
  | .InfixExpression _ _ l r => entriesPresentOptExpression l && entriesPresentOptExpression r
  | .IfExpression _ c cons alt =>
    entriesPresentOptExpression c && entriesPresentOptBlock cons && entriesPresentOptBlock alt
  | .FunctionLiteral _ _ body => entriesPresentOptBlock body
  | .InvocationExpression _ f args =>
    entriesPresentOptExpression f && entriesPresentOptArguments args

def entriesPresentOptExpression : Option Expression → Bool
  | none => true
  | some e => e.entriesPresent

def entriesPresentOptArguments : Option (List (Option Expression)) → Bool
  | none => true
  | some l => entriesPresentArguments l

/-- Every entry of the argument list is present, and has the property
itself. -/
def entriesPresentArguments : List (Option Expression) → Bool
  | [] => true
  | none :: _ => false
  | some e :: l => e.entriesPresent && entriesPresentArguments l

def entriesPresentOptBlock : Option BlockStatement → Bool
  | none => true
  | some b => b.entriesPresent

def BlockStatement.entriesPresent : BlockStatement → Bool
  | .mk _ l => entriesPresentStatements l

def entriesPresentStatements : List Statement → Bool
  | [] => true
  | s :: l => s.entriesPresent && entriesPresentStatements l

def Statement.entriesPresent : Statement → Bool
  | .LetStatement none => true
  | .LetStatement (some s) => s.entriesPresent
  | .ReturnStatement none => true
  | .ReturnStatement (some s) => s.entriesPresent
  | .TypeDeclarationStatement _ => true
  | .ExpressionStatement none => true
  | .ExpressionStatement (some s) => s.entriesPresent

def LetStatement.entriesPresent : LetStatement → Bool
  | .mk _ _ value => entriesPresentOptExpression value

def ReturnStatement.entriesPresent : ReturnStatement → Bool
  | .mk _ value => entriesPresentOptExpression value

def ExpressionStatement.entriesPresent : ExpressionStatement → Bool
  | .mk _ e => entriesPresentOptExpression e

end

end ast

namespace parser
open token ast

/-- From `p` to `q` the error log only grew, by the messages `msgs`, and if
none was appended then `G` holds. -/
def Clean (p q : Parser) (G : Prop) : Prop :=
  ∃ msgs, q.errors = p.errors ++ msgs ∧ (msgs = [] → G)

/-- The invariant of the mutually recursive parse methods at one fuel: each
only appends to the error log, and without a new message its result has no
absent slot (the loops and the infix handlers: provided what they were handed
had none). -/
structure CleanAt (n : Nat) : Prop where
  expression : ∀ prec p r q, parseExpression n prec p = some (r, q) →
    Clean p q (completeOptExpression r = true)
  expressionLoop : ∀ prec l p r q, parseExpressionLoop n prec l p = some (r, q) →
    Clean p q (completeOptExpression l = true → completeOptExpression r = true)
  prefixExpression : ∀ p r q, parsePrefixExpression n p = some (r, q) →
    Clean p q (completeOptExpression r = true)
  infixExpression : ∀ l p r q, parseInfixExpression n l p = some (r, q) →
    Clean p q (completeOptExpression l = true → completeOptExpression r = true)
  expressionGroup : ∀ p r q, parseExpressionGroup n p = some (r, q) →
    Clean p q (completeOptExpression r = true)
  ifExpression : ∀ p r q, parseIfExpression n p = some (r, q) →
    Clean p q (completeOptExpression r = true)
  functionLiteral : ∀ p r q, parseFunctionLiteral n p = some (r, q) →
    Clean p q (completeOptExpression r = true)
  invocationExpression : ∀ f p r q, parseInvocationExpression n f p = some (r, q) →
    Clean p q (completeOptExpression f = true → completeOptExpression r = true)
  invocationArguments : ∀ p r q, parseInvocationArguments n p = some (r, q) →
    Clean p q (completeOptArguments r = true)
  invocationArgumentsLoop : ∀ a p r q, parseInvocationArgumentsLoop n a p = some (r, q) →
    Clean p q (completeArguments a = true → completeArguments r = true)
  blockStatement : ∀ p r q, parseBlockStatement n p = some (r, q) →
    Clean p q (completeOptBlock r = true)
  blockStatementLoop : ∀ a p r q, parseBlockStatementLoop n a p = some (r, q) →
    Clean p q (completeStatements a = true → completeStatements r = true)
  statement : ∀ p r q, parseStatement n p = some (r, q) →
    Clean p q (∀ s, r = some s → s.complete = true)
  letStatement : ∀ p r q, parseLetStatement n p = some (r, q) →
    Clean p q (∃ s, r = some s ∧ s.complete = true)
  returnStatement : ∀ p r q, parseReturnStatement n p = some (r, q) →
    Clean p q (∃ s, r = some s ∧ s.complete = true)
  expressionStatement : ∀ p r q, parseExpressionStatement n p = some (r, q) →
    Clean p q (∃ s, r = some s ∧ s.complete = true)

end parser

namespace parser
open token ast

/-- No token of the sequence is `return` or `type`. -/
def noReturnNoType (toks : List Token) : Bool :=
  toks.all (fun t => t.TokenKind != .RETURN && t.TokenKind != .TYPE)

/-- The run `run`, a parsing method applied to a state on the tokens `l` as a
function of its fuel, returns: from some fuel on it gives one and the same
result, in a state on a final segment of `l`. -/
def Halts {α : Type} (run : Nat → Option (α × Parser)) (l : List Token) : Prop :=
  ∃ (N : Nat) (r : α) (l' : List Token) (e' : List String),
    l' <:+ l ∧ ∀ fuel, N ≤ fuel → run fuel = some (r, stL l' e')

/-- Every parsing method that can run on a sequence without `return` and
`type` returns on the state on the tokens `l`, whatever its other arguments
and the error log. -/
structure HaltsAt (l : List Token) : Prop where
  expression : ∀ prec e, Halts (fun k => parseExpression k prec (stL l e)) l
  expressionLoop : ∀ prec left e,
    Halts (fun k => parseExpressionLoop k prec left (stL l e)) l
  prefixExpression : ∀ e, Halts (fun k => parsePrefixExpression k (stL l e)) l
  infixExpression : ∀ left e, Halts (fun k => parseInfixExpression k left (stL l e)) l
  expressionGroup : ∀ e, Halts (fun k => parseExpressionGroup k (stL l e)) l
  ifExpression : ∀ e, Halts (fun k => parseIfExpression k (stL l e)) l
  functionLiteral : ∀ e, Halts (fun k => parseFunctionLiteral k (stL l e)) l
  invocationExpression : ∀ f e,
    Halts (fun k => parseInvocationExpression k f (stL l e)) l
  invocationArguments : ∀ e, Halts (fun k => parseInvocationArguments k (stL l e)) l
  invocationArgumentsLoop : ∀ a e,
    Halts (fun k => parseInvocationArgumentsLoop k a (stL l e)) l
  blockStatement : ∀ e, Halts (fun k => parseBlockStatement k (stL l e)) l
  blockStatementLoop : ∀ a e, Halts (fun k => parseBlockStatementLoop k a (stL l e)) l
  statement : ∀ e, Halts (fun k => parseStatement k (stL l e)) l
  letStatement : ∀ e, Halts (fun k => parseLetStatement k (stL l e)) l
  expressionStatement : ∀ e, Halts (fun k => parseExpressionStatement k (stL l e)) l
  programLoop : ∀ a e, Halts (fun k => ParseProgramLoop k a (stL l e)) l

end parser


/-!
# One step of each parsing method on a state `st`
-/

namespace parser

open token ast

theorem New_eq (toks : List Token) : New ⟨toks⟩ = stL toks [] := by
  cases toks <;> rfl

theorem nextToken_st (c : Token) (l : List Token) (e : List String) :
    nextToken (st c l e) = stL l e := by
  cases l <;> rfl

theorem expectPeek_pos (k : TokenKind) (c x : Token) (l : List Token) (e : List String)
    (h : x.TokenKind = k) : expectPeek k (st c (x :: l) e) = (true, st x l e) := by
  have : peekTokenIs k (st c (x :: l) e) = true := by
    simp only [peekTokenIs, st, scanner.Scanner.NextToken, h, decide_True]
  rw [expectPeek, if_pos this]
  rfl

theorem expectPeek_neg (k : TokenKind) (c x : Token) (l : List Token) (e : List String)
    (h : x.TokenKind ≠ k) :
    expectPeek k (st c (x :: l) e) =
      (false, st c (x :: l) (e ++ ["expected next token to be '" ++ k.String ++
        "', received " ++ x.TokenKind.String])) := by
  have : ¬ peekTokenIs k (st c (x :: l) e) = true := by
    simp only [peekTokenIs, st, scanner.Scanner.NextToken, h, decide_False]
    simp
  rw [expectPeek, if_neg this]
  rfl

theorem lowest_lt_binop (k : TokenKind) (h : isBinop k = true) : LOWEST < precOf k := by
  cases k <;> simp [isBinop] at h <;> decide

theorem binop_le_product (k : TokenKind) (h : isBinop k = true) : precOf k ≤ PRODUCT := by
  cases k <;> simp [isBinop] at h <;> decide

theorem operand_kind (t : Token) (A : Expression) (h : operand t = some A) :
    t.TokenKind = .IDENT ∨ t.TokenKind = .INT := by
  obtain ⟨k, l⟩ := t
  cases k <;> simp [operand] at h <;> simp

theorem atom_of_operand (t : Token) (A : Expression) (h : operand t = some A) :
    atom t = some A := by
  obtain ⟨k, l⟩ := t
  cases k <;> simp [operand] at h <;> simpa [atom, operand] using h

theorem parseExpression_atom (k : Nat) (p : Precedence) (t : Token) (A : Expression)
    (l : List Token) (e : List String) (h : atom t = some A) :
    parseExpression (k + 1) p (st t l e) = parseExpressionLoop k p (some A) (st t l e) := by
  obtain ⟨kind, lit⟩ := t
  cases kind <;> simp [atom, operand] at h
  · subst h; rfl
  · split at h
    · rename_i v hv
      simp at h
      subst h
      simp only [parseExpression, st, registeredPrefix, New, registerPrefix, registerInfix,
        nextToken]
      simp [parseIntegerLiteral, hv]
    · simp at h
  all_goals subst h; rfl

theorem parseExpression_unary (k : Nat) (p : Precedence) (op : Token) (l : List Token)
    (e : List String) (h : isUnop op.TokenKind = true) :
    parseExpression (k + 1) p (st op l e) =
      match parsePrefixExpression k (st op l e) with
      | none => none
      | some (x, q) => parseExpressionLoop k p x q := by
  obtain ⟨kind, lit⟩ := op
  cases kind <;> simp [isUnop] at h <;> rfl

theorem parsePrefixExpression_st (k : Nat) (op : Token) (l : List Token) (e : List String) :
    parsePrefixExpression (k + 1) (st op l e) =
      match parseExpression k PREFIX (stL l e) with
      | none => none
      | some (right, q) => some (some (.PrefixExpression op op.Literal right), q) := by
  cases l <;> rfl

theorem parseExpression_group (k : Nat) (p : Precedence) (lp : Token) (l : List Token)
    (e : List String) (h : lp.TokenKind = .LPAREN) :
    parseExpression (k + 1) p (st lp l e) =
      match parseExpressionGroup k (st lp l e) with
      | none => none
      | some (x, q) => parseExpressionLoop k p x q := by
  obtain ⟨kind, lit⟩ := lp
  cases h
  rfl

theorem parseExpressionGroup_st (k : Nat) (lp : Token) (l : List Token) (e : List String) :
    parseExpressionGroup (k + 1) (st lp l e) =
      match parseExpression k LOWEST (stL l e) with
      | none => none
      | some (exp, q) =>
        match expectPeek .RPAREN q with
        | (false, q) => some (none, q)
        | (true, q) => some (exp, q) := by
  cases l <;> rfl

theorem loop_stop (k : Nat) (p : Precedence) (left : Option Expression) (c x : Token)
    (l : List Token) (e : List String) (h : x.TokenKind = .SEMI ∨ precOf x.TokenKind ≤ p) :
    parseExpressionLoop (k + 1) p left (st c (x :: l) e) = some (left, st c (x :: l) e) := by
  have : (!peekTokenIs .SEMI (st c (x :: l) e) &&
      decide (p < peekPrecedence (st c (x :: l) e))) = false := by
    rcases h with h | h
    · simp [peekTokenIs, st, scanner.Scanner.NextToken, h]
    · have hp : peekPrecedence (st c (x :: l) e) = precOf x.TokenKind := rfl
      rw [hp]
      have hn : ¬ p < precOf x.TokenKind := Nat.not_lt.mpr h
      simp [hn]
  simp only [parseExpressionLoop, this]
  simp

theorem loop_binop (k : Nat) (p : Precedence) (left : Option Expression) (c op : Token)
    (l : List Token) (e : List String) (hop : isBinop op.TokenKind = true)
    (h : p < precOf op.TokenKind) :
    parseExpressionLoop (k + 1) p left (st c (op :: l) e) =
      match parseInfixExpression k left (st op l e) with
      | none => none
      | some (x, q) => parseExpressionLoop k p x q := by
  obtain ⟨kind, lit⟩ := op
  have h' : p < peekPrecedence (st c (⟨kind, lit⟩ :: l) e) := h
  cases kind <;> simp [isBinop] at hop <;>
    simp only [parseExpressionLoop, h'] <;> rfl

theorem loop_call (k : Nat) (p : Precedence) (left : Option Expression) (c lp : Token)
    (l : List Token) (e : List String) (hlp : lp.TokenKind = .LPAREN)
    (h : p < INVOCATION) :
    parseExpressionLoop (k + 1) p left (st c (lp :: l) e) =
      match parseInvocationExpression k left (st lp l e) with
      | none => none
      | some (x, q) => parseExpressionLoop k p x q := by
  obtain ⟨kind, lit⟩ := lp
  cases hlp
  have h' : p < peekPrecedence (st c (⟨.LPAREN, lit⟩ :: l) e) := h
  simp only [parseExpressionLoop, h']
  rfl

theorem parseInfixExpression_st (k : Nat) (left : Option Expression) (op : Token)
    (l : List Token) (e : List String) :
    parseInfixExpression (k + 1) left (st op l e) =
      match parseExpression k (precOf op.TokenKind) (stL l e) with
      | none => none
      | some (right, q) => some (some (.InfixExpression op op.Literal left right), q) := by
  cases l <;> rfl

theorem parseInvocationExpression_st (k : Nat) (f : Option Expression) (lp : Token)
    (l : List Token) (e : List String) :
    parseInvocationExpression (k + 1) f (st lp l e) =
      match parseInvocationArguments k (st lp l e) with
      | none => none
      | some (args, q) => some (some (.InvocationExpression lp f args), q) := rfl

theorem parseInvocationArguments_empty (k : Nat) (lp rp : Token) (l : List Token)
    (e : List String) (h : rp.TokenKind = .RPAREN) :
    parseInvocationArguments (k + 1) (st lp (rp :: l) e) = some (some [], st rp l e) := by
  obtain ⟨kind, lit⟩ := rp
  cases h
  rfl

theorem parseInvocationArguments_nonempty (k : Nat) (lp x : Token) (l : List Token)
    (e : List String) (h : x.TokenKind ≠ .RPAREN) :
    parseInvocationArguments (k + 1) (st lp (x :: l) e) =
      match parseExpression k LOWEST (st x l e) with
      | none => none
      | some (a, q) =>
        match parseInvocationArgumentsLoop k [a] q with
        | none => none
        | some (args, q) =>
          match expectPeek .RPAREN q with
          | (false, q) => some (none, q)
          | (true, q) => some (some args, q) := by
  have h' : ¬ currentTokenIs .RPAREN (nextToken (st lp (x :: l) e)) = true := by
    simpa [currentTokenIs, nextToken_st, stL, st] using h
  rw [parseInvocationArguments]
  simp only [h']
  rfl

theorem argsLoop_comma (k : Nat) (args : List (Option Expression)) (c cm : Token)
    (l : List Token) (e : List String) (h : cm.TokenKind = .COMMA) :
    parseInvocationArgumentsLoop (k + 1) args (st c (cm :: l) e) =
      match parseExpression k LOWEST (stL l e) with
      | none => none
      | some (a, q) => parseInvocationArgumentsLoop k (args ++ [a]) q := by
  obtain ⟨kind, lit⟩ := cm
  cases h
  cases l <;> rfl

theorem argsLoop_stop (k : Nat) (args : List (Option Expression)) (c x : Token)
    (l : List Token) (e : List String) (h : x.TokenKind ≠ .COMMA) :
    parseInvocationArgumentsLoop (k + 1) args (st c (x :: l) e) =
      some (args, st c (x :: l) e) := by
  have h' : ¬ peekTokenIs .COMMA (st c (x :: l) e) = true := by
    simpa [peekTokenIs, st, scanner.Scanner.NextToken] using h
  rw [parseInvocationArgumentsLoop]
  simp only [h']
  rfl

theorem ParseProgramLoop_step (k : Nat) (stmts : List Statement) (t : Token) (l : List Token)
    (e : List String) (h : t.TokenKind ≠ .EOF) :
    ParseProgramLoop (k + 1) stmts (st t l e) =
      match parseStatement k (st t l e) with
      | none => none
      | some (stmt, q) =>
        ParseProgramLoop k (match stmt with | some s => stmts ++ [s] | none => stmts)
          (nextToken q) := by
  have h' : (st t l e).currentToken.TokenKind ≠ .EOF := h
  rw [ParseProgramLoop]
  exact if_pos h'

theorem ParseProgramLoop_eof (k : Nat) (stmts : List Statement) (t : Token) (l : List Token)
    (e : List String) (h : t.TokenKind = .EOF) :
    ParseProgramLoop (k + 1) stmts (st t l e) = some (stmts, st t l e) := by
  have h' : ¬ (st t l e).currentToken.TokenKind ≠ .EOF := fun hn => hn h
  rw [ParseProgramLoop]
  exact if_neg h'

theorem parseStatement_expression (k : Nat) (t : Token) (l : List Token) (e : List String)
    (h1 : t.TokenKind ≠ .TYPE) (h2 : t.TokenKind ≠ .LET) (h3 : t.TokenKind ≠ .RETURN) :
    parseStatement (k + 1) (st t l e) =
      match parseExpressionStatement k (st t l e) with
      | none => none
      | some (ptr, q) => some (some (.ExpressionStatement ptr), q) := by
  obtain ⟨kind, lit⟩ := t
  cases kind <;> first | rfl | simp at h1 h2 h3

theorem parseExpressionStatement_st (k : Nat) (t : Token) (l : List Token) (e : List String) :
    parseExpressionStatement (k + 1) (st t l e) =
      match parseExpression k LOWEST (st t l e) with
      | none => none
      | some (expression, q) =>
        some (some (.mk t expression), if peekTokenIs .SEMI q then nextToken q else q) := rfl

end parser

/-!
# More fuel never changes a result
-/

namespace parser

open token ast

theorem eq_of_some_imp {α : Type} {a b : Option α} (h : ∀ r, a = some r → b = some r)
    (hn : a ≠ none) : b = a := by
  cases a with
  | none => exact absurd rfl hn
  | some r => exact h r rfl

theorem parseTypeDeclarationLoop_succ (n : Nat) : ∀ (s r : Parser),
    parseTypeDeclarationLoop n s = some r → parseTypeDeclarationLoop (n + 1) s = some r := by
  induction n with
  | zero => intro s r h; simp [parseTypeDeclarationLoop] at h
  | succ n ih =>
    intro s r h
    rw [parseTypeDeclarationLoop] at h ⊢
    split at h
    · rename_i hc; rw [if_pos hc]; exact ih _ _ h
    · rename_i hc; rw [if_neg hc]; exact h

theorem parseReturnStatementLoop_succ (n : Nat) : ∀ (s r : Parser),
    parseReturnStatementLoop n s = some r → parseReturnStatementLoop (n + 1) s = some r := by
  induction n with
  | zero => intro s r h; simp [parseReturnStatementLoop] at h
  | succ n ih =>
    intro s r h
    rw [parseReturnStatementLoop] at h ⊢
    split at h
    · rename_i hc; rw [if_pos hc]; exact ih _ _ h
    · rename_i hc; rw [if_neg hc]; exact h

theorem parseFunctionArgsLoop_succ (n : Nat) : ∀ (ids : List Identifier) (s : Parser)
    (r : List Identifier × Parser),
    parseFunctionArgsLoop n ids s = some r → parseFunctionArgsLoop (n + 1) ids s = some r := by
  induction n with
  | zero => intro ids s r h; simp [parseFunctionArgsLoop] at h
  | succ n ih =>
    intro ids s r h
    rw [parseFunctionArgsLoop] at h ⊢
    split at h
    · rename_i hc; rw [if_pos hc]; exact ih _ _ _ h
    · rename_i hc; rw [if_neg hc]; exact h

theorem parseTypeDeclaration_succ (n : Nat) (s : Parser)
    (r : Option TypeDeclarationStatement × Parser)
    (h : parseTypeDeclaration n s = some r) : parseTypeDeclaration (n + 1) s = some r := by
  have hB := fun s => eq_of_some_imp (parseTypeDeclarationLoop_succ n s)
  rw [parseTypeDeclaration] at h ⊢
  try simp only [] at h ⊢
  repeat' split at h
  all_goals simp_all

theorem parseFunctionArgs_succ (n : Nat) (s : Parser)
    (r : Option (List Identifier) × Parser)
    (h : parseFunctionArgs n s = some r) : parseFunctionArgs (n + 1) s = some r := by
  have hB := fun ids s => eq_of_some_imp (parseFunctionArgsLoop_succ n ids s)
  rw [parseFunctionArgs] at h ⊢
  try simp only [] at h ⊢
  repeat' split at h
  all_goals simp_all

theorem monoAt_zero : MonoAt 0 := by
  constructor <;> intros <;> rename_i h
  · simp [parseExpression] at h
  · simp [parseExpressionLoop] at h
  · simp [parsePrefixExpression] at h
  · simp [parseInfixExpression] at h
  · simp [parseExpressionGroup] at h
  · simp [parseIfExpression] at h
  · simp [parseFunctionLiteral] at h
  · simp [parseInvocationExpression] at h
  · simp [parseInvocationArguments] at h
  · simp [parseInvocationArgumentsLoop] at h
  · simp [parseBlockStatement] at h
  · simp [parseBlockStatementLoop] at h
  · simp [parseStatement] at h
  · simp [parseLetStatement] at h
  · simp [parseReturnStatement] at h
  · simp [parseExpressionStatement] at h

theorem parseExpression_fuel_succ (n : Nat)
    (hEL : ∀ p l s, parseExpressionLoop n p l s ≠ none → parseExpressionLoop (n + 1) p l s = parseExpressionLoop n p l s)
    (hP : ∀ s, parsePrefixExpression n s ≠ none → parsePrefixExpression (n + 1) s = parsePrefixExpression n s)
    (hG : ∀ s, parseExpressionGroup n s ≠ none → parseExpressionGroup (n + 1) s = parseExpressionGroup n s)
    (hIf : ∀ s, parseIfExpression n s ≠ none → parseIfExpression (n + 1) s = parseIfExpression n s)
    (hF : ∀ s, parseFunctionLiteral n s ≠ none → parseFunctionLiteral (n + 1) s = parseFunctionLiteral n s) :
    ∀ p s r, parseExpression (n + 1) p s = some r → parseExpression (n + 2) p s = some r := by
  intro p s r h
  rw [parseExpression] at h ⊢
  cases hfn : s.prefixParseFns s.currentToken.TokenKind with
  | none => simpa [hfn] using h
  | some fn =>
    simp only [hfn] at h ⊢
    cases fn <;> simp only [] at h ⊢ <;> (repeat' split at h) <;> simp_all

theorem parseExpressionLoop_fuel_succ (n : Nat)
    (hEL : ∀ p l s, parseExpressionLoop n p l s ≠ none → parseExpressionLoop (n + 1) p l s = parseExpressionLoop n p l s)
    (hI : ∀ l s, parseInfixExpression n l s ≠ none → parseInfixExpression (n + 1) l s = parseInfixExpression n l s)
    (hIE : ∀ f s, parseInvocationExpression n f s ≠ none → parseInvocationExpression (n + 1) f s = parseInvocationExpression n f s) :
    ∀ p l s r, parseExpressionLoop (n + 1) p l s = some r → parseExpressionLoop (n + 2) p l s = some r := by
  intro p l s r h
  rw [parseExpressionLoop] at h ⊢
  split at h
  · rename_i hc
    rw [if_pos hc]
    cases hfn : s.infixParseFns s.peekToken.TokenKind with
    | none => simpa [hfn] using h
    | some fn =>
      simp only [hfn] at h ⊢
      cases fn <;> simp only [] at h ⊢ <;> (repeat' split at h) <;> simp_all
  · rename_i hc
    rw [if_neg hc]
    exact h

theorem parsePrefixExpression_fuel_succ (n : Nat)
    (hE : ∀ p s, parseExpression n p s ≠ none → parseExpression (n + 1) p s = parseExpression n p s) :
    ∀ s r, parsePrefixExpression (n + 1) s = some r → parsePrefixExpression (n + 2) s = some r := by
  intro s r h
  rw [parsePrefixExpression] at h ⊢
  try simp only [] at h ⊢
  repeat' split at h
  all_goals simp_all

theorem parseInfixExpression_fuel_succ (n : Nat)
    (hE : ∀ p s, parseExpression n p s ≠ none → parseExpression (n + 1) p s = parseExpression n p s) :
    ∀ l s r, parseInfixExpression (n + 1) l s = some r → parseInfixExpression (n + 2) l s = some r := by
  intro l s r h
  rw [parseInfixExpression] at h ⊢
  try simp only [] at h ⊢
  repeat' split at h
  all_goals simp_all

theorem parseExpressionGroup_fuel_succ (n : Nat)
    (hE : ∀ p s, parseExpression n p s ≠ none → parseExpression (n + 1) p s = parseExpression n p s) :
    ∀ s r, parseExpressionGroup (n + 1) s = some r → parseExpressionGroup (n + 2) s = some r := by
  intro s r h
  rw [parseExpressionGroup] at h ⊢
  try simp only [] at h ⊢
  repeat' split at h
  all_goals simp_all

theorem parseIfExpression_fuel_succ (n : Nat)
    (hE : ∀ p s, parseExpression n p s ≠ none → parseExpression (n + 1) p s = parseExpression n p s)
    (hB : ∀ s, parseBlockStatement n s ≠ none → parseBlockStatement (n + 1) s = parseBlockStatement n s) :
    ∀ s r, parseIfExpression (n + 1) s = some r → parseIfExpression (n + 2) s = some r := by
  intro s r h
  rw [parseIfExpression] at h ⊢
  try simp only [] at h ⊢
  repeat' split at h
  all_goals simp_all

theorem parseFunctionLiteral_fuel_succ (n : Nat)
    (hFA : ∀ s, parseFunctionArgs n s ≠ none → parseFunctionArgs (n + 1) s = parseFunctionArgs n s)
    (hB : ∀ s, parseBlockStatement n s ≠ none → parseBlockStatement (n + 1) s = parseBlockStatement n s) :
    ∀ s r, parseFunctionLiteral (n + 1) s = some r → parseFunctionLiteral (n + 2) s = some r := by
  intro s r h
  rw [parseFunctionLiteral] at h ⊢
  try simp only [] at h ⊢
  repeat' split at h
  all_goals simp_all

theorem parseInvocationExpression_fuel_succ (n : Nat)
    (hIA : ∀ s, parseInvocationArguments n s ≠ none → parseInvocationArguments (n + 1) s = parseInvocationArguments n s) :
    ∀ f s r, parseInvocationExpression (n + 1) f s = some r → parseInvocationExpression (n + 2) f s = some r := by
  intro f s r h
  rw [parseInvocationExpression] at h ⊢
  try simp only [] at h ⊢
  repeat' split at h
  all_goals simp_all

theorem parseInvocationArguments_fuel_succ (n : Nat)
    (hE : ∀ p s, parseExpression n p s ≠ none → parseExpression (n + 1) p s = parseExpression n p s)
    (hIAL : ∀ a s, parseInvocationArgumentsLoop n a s ≠ none → parseInvocationArgumentsLoop (n + 1) a s = parseInvocationArgumentsLoop n a s) :
    ∀ s r, parseInvocationArguments (n + 1) s = some r → parseInvocationArguments (n + 2) s = some r := by
  intro s r h
  rw [parseInvocationArguments] at h ⊢
  try simp only [] at h ⊢
  repeat' split at h
  all_goals simp_all

theorem parseInvocationArgumentsLoop_fuel_succ (n : Nat)
    (hE : ∀ p s, parseExpression n p s ≠ none → parseExpression (n + 1) p s = parseExpression n p s)
    (hIAL : ∀ a s, parseInvocationArgumentsLoop n a s ≠ none → parseInvocationArgumentsLoop (n + 1) a s = parseInvocationArgumentsLoop n a s) :
    ∀ a s r, parseInvocationArgumentsLoop (n + 1) a s = some r → parseInvocationArgumentsLoop (n + 2) a s = some r := by
  intro a s r h
  rw [parseInvocationArgumentsLoop] at h ⊢
  try simp only [] at h ⊢
  repeat' split at h
  all_goals simp_all

theorem parseBlockStatement_fuel_succ (n : Nat)
    (hBL : ∀ a s, parseBlockStatementLoop n a s ≠ none → parseBlockStatementLoop (n + 1) a s = parseBlockStatementLoop n a s) :
    ∀ s r, parseBlockStatement (n + 1) s = some r → parseBlockStatement (n + 2) s = some r := by
  intro s r h
  rw [parseBlockStatement] at h ⊢
  try simp only [] at h ⊢
  repeat' split at h
  all_goals simp_all

theorem parseBlockStatementLoop_fuel_succ (n : Nat)
    (hS : ∀ s, parseStatement n s ≠ none → parseStatement (n + 1) s = parseStatement n s)
    (hBL : ∀ a s, parseBlockStatementLoop n a s ≠ none → parseBlockStatementLoop (n + 1) a s = parseBlockStatementLoop n a s) :
    ∀ a s r, parseBlockStatementLoop (n + 1) a s = some r → parseBlockStatementLoop (n + 2) a s = some r := by
  intro a s r h
  rw [parseBlockStatementLoop] at h ⊢
  try simp only [] at h ⊢
  repeat' split at h
  all_goals simp_all

theorem parseStatement_fuel_succ (n : Nat)
    (hTD : ∀ s, parseTypeDeclaration n s ≠ none → parseTypeDeclaration (n + 1) s = parseTypeDeclaration n s)
    (hLet : ∀ s, parseLetStatement n s ≠ none → parseLetStatement (n + 1) s = parseLetStatement n s)
    (hR : ∀ s, parseReturnStatement n s ≠ none → parseReturnStatement (n + 1) s = parseReturnStatement n s)
    (hES : ∀ s, parseExpressionStatement n s ≠ none → parseExpressionStatement (n + 1) s = parseExpressionStatement n s) :
    ∀ s r, parseStatement (n + 1) s = some r → parseStatement (n + 2) s = some r := by
  intro s r h
  rw [parseStatement] at h ⊢
  try simp only [] at h ⊢
  repeat' split at h
  all_goals simp_all

theorem parseLetStatement_fuel_succ (n : Nat)
    (hE : ∀ p s, parseExpression n p s ≠ none → parseExpression (n + 1) p s = parseExpression n p s) :
    ∀ s r, parseLetStatement (n + 1) s = some r → parseLetStatement (n + 2) s = some r := by
  intro s r h
  rw [parseLetStatement] at h ⊢
  try simp only [] at h ⊢
  repeat' split at h
  all_goals simp_all

theorem parseReturnStatement_fuel_succ (n : Nat)
    (hE : ∀ p s, parseExpression n p s ≠ none → parseExpression (n + 1) p s = parseExpression n p s)
    (hRL : ∀ s, parseReturnStatementLoop n s ≠ none → parseReturnStatementLoop (n + 1) s = parseReturnStatementLoop n s) :
    ∀ s r, parseReturnStatement (n + 1) s = some r → parseReturnStatement (n + 2) s = some r := by
  intro s r h
  rw [parseReturnStatement] at h ⊢
  try simp only [] at h ⊢
  repeat' split at h
  all_goals simp_all

theorem parseExpressionStatement_fuel_succ (n : Nat)
    (hE : ∀ p s, parseExpression n p s ≠ none → parseExpression (n + 1) p s = parseExpression n p s) :
    ∀ s r, parseExpressionStatement (n + 1) s = some r → parseExpressionStatement (n + 2) s = some r := by
  intro s r h
  rw [parseExpressionStatement] at h ⊢
  try simp only [] at h ⊢
  repeat' split at h
  all_goals simp_all

theorem monoAt_succ (n : Nat) (ih : MonoAt n) : MonoAt (n + 1) := by
  have hE := fun p s => eq_of_some_imp (ih.expression p s)
  have hEL := fun p l s => eq_of_some_imp (ih.expressionLoop p l s)
  have hP := fun s => eq_of_some_imp (ih.prefixExpression s)
  have hI := fun l s => eq_of_some_imp (ih.infixExpression l s)
  have hG := fun s => eq_of_some_imp (ih.expressionGroup s)
  have hIf := fun s => eq_of_some_imp (ih.ifExpression s)
  have hF := fun s => eq_of_some_imp (ih.functionLiteral s)
  have hIE := fun f s => eq_of_some_imp (ih.invocationExpression f s)
  have hIA := fun s => eq_of_some_imp (ih.invocationArguments s)
  have hIAL := fun a s => eq_of_some_imp (ih.invocationArgumentsLoop a s)
  have hB := fun s => eq_of_some_imp (ih.blockStatement s)
  have hBL := fun a s => eq_of_some_imp (ih.blockStatementLoop a s)
  have hS := fun s => eq_of_some_imp (ih.statement s)
  have hLet := fun s => eq_of_some_imp (ih.letStatement s)
  have hR := fun s => eq_of_some_imp (ih.returnStatement s)
  have hES := fun s => eq_of_some_imp (ih.expressionStatement s)
  have hTD := fun s => eq_of_some_imp (parseTypeDeclaration_succ n s)
  have hFA := fun s => eq_of_some_imp (parseFunctionArgs_succ n s)
  have hRL := fun s => eq_of_some_imp (parseReturnStatementLoop_succ n s)
  exact
    { expression := parseExpression_fuel_succ n hEL hP hG hIf hF
      expressionLoop := parseExpressionLoop_fuel_succ n hEL hI hIE
      prefixExpression := parsePrefixExpression_fuel_succ n hE
      infixExpression := parseInfixExpression_fuel_succ n hE
      expressionGroup := parseExpressionGroup_fuel_succ n hE
      ifExpression := parseIfExpression_fuel_succ n hE hB
      functionLiteral := parseFunctionLiteral_fuel_succ n hFA hB
      invocationExpression := parseInvocationExpression_fuel_succ n hIA
      invocationArguments := parseInvocationArguments_fuel_succ n hE hIAL
      invocationArgumentsLoop := parseInvocationArgumentsLoop_fuel_succ n hE hIAL
      blockStatement := parseBlockStatement_fuel_succ n hBL
      blockStatementLoop := parseBlockStatementLoop_fuel_succ n hS hBL
      statement := parseStatement_fuel_succ n hTD hLet hR hES
      letStatement := parseLetStatement_fuel_succ n hE
      returnStatement := parseReturnStatement_fuel_succ n hE hRL
      expressionStatement := parseExpressionStatement_fuel_succ n hE }

theorem monoAt (n : Nat) : MonoAt n := by
  induction n with
  | zero => exact monoAt_zero
  | succ n ih => exact monoAt_succ n ih

end parser

namespace parser

open token ast

theorem parseExpression_mono {n m : Nat} (hnm : n ≤ m) (p : Precedence) (s : Parser)
    (r : Option Expression × Parser) (h : parseExpression n p s = some r) :
    parseExpression m p s = some r := by
  induction hnm with
  | refl => exact h
  | step _ ih => exact (monoAt _).expression p s r ih

theorem parseBlockStatement_mono {n m : Nat} (hnm : n ≤ m) (s : Parser)
    (r : Option BlockStatement × Parser) (h : parseBlockStatement n s = some r) :
    parseBlockStatement m s = some r := by
  induction hnm with
  | refl => exact h
  | step _ ih => exact (monoAt _).blockStatement s r ih

theorem parseExpressionLoop_mono {n m : Nat} (hnm : n ≤ m) (p : Precedence)
    (l : Option Expression) (s : Parser)
    (r : Option Expression × Parser) (h : parseExpressionLoop n p l s = some r) :
    parseExpressionLoop m p l s = some r := by
  induction hnm with
  | refl => exact h
  | step _ ih => exact (monoAt _).expressionLoop p l s r ih

theorem parseStatement_mono {n m : Nat} (hnm : n ≤ m) (s : Parser)
    (r : Option Statement × Parser) (h : parseStatement n s = some r) :
    parseStatement m s = some r := by
  induction hnm with
  | refl => exact h
  | step _ ih => exact (monoAt _).statement s r ih

theorem parseFunctionArgs_mono {n m : Nat} (hnm : n ≤ m) (s : Parser)
    (r : Option (List Identifier) × Parser) (h : parseFunctionArgs n s = some r) :
    parseFunctionArgs m s = some r := by
  induction hnm with
  | refl => exact h
  | step _ ih => exact parseFunctionArgs_succ _ s r ih

theorem parseInvocationArgumentsLoop_mono {n m : Nat} (hnm : n ≤ m)
    (a : List (Option Expression)) (s : Parser)
    (r : List (Option Expression) × Parser) (h : parseInvocationArgumentsLoop n a s = some r) :
    parseInvocationArgumentsLoop m a s = some r := by
  induction hnm with
  | refl => exact h
  | step _ ih => exact (monoAt _).invocationArgumentsLoop a s r ih

theorem parseExpression_det {n m : Nat} (p : Precedence) (s : Parser)
    (r r' : Option Expression × Parser) (h : parseExpression n p s = some r)
    (h' : parseExpression m p s = some r') : r = r' := by
  have h1 := parseExpression_mono (Nat.le_max_left n m) p s r h
  have h2 := parseExpression_mono (Nat.le_max_right n m) p s r' h'
  rw [h1] at h2
  exact Option.some.inj h2

theorem ParseProgramLoop_succ (n : Nat) : ∀ (a : List Statement) (s : Parser)
    (r : List Statement × Parser),
    ParseProgramLoop n a s = some r → ParseProgramLoop (n + 1) a s = some r := by
  induction n with
  | zero => intro a s r h; simp [ParseProgramLoop] at h
  | succ n ih =>
    intro a s r h
    have hS := fun s => eq_of_some_imp ((monoAt n).statement s)
    have hL := fun a s => eq_of_some_imp (ih a s)
    rw [ParseProgramLoop] at h ⊢
    try simp only [] at h ⊢
    repeat' split at h
    all_goals simp_all

theorem parse_succ (n : Nat) (toks : List Token) (r : List Statement × List String)
    (h : parse n toks = some r) : parse (n + 1) toks = some r := by
  cases hc : ParseProgramLoop n [] (New ⟨toks⟩) with
  | none => simp [parse, ParseProgram, hc] at h
  | some v =>
    have hs := ParseProgramLoop_succ n _ _ _ hc
    simp only [parse, ParseProgram, hc, hs] at h ⊢
    exact h

theorem parse_mono {n m : Nat} (hnm : n ≤ m) (toks : List Token)
    (r : List Statement × List String) (h : parse n toks = some r) :
    parse m toks = some r := by
  induction hnm with
  | refl => exact h
  | step _ ih => exact parse_succ _ toks r ih

end parser

/-!
# Short operator expressions
-/

namespace parser

open token ast

/-- An expression statement alone: once `parseExpression` at `LOWEST` has read
the whole input up to the end-of-file token, the program is that one
statement. -/
theorem single_statement (n : Nat) (t tl x : Token) (l : List Token) (X : Option Expression)
    (errs : List String)
    (h1 : t.TokenKind ≠ .TYPE) (h2 : t.TokenKind ≠ .LET) (h3 : t.TokenKind ≠ .RETURN)
    (h4 : t.TokenKind ≠ .EOF) (hx : x.TokenKind = .EOF)
    (h : parseExpression (n + 1) LOWEST (st t l []) = some (X, st tl [x] errs)) :
    parse (n + 4) (t :: l) = some ([.ExpressionStatement (some (.mk t X))], errs) := by
  have hsemi : peekTokenIs .SEMI (st tl [x] errs) = false := by
    simp [peekTokenIs, st, scanner.Scanner.NextToken, hx]
  simp only [parse, ParseProgram, New_eq, stL]
  rw [ParseProgramLoop_step _ _ _ _ _ h4, parseStatement_expression _ _ _ _ h1 h2 h3,
    parseExpressionStatement_st, h]
  simp only [hsemi, nextToken_st, stL, Bool.false_eq_true, if_false]
  rw [ParseProgramLoop_eof _ _ _ _ _ hx]
  rfl

theorem operand_not_statement_start (t : Token) (A : Expression) (h : operand t = some A) :
    t.TokenKind ≠ .TYPE ∧ t.TokenKind ≠ .LET ∧ t.TokenKind ≠ .RETURN ∧ t.TokenKind ≠ .EOF := by
  rcases operand_kind t A h with h | h <;> simp [h]

/-- An atomic operand followed by a token at which the loop stops. -/
theorem parseExpression_operand_stop (n : Nat) (p : Precedence) (t x : Token) (A : Expression)
    (l : List Token) (e : List String) (h : operand t = some A)
    (hx : x.TokenKind = .SEMI ∨ precOf x.TokenKind ≤ p) :
    parseExpression (n + 2) p (st t (x :: l) e) = some (some A, st t (x :: l) e) := by
  rw [parseExpression_atom _ _ _ _ _ _ (atom_of_operand _ _ h), loop_stop _ _ _ _ _ _ _ hx]

/-- The expression `a o1 b o2 c` with `o2` binding tighter than `o1`. -/
theorem expression_right (n : Nat) (a o1 b o2 c x : Token) (A B C : Expression)
    (l : List Token) (e : List String)
    (ha : operand a = some A) (hb : operand b = some B) (hc : operand c = some C)
    (h1 : isBinop o1.TokenKind = true) (h2 : isBinop o2.TokenKind = true)
    (hlt : precOf o1.TokenKind < precOf o2.TokenKind) (hx : precOf x.TokenKind = LOWEST) :
    parseExpression (n + 8) LOWEST (st a (o1 :: b :: o2 :: c :: x :: l) e) =
      some (some (.InfixExpression o1 o1.Literal (some A)
        (some (.InfixExpression o2 o2.Literal (some B) (some C)))), st c (x :: l) e) := by
  have hp1 := lowest_lt_binop _ h1
  have hp2 := lowest_lt_binop _ h2
  rw [parseExpression_atom _ _ _ _ _ _ (atom_of_operand _ _ ha),
    loop_binop _ _ _ _ _ _ _ h1 hp1, parseInfixExpression_st, stL,
    parseExpression_atom _ _ _ _ _ _ (atom_of_operand _ _ hb),
    loop_binop _ _ _ _ _ _ _ h2 hlt, parseInfixExpression_st, stL,
    parseExpression_operand_stop _ _ _ _ _ _ _ hc (Or.inr (by rw [hx]; exact Nat.le_of_lt hp2))]
  simp only []
  rw [loop_stop _ _ _ _ _ _ _ (Or.inr (by rw [hx]; exact Nat.le_of_lt hp1))]
  simp only []
  exact loop_stop _ _ _ _ _ _ _ (Or.inr (by rw [hx]))

/-- The expression `a o1 b o2 c` with `o2` binding no tighter than `o1`. -/
theorem expression_left (n : Nat) (a o1 b o2 c x : Token) (A B C : Expression)
    (l : List Token) (e : List String)
    (ha : operand a = some A) (hb : operand b = some B) (hc : operand c = some C)
    (h1 : isBinop o1.TokenKind = true) (h2 : isBinop o2.TokenKind = true)
    (hge : precOf o2.TokenKind ≤ precOf o1.TokenKind) (hx : precOf x.TokenKind = LOWEST) :
    parseExpression (n + 6) LOWEST (st a (o1 :: b :: o2 :: c :: x :: l) e) =
      some (some (.InfixExpression o2 o2.Literal
        (some (.InfixExpression o1 o1.Literal (some A) (some B))) (some C)), st c (x :: l) e) := by
  have hp1 := lowest_lt_binop _ h1
  have hp2 := lowest_lt_binop _ h2
  rw [parseExpression_atom _ _ _ _ _ _ (atom_of_operand _ _ ha),
    loop_binop _ _ _ _ _ _ _ h1 hp1, parseInfixExpression_st, stL,
    parseExpression_operand_stop _ _ _ _ _ _ _ hb (Or.inr hge)]
  simp only []
  rw [loop_binop _ _ _ _ _ _ _ h2 hp2, parseInfixExpression_st, stL,
    parseExpression_operand_stop _ _ _ _ _ _ _ hc (Or.inr (by rw [hx]; exact Nat.le_of_lt hp2))]
  simp only []
  exact loop_stop _ _ _ _ _ _ _ (Or.inr (by rw [hx]))

/-- The expression `( a o1 b ) o2 c`. -/
theorem expression_group (n : Nat) (lp a o1 b rp o2 c x : Token) (A B C : Expression)
    (l : List Token) (e : List String)
    (ha : operand a = some A) (hb : operand b = some B) (hc : operand c = some C)
    (h1 : isBinop o1.TokenKind = true) (h2 : isBinop o2.TokenKind = true)
    (hlp : lp.TokenKind = .LPAREN) (hrp : rp.TokenKind = .RPAREN)
    (hx : precOf x.TokenKind = LOWEST) :
    parseExpression (n + 7) LOWEST (st lp (a :: o1 :: b :: rp :: o2 :: c :: x :: l) e) =
      some (some (.InfixExpression o2 o2.Literal
        (some (.InfixExpression o1 o1.Literal (some A) (some B))) (some C)), st c (x :: l) e) := by
  have hp1 := lowest_lt_binop _ h1
  have hp2 := lowest_lt_binop _ h2
  have hrp' : precOf rp.TokenKind = LOWEST := by rw [hrp]; rfl
  rw [parseExpression_group _ _ _ _ _ hlp, parseExpressionGroup_st, stL,
    parseExpression_atom _ _ _ _ _ _ (atom_of_operand _ _ ha),
    loop_binop _ _ _ _ _ _ _ h1 hp1, parseInfixExpression_st, stL,
    parseExpression_operand_stop _ _ _ _ _ _ _ hb (Or.inr (by rw [hrp']; exact Nat.le_of_lt hp1))]
  simp only []
  rw [loop_stop _ _ _ _ _ _ _ (Or.inr (by rw [hrp']))]
  simp only []
  rw [expectPeek_pos _ _ _ _ _ hrp]
  simp only []
  rw [loop_binop _ _ _ _ _ _ _ h2 hp2, parseInfixExpression_st, stL,
    parseExpression_operand_stop _ _ _ _ _ _ _ hc (Or.inr (by rw [hx]; exact Nat.le_of_lt hp2))]
  simp only []
  exact loop_stop _ _ _ _ _ _ _ (Or.inr (by rw [hx]))

end parser

/-!
# Operator chains
-/

namespace parser

open token ast

theorem PItems.cut_cut (p q : Precedence) (hpq : p ≤ q) :
    ∀ (is : PItems), (is.cut q).cut p = is.cut p
  | .nil => rfl
  | .binary op o rest => by
    by_cases h : q < precOf op.TokenKind
    · have h' : p < precOf op.TokenKind := Nat.lt_of_le_of_lt hpq h
      simp only [PItems.cut, if_pos h, if_pos h']
      exact PItems.cut_cut p q hpq rest
    · simp only [PItems.cut, if_neg h]
  | .call0 _ _ rest => by
    simp only [PItems.cut]
    exact PItems.cut_cut p q hpq rest
  | .call _ _ _ rest => by
    simp only [PItems.cut]
    exact PItems.cut_cut p q hpq rest

theorem PItems.cut_length (p : Precedence) :
    ∀ (is : PItems), (is.cut p).tokens.length ≤ is.tokens.length
  | .nil => Nat.le_refl _
  | .binary op o rest => by
    by_cases h : p < precOf op.TokenKind
    · simp only [PItems.cut, if_pos h, PItems.tokens, List.length_cons, List.length_append]
      have := PItems.cut_length p rest
      omega
    · simp only [PItems.cut, if_neg h]
      exact Nat.le_refl _
  | .call0 _ _ rest => by
    simp only [PItems.cut, PItems.tokens, List.length_cons]
    have := PItems.cut_length p rest
    omega
  | .call _ _ _ rest => by
    simp only [PItems.cut, PItems.tokens, List.length_cons, List.length_append]
    have := PItems.cut_length p rest
    omega

theorem PItems.cut_wf (p : Precedence) :
    ∀ (is : PItems), is.wf = true → (is.cut p).wf = true
  | .nil, _ => rfl
  | .binary op o rest, h => by
    by_cases hp : p < precOf op.TokenKind
    · simp only [PItems.cut, if_pos hp]
      simp only [PItems.wf, Bool.and_eq_true] at h
      exact PItems.cut_wf p rest h.2
    · simp only [PItems.cut, if_neg hp]
      exact h
  | .call0 _ _ rest, h => by
    simp only [PItems.wf, Bool.and_eq_true] at h
    simp only [PItems.cut]
    exact PItems.cut_wf p rest h.2
  | .call _ _ _ rest, h => by
    simp only [PItems.wf, Bool.and_eq_true] at h
    simp only [PItems.cut]
    exact PItems.cut_wf p rest h.2

theorem PItems.cut_lowest :
    ∀ (is : PItems), is.wf = true → is.cut LOWEST = .nil
  | .nil, _ => rfl
  | .binary op o rest, h => by
    simp only [PItems.wf, Bool.and_eq_true] at h
    simp only [PItems.cut, if_pos (lowest_lt_binop _ h.1.1)]
    exact PItems.cut_lowest rest h.2
  | .call0 _ _ rest, h => by
    simp only [PItems.wf, Bool.and_eq_true] at h
    simp only [PItems.cut]
    exact PItems.cut_lowest rest h.2
  | .call _ _ _ rest, h => by
    simp only [PItems.wf, Bool.and_eq_true] at h
    simp only [PItems.cut]
    exact PItems.cut_lowest rest h.2

theorem POperand.tokens_length_pos : ∀ (o : POperand), 0 < o.tokens.length
  | .atom _ => by simp [POperand.tokens]
  | .group _ _ _ _ => by simp [POperand.tokens]
  | .unary _ _ => by simp [POperand.tokens]

end parser

namespace parser

open token ast

theorem exprOK_succ (n : Nat) (hE : ExprOK n) (hL : LoopOK n) : ExprOK (n + 1) := by
  intro o is ho his hsz p hp1 hp2
  cases o with
  | atom t =>
    simp only [POperand.wf] at ho
    obtain ⟨A, hA⟩ := Option.isSome_iff_exists.mp ho
    have hsz' : is.tokens.length ≤ n := by
      simp only [POperand.tokens, List.length_singleton] at hsz; omega
    obtain ⟨T, tl, h⟩ := hL is his hsz' p hp1 hp2 A t
    refine ⟨T, tl, fun x rest errs hx => ?_⟩
    obtain ⟨f, hf⟩ := h x rest errs hx
    refine ⟨f + 1, ?_⟩
    simp only [POperand.tokens, List.singleton_append, stL]
    rw [parseExpression_atom _ _ _ _ _ _ hA]
    exact hf
  | unary op o' =>
    simp only [POperand.wf, Bool.and_eq_true] at ho
    have hsz' : o'.tokens.length + is.tokens.length ≤ n := by
      simp only [POperand.tokens, List.length_cons] at hsz; omega
    obtain ⟨T', tl', h'⟩ := hE o' is ho.2 his hsz' PREFIX (by decide) (Nat.le_refl _)
    have hcl := PItems.cut_length PREFIX is
    have hpos := POperand.tokens_length_pos o'
    obtain ⟨T, tl, h⟩ := hL (is.cut PREFIX) (PItems.cut_wf _ _ his) (by omega) p hp1 hp2
      (.PrefixExpression op op.Literal (some T')) tl'
    refine ⟨T, tl, fun x rest errs hx => ?_⟩
    obtain ⟨f1, hf1⟩ := h' x rest errs hx
    obtain ⟨f2, hf2⟩ := h x rest errs hx
    refine ⟨f1 + f2 + 2, ?_⟩
    simp only [POperand.tokens, List.cons_append, stL]
    rw [parseExpression_unary _ _ _ _ _ ho.1, parsePrefixExpression_st,
      parseExpression_mono (Nat.le_add_right f1 f2) _ _ _ hf1]
    simp only []
    rw [parseExpressionLoop_mono (by omega : f2 ≤ f1 + f2 + 1) _ _ _ _ hf2,
      PItems.cut_cut p PREFIX hp2]
  | group lp o' is' rp =>
    simp only [POperand.wf, Bool.and_eq_true, decide_eq_true_eq] at ho
    obtain ⟨⟨⟨hlp, ho'⟩, his'⟩, hrp⟩ := ho
    have hsz' : o'.tokens.length + is'.tokens.length ≤ n ∧ is.tokens.length ≤ n := by
      simp only [POperand.tokens, List.length_cons, List.length_append,
        List.length_singleton] at hsz
      omega
    obtain ⟨T', tl', h'⟩ := hE o' is' ho' his' hsz'.1 LOWEST (Nat.le_refl _) (by decide)
    obtain ⟨T, tl, h⟩ := hL is his hsz'.2 p hp1 hp2 T' rp
    refine ⟨T, tl, fun x rest errs hx => ?_⟩
    obtain ⟨f1, hf1⟩ := h' rp (is.tokens ++ x :: rest) errs (by rw [hrp]; rfl)
    obtain ⟨f2, hf2⟩ := h x rest errs hx
    refine ⟨f1 + f2 + 2, ?_⟩
    simp only [POperand.tokens, List.cons_append, List.append_assoc, List.singleton_append,
      List.nil_append, stL]
    rw [parseExpression_group _ _ _ _ _ hlp, parseExpressionGroup_st,
      parseExpression_mono (Nat.le_add_right f1 f2) _ _ _ hf1]
    simp only [PItems.cut_lowest _ his', PItems.tokens, List.nil_append]
    rw [expectPeek_pos _ _ _ _ _ hrp]
    simp only []
    exact parseExpressionLoop_mono (by omega : f2 ≤ f1 + f2 + 1) _ _ _ _ hf2


theorem atom_isStart (t : Token) (h : (atom t).isSome = true) : isStart t.TokenKind = true := by
  obtain ⟨k, l⟩ := t
  cases k <;> simp [atom, operand] at h <;> rfl

theorem POperand.first : ∀ (o : POperand), o.wf = true →
    ∃ t w, o.tokens = t :: w ∧ isStart t.TokenKind = true
  | .atom t, h => ⟨t, [], rfl, atom_isStart t h⟩
  | .group lp o is rp, h => by
    simp only [POperand.wf, Bool.and_eq_true, decide_eq_true_eq] at h
    exact ⟨lp, _, rfl, by rw [h.1.1.1]; rfl⟩
  | .unary op o, h => by
    simp only [POperand.wf, Bool.and_eq_true] at h
    refine ⟨op, _, rfl, ?_⟩
    obtain ⟨k, l⟩ := op
    have h1 := h.1
    cases k <;> simp [isUnop] at h1 <;> rfl

theorem PArgs.first_arg : ∀ (a : PArgs), a.wf = true →
    ∃ t w, a.tokens = t :: w ∧ isStart t.TokenKind = true
  | .one o is, h => by
    simp only [PArgs.wf, Bool.and_eq_true] at h
    obtain ⟨t, w, hw, ht⟩ := POperand.first o h.1
    exact ⟨t, w ++ is.tokens, by simp [PArgs.tokens, hw], ht⟩
  | .cons o is c r, h => by
    simp only [PArgs.wf, Bool.and_eq_true] at h
    obtain ⟨t, w, hw, ht⟩ := POperand.first o h.1.1.1
    exact ⟨t, w ++ is.tokens ++ c :: r.tokens, by simp [PArgs.tokens, hw], ht⟩

theorem argsOK_succ (n : Nat) (hE : ExprOK (n + 1)) (hA : ArgsOK n) : ArgsOK (n + 1) := by
  intro args hwf hsz
  cases args with
  | one o is =>
    simp only [PArgs.wf, Bool.and_eq_true] at hwf
    simp only [PArgs.tokens, List.length_append] at hsz
    obtain ⟨T, tl, h⟩ := hE o is hwf.1 hwf.2 hsz LOWEST (Nat.le_refl _) (by decide)
    refine ⟨[T], fun acc x rest errs hx hxc => ?_⟩
    obtain ⟨f, hf⟩ := h x rest errs hx
    refine ⟨f + 1, tl, some T, st tl (x :: rest) errs, ?_, ?_⟩
    · simp only [PArgs.tokens, List.append_assoc]
      rw [parseExpression_mono (Nat.le_succ f) _ _ _ hf, PItems.cut_lowest _ hwf.2]
      rfl
    · exact argsLoop_stop _ _ _ _ _ _ hxc
  | cons o is c r =>
    simp only [PArgs.wf, Bool.and_eq_true, decide_eq_true_eq] at hwf
    obtain ⟨⟨⟨ho, his⟩, hc⟩, hr⟩ := hwf
    simp only [PArgs.tokens, List.length_append, List.length_cons] at hsz
    obtain ⟨T, tl, h⟩ := hE o is ho his (by omega) LOWEST (Nat.le_refl _) (by decide)
    obtain ⟨Ts, h2⟩ := hA r hr (by omega)
    refine ⟨T :: Ts, fun acc x rest errs hx hxc => ?_⟩
    obtain ⟨f1, hf1⟩ := h c (r.tokens ++ x :: rest) errs (by rw [hc]; rfl)
    obtain ⟨f2, tl2, a, q, hf2, hf3⟩ := h2 (acc ++ [some T]) x rest errs hx hxc
    refine ⟨f1 + f2 + 1, tl2, some T, st tl (c :: (r.tokens ++ x :: rest)) errs, ?_, ?_⟩
    · simp only [PArgs.tokens, List.append_assoc, List.cons_append]
      rw [parseExpression_mono (by omega : f1 ≤ f1 + f2 + 1) _ _ _ hf1,
        PItems.cut_lowest _ his]
      rfl
    · rw [argsLoop_comma _ _ _ _ _ _ hc, parseExpression_mono (Nat.le_add_left f2 f1) _ _ _ hf2]
      simp only []
      rw [parseInvocationArgumentsLoop_mono (Nat.le_add_left f2 f1) _ _ _ hf3]
      simp

theorem isStart_ne_rparen (k : TokenKind) (h : isStart k = true) : k ≠ .RPAREN := by
  cases k <;> simp [isStart] at h <;> decide

theorem loopOK_succ (n : Nat) (hE : ExprOK n) (hL : LoopOK n) (hA : ArgsOK n) :
    LoopOK (n + 1) := by
  intro is his hsz p hp1 hp2 left cur
  cases is with
  | nil =>
    refine ⟨left, cur, fun x rest errs hx => ⟨1, ?_⟩⟩
    simp only [PItems.tokens, PItems.cut, List.nil_append]
    exact loop_stop _ _ _ _ _ _ _ (Or.inr (by rw [hx]; exact hp1))
  | binary op o r =>
    simp only [PItems.wf, Bool.and_eq_true] at his
    obtain ⟨⟨hop, ho⟩, hr⟩ := his
    simp only [PItems.tokens, List.length_cons, List.length_append] at hsz
    by_cases hp : p < precOf op.TokenKind
    · have hq1 : LOWEST ≤ precOf op.TokenKind := Nat.le_of_lt (lowest_lt_binop _ hop)
      have hq2 : precOf op.TokenKind ≤ PREFIX :=
        Nat.le_trans (binop_le_product _ hop) (by decide)
      obtain ⟨T', tl', h'⟩ := hE o r ho hr (by omega) (precOf op.TokenKind) hq1 hq2
      have hcl := PItems.cut_length (precOf op.TokenKind) r
      obtain ⟨T, tl, h⟩ := hL (r.cut (precOf op.TokenKind)) (PItems.cut_wf _ _ hr) (by omega)
        p hp1 hp2 (.InfixExpression op op.Literal (some left) (some T')) tl'
      refine ⟨T, tl, fun x rest errs hx => ?_⟩
      obtain ⟨f1, hf1⟩ := h' x rest errs hx
      obtain ⟨f2, hf2⟩ := h x rest errs hx
      refine ⟨f1 + f2 + 2, ?_⟩
      simp only [PItems.tokens, List.cons_append, List.append_assoc, PItems.cut, if_pos hp]
      rw [loop_binop _ _ _ _ _ _ _ hop hp, parseInfixExpression_st,
        parseExpression_mono (Nat.le_add_right f1 f2) _ _ _ hf1]
      simp only []
      rw [parseExpressionLoop_mono (by omega : f2 ≤ f1 + f2 + 1) _ _ _ _ hf2,
        PItems.cut_cut p _ (Nat.le_of_lt hp)]
    · refine ⟨left, cur, fun x rest errs _ => ⟨1, ?_⟩⟩
      simp only [PItems.tokens, List.cons_append, PItems.cut, if_neg hp]
      exact loop_stop _ _ _ _ _ _ _ (Or.inr (Nat.not_lt.mp hp))
  | call0 lp rp r =>
    simp only [PItems.wf, Bool.and_eq_true, decide_eq_true_eq] at his
    obtain ⟨⟨hlp, hrp⟩, hr⟩ := his
    simp only [PItems.tokens, List.length_cons] at hsz
    obtain ⟨T, tl, h⟩ := hL r hr (by omega) p hp1 hp2
      (.InvocationExpression lp (some left) (some [])) rp
    refine ⟨T, tl, fun x rest errs hx => ?_⟩
    obtain ⟨f, hf⟩ := h x rest errs hx
    refine ⟨f + 3, ?_⟩
    simp only [PItems.tokens, List.cons_append, PItems.cut]
    rw [loop_call _ _ _ _ _ _ _ hlp (Nat.lt_of_le_of_lt hp2 (by decide)),
      parseInvocationExpression_st, parseInvocationArguments_empty _ _ _ _ _ hrp]
    simp only []
    exact parseExpressionLoop_mono (by omega : f ≤ f + 2) _ _ _ _ hf
  | call lp args rp r =>
    simp only [PItems.wf, Bool.and_eq_true, decide_eq_true_eq] at his
    obtain ⟨⟨⟨hlp, hargs⟩, hrp⟩, hr⟩ := his
    simp only [PItems.tokens, List.length_cons, List.length_append] at hsz
    obtain ⟨Ts, hTs⟩ := hA args hargs (by omega)
    obtain ⟨T, tl, h⟩ := hL r hr (by omega) p hp1 hp2
      (.InvocationExpression lp (some left) (some (Ts.map some))) rp
    refine ⟨T, tl, fun x rest errs hx => ?_⟩
    obtain ⟨f1, tl1, a, q, hf1, hf2⟩ := hTs [] rp (r.tokens ++ x :: rest) errs
      (by rw [hrp]; rfl) (by rw [hrp]; decide)
    obtain ⟨f2, hf2'⟩ := h x rest errs hx
    obtain ⟨t, w, hw, ht⟩ := PArgs.first_arg args hargs
    refine ⟨f1 + f2 + 3, ?_⟩
    rw [hw] at hf1
    simp only [List.cons_append, stL] at hf1
    simp only [List.nil_append] at hf2
    simp only [PItems.tokens, List.cons_append, List.append_assoc, PItems.cut, hw]
    rw [loop_call _ _ _ _ _ _ _ hlp (Nat.lt_of_le_of_lt hp2 (by decide)),
      parseInvocationExpression_st,
      parseInvocationArguments_nonempty _ _ _ _ _ (isStart_ne_rparen _ ht),
      parseExpression_mono (by omega : f1 ≤ f1 + f2) _ _ _ hf1]
    simp only []
    rw [parseInvocationArgumentsLoop_mono (by omega : f1 ≤ f1 + f2) _ _ _ hf2]
    simp only []
    rw [expectPeek_pos _ _ _ _ _ hrp]
    simp only []
    exact parseExpressionLoop_mono (by omega : f2 ≤ f1 + f2 + 2) _ _ _ _ hf2'

theorem chains_ok : ∀ n, ExprOK n ∧ LoopOK n ∧ ArgsOK n
  | 0 => by
    refine ⟨?_, ?_, ?_⟩
    · intro o is _ _ hsz
      have := POperand.tokens_length_pos o
      omega
    · intro is his hsz p hp1 hp2 left cur
      cases is with
      | nil =>
        refine ⟨left, cur, fun x rest errs hx => ⟨1, ?_⟩⟩
        simp only [PItems.tokens, PItems.cut, List.nil_append]
        exact loop_stop _ _ _ _ _ _ _ (Or.inr (by rw [hx]; exact hp1))
      | binary op o r => simp [PItems.tokens] at hsz
      | call0 lp rp r => simp [PItems.tokens] at hsz
      | call lp args rp r => simp [PItems.tokens] at hsz
    · intro args hwf hsz
      obtain ⟨t, w, hw, _⟩ := PArgs.first_arg args hwf
      simp [hw] at hsz
  | n + 1 => by
    obtain ⟨hE, hL, hA⟩ := chains_ok n
    have hE1 := exprOK_succ n hE hL
    exact ⟨hE1, loopOK_succ n hE hL hA, argsOK_succ n hE1 hA⟩

end parser

namespace parser

open token ast

theorem PItems.append_tokens : ∀ (a b : PItems), (a.append b).tokens = a.tokens ++ b.tokens
  | .nil, b => rfl
  | .binary op o rest, b => by
    simp only [PItems.append, PItems.tokens, PItems.append_tokens rest b, List.cons_append,
      List.append_assoc]
  | .call0 lp rp rest, b => by
    simp only [PItems.append, PItems.tokens, PItems.append_tokens rest b, List.cons_append]
  | .call lp args rp rest, b => by
    simp only [PItems.append, PItems.tokens, PItems.append_tokens rest b, List.cons_append,
      List.append_assoc]

theorem PItems.append_wf : ∀ (a b : PItems), a.wf = true → b.wf = true →
    (a.append b).wf = true
  | .nil, b, _, hb => hb
  | .binary op o rest, b, ha, hb => by
    simp only [PItems.wf, Bool.and_eq_true] at ha
    simp only [PItems.append, PItems.wf, Bool.and_eq_true]
    exact ⟨ha.1, PItems.append_wf rest b ha.2 hb⟩
  | .call0 lp rp rest, b, ha, hb => by
    simp only [PItems.wf, Bool.and_eq_true] at ha
    simp only [PItems.append, PItems.wf, Bool.and_eq_true]
    exact ⟨ha.1, PItems.append_wf rest b ha.2 hb⟩
  | .call lp args rp rest, b, ha, hb => by
    simp only [PItems.wf, Bool.and_eq_true] at ha
    simp only [PItems.append, PItems.wf, Bool.and_eq_true]
    exact ⟨ha.1, PItems.append_wf rest b ha.2 hb⟩

mutual

theorem GExpr.chain_tokens : ∀ (e : GExpr), e.chain.1.tokens ++ e.chain.2.tokens = e.tokens
  | .atom t => rfl
  | .unary op e => by
    simp only [GExpr.chain, POperand.tokens, GExpr.tokens, List.cons_append,
      GExpr.chain_tokens e]
  | .binary l op r => by
    simp only [GExpr.chain, GExpr.tokens, PItems.append_tokens, PItems.tokens,
      ← GExpr.chain_tokens l, ← GExpr.chain_tokens r, List.append_assoc]
  | .group lp e rp => by
    simp only [GExpr.chain, POperand.tokens, GExpr.tokens, PItems.tokens, List.append_nil,
      ← GExpr.chain_tokens e]
  | .call0 f lp rp => by
    simp only [GExpr.chain, GExpr.tokens, PItems.append_tokens, PItems.tokens,
      ← GExpr.chain_tokens f, List.append_assoc]
  | .call f lp args rp => by
    simp only [GExpr.chain, GExpr.tokens, PItems.append_tokens, PItems.tokens,
      ← GExpr.chain_tokens f, ← GArgs.chain_args_tokens args, List.append_assoc, List.append_nil,
      List.cons_append, List.nil_append, List.singleton_append]

theorem GArgs.chain_args_tokens : ∀ (a : GArgs), a.chain.tokens = a.tokens
  | .one e => by
    simp only [GArgs.chain, PArgs.tokens, GArgs.tokens, GExpr.chain_tokens e]
  | .cons e c rest => by
    simp only [GArgs.chain, PArgs.tokens, GArgs.tokens, GExpr.chain_tokens e,
      GArgs.chain_args_tokens rest]

end

mutual

theorem GExpr.chain_wf : ∀ (e : GExpr), e.wf = true →
    e.chain.1.wf = true ∧ e.chain.2.wf = true
  | .atom t, h => ⟨h, rfl⟩
  | .unary op e, h => by
    simp only [GExpr.wf, Bool.and_eq_true] at h
    have ih := GExpr.chain_wf e h.2
    simp only [GExpr.chain, POperand.wf, Bool.and_eq_true]
    exact ⟨⟨h.1, ih.1⟩, ih.2⟩
  | .binary l op r, h => by
    simp only [GExpr.wf, Bool.and_eq_true] at h
    have ihl := GExpr.chain_wf l h.1.1
    have ihr := GExpr.chain_wf r h.2
    simp only [GExpr.chain]
    refine ⟨ihl.1, PItems.append_wf _ _ ihl.2 ?_⟩
    simp only [PItems.wf, Bool.and_eq_true]
    exact ⟨⟨h.1.2, ihr.1⟩, ihr.2⟩
  | .group lp e rp, h => by
    simp only [GExpr.wf, Bool.and_eq_true] at h
    have ih := GExpr.chain_wf e h.1.2
    simp only [GExpr.chain, POperand.wf, PItems.wf, Bool.and_eq_true]
    exact ⟨⟨⟨⟨h.1.1, ih.1⟩, ih.2⟩, h.2⟩, trivial⟩
  | .call0 f lp rp, h => by
    simp only [GExpr.wf, Bool.and_eq_true] at h
    have ih := GExpr.chain_wf f h.1.1
    simp only [GExpr.chain]
    refine ⟨ih.1, PItems.append_wf _ _ ih.2 ?_⟩
    simp only [PItems.wf, Bool.and_eq_true]
    exact ⟨⟨h.1.2, h.2⟩, trivial⟩
  | .call f lp args rp, h => by
    simp only [GExpr.wf, Bool.and_eq_true] at h
    have ih := GExpr.chain_wf f h.1.1.1
    have iha := GArgs.chain_args_wf args h.1.2
    simp only [GExpr.chain]
    refine ⟨ih.1, PItems.append_wf _ _ ih.2 ?_⟩
    simp only [PItems.wf, Bool.and_eq_true]
    exact ⟨⟨⟨h.1.1.2, iha⟩, h.2⟩, trivial⟩

theorem GArgs.chain_args_wf : ∀ (a : GArgs), a.wf = true → a.chain.wf = true
  | .one e, h => by
    simp only [GArgs.wf] at h
    have ih := GExpr.chain_wf e h
    simp only [GArgs.chain, PArgs.wf, Bool.and_eq_true]
    exact ih
  | .cons e c rest, h => by
    simp only [GArgs.wf, Bool.and_eq_true] at h
    have ih := GExpr.chain_wf e h.1.1
    have ihr := GArgs.chain_args_wf rest h.2
    simp only [GArgs.chain, PArgs.wf, Bool.and_eq_true]
    exact ⟨⟨⟨ih.1, ih.2⟩, h.1.2⟩, ihr⟩

end

/-- An expression of the grammar, followed by a token without table
precedence: `parseExpression` at `LOWEST` returns a present expression, the
same whatever follows, logs nothing and stops on the last token of the
expression. -/
theorem expression_parses (e : GExpr) (he : e.wf = true) :
    ∃ (t : Token) (w : List Token) (T : Expression) (tl : Token),
      e.tokens = t :: w ∧ isStart t.TokenKind = true ∧
      ∀ (x : Token) (rest : List Token) (errs : List String), precOf x.TokenKind = LOWEST →
        ∃ fuel, parseExpression (fuel + 1) LOWEST (st t (w ++ x :: rest) errs) =
          some (some T, st tl (x :: rest) errs) := by
  obtain ⟨ho, his⟩ := GExpr.chain_wf e he
  obtain ⟨t, w, hw, ht⟩ := POperand.first _ ho
  obtain ⟨T, tl, h⟩ := (chains_ok _).1 e.chain.1 e.chain.2 ho his (Nat.le_refl _) LOWEST
    (Nat.le_refl _) (by decide)
  refine ⟨t, w ++ e.chain.2.tokens, T, tl, ?_, ht, fun x rest errs hx => ?_⟩
  · rw [← GExpr.chain_tokens e, hw]
    rfl
  · obtain ⟨f, hf⟩ := h x rest errs hx
    refine ⟨f, ?_⟩
    rw [hw, PItems.cut_lowest _ his] at hf
    simp only [List.cons_append, stL, PItems.tokens, List.nil_append] at hf
    simp only [List.append_assoc]
    exact parseExpression_mono (Nat.le_succ f) _ _ _ hf

end parser

/-!
# Statements, blocks and function literals
-/

namespace parser

open token ast

theorem parseStatement_return (k : Nat) (t : Token) (l : List Token) (e : List String)
    (h : t.TokenKind = .RETURN) :
    parseStatement (k + 1) (st t l e) =
      match parseReturnStatement k (st t l e) with
      | none => none
      | some (ptr, q) => some (some (.ReturnStatement ptr), q) := by
  obtain ⟨kind, lit⟩ := t
  cases h
  rfl

theorem parseReturnStatement_st (k : Nat) (t : Token) (l : List Token) (e : List String) :
    parseReturnStatement (k + 1) (st t l e) =
      match parseExpression k LOWEST (stL l e) with
      | none => none
      | some (value, q) =>
        match parseReturnStatementLoop k q with
        | none => none
        | some q => some (some (.mk t value), q) := by
  cases l <;> rfl

/-- The skipping loop of `parseReturnStatement` never returns when no `;` is
left: the scanner answers end-of-file forever. -/
theorem parseReturnStatementLoop_diverges (k : Nat) : ∀ (c : Token) (l : List Token)
    (e : List String), c.TokenKind ≠ .SEMI → (∀ t ∈ l, t.TokenKind ≠ .SEMI) →
    parseReturnStatementLoop k (st c l e) = none := by
  induction k with
  | zero => intros; rfl
  | succ k ih =>
    intro c l e hc hl
    have hc' : (!currentTokenIs .SEMI (st c l e)) = true := by
      simpa [currentTokenIs, st] using hc
    rw [parseReturnStatementLoop, if_pos hc', nextToken_st]
    cases l with
    | nil => exact ih _ _ _ (by decide) (by simp)
    | cons t l' =>
      exact ih _ _ _ (hl t (List.mem_cons_self _ _))
        (fun t' ht' => hl t' (List.mem_cons_of_mem _ ht'))

theorem parseBlockStatement_isSome (k : Nat) (s : Parser) (b : Option BlockStatement)
    (q : Parser) (h : parseBlockStatement k s = some (b, q)) : b.isSome = true := by
  cases k with
  | zero => simp [parseBlockStatement] at h
  | succ k =>
    rw [parseBlockStatement] at h
    split at h
    · cases h
    · cases h; rfl

theorem ifExpression_alternative (fuel : Nat) (p : Parser) (tok : Token)
    (cond : Option Expression) (cons alt : Option BlockStatement) (p' : Parser)
    (h : parseIfExpression (fuel + 1) p = some (some (.IfExpression tok cond cons alt), p')) :
    ∃ p3 p6,
      parseExpression fuel LOWEST (nextToken (expectPeek .LPAREN p).2) = some (cond, p3) ∧
      parseBlockStatement fuel (expectPeek .LBRACE (expectPeek .RPAREN p3).2).2 =
        some (cons, p6) ∧
      (alt.isSome = true ↔ p6.peekToken.TokenKind = .ELSE) := by
  rw [parseIfExpression] at h
  rcases h1 : expectPeek .LPAREN p with ⟨_ | _, p1⟩
  · simp [h1] at h
  simp only [h1] at h ⊢
  rcases h2 : parseExpression fuel LOWEST (nextToken p1) with _ | ⟨c, p3⟩
  · simp [h2] at h
  simp only [h2] at h
  rcases h3 : expectPeek .RPAREN p3 with ⟨_ | _, p4⟩
  · simp [h3] at h
  simp only [h3] at h
  rcases h4 : expectPeek .LBRACE p4 with ⟨_ | _, p5⟩
  · simp [h4] at h
  simp only [h4] at h
  rcases h5 : parseBlockStatement fuel p5 with _ | ⟨b, p6⟩
  · simp [h5] at h
  simp only [h5] at h
  refine ⟨p3, p6, ?_, ?_, ?_⟩
  · split at h
    · rcases h6 : expectPeek .LBRACE (nextToken p6) with ⟨_ | _, p7⟩
      · simp [h6] at h
      simp only [h6] at h
      rcases h7 : parseBlockStatement fuel p7 with _ | ⟨a, p8⟩
      · simp [h7] at h
      simp only [h7] at h
      simp only [Option.some.injEq, Prod.mk.injEq, Expression.IfExpression.injEq] at h
      rw [h.1.2.1]
    · simp only [Option.some.injEq, Prod.mk.injEq, Expression.IfExpression.injEq] at h
      rw [h.1.2.1]
  · simp only [h3, h4]
    split at h
    · rcases h6 : expectPeek .LBRACE (nextToken p6) with ⟨_ | _, p7⟩
      · simp [h6] at h
      simp only [h6] at h
      rcases h7 : parseBlockStatement fuel p7 with _ | ⟨a, p8⟩
      · simp [h7] at h
      simp only [h7] at h
      simp only [Option.some.injEq, Prod.mk.injEq, Expression.IfExpression.injEq] at h
      rw [h.1.2.2.1] at h5
      exact h5
    · simp only [Option.some.injEq, Prod.mk.injEq, Expression.IfExpression.injEq] at h
      rw [h.1.2.2.1] at h5
      exact h5
  · split at h
    · rename_i hels
      rcases h6 : expectPeek .LBRACE (nextToken p6) with ⟨_ | _, p7⟩
      · simp [h6] at h
      simp only [h6] at h
      rcases h7 : parseBlockStatement fuel p7 with _ | ⟨a, p8⟩
      · simp [h7] at h
      simp only [h7] at h
      simp only [Option.some.injEq, Prod.mk.injEq, Expression.IfExpression.injEq] at h
      have ha := parseBlockStatement_isSome _ _ _ _ h7
      rw [h.1.2.2.2] at ha
      have hk : p6.peekToken.TokenKind = .ELSE := by simpa [peekTokenIs] using hels
      exact ⟨fun _ => hk, fun _ => ha⟩
    · rename_i hels
      simp only [Option.some.injEq, Prod.mk.injEq, Expression.IfExpression.injEq] at h
      have hk : ¬ p6.peekToken.TokenKind = .ELSE := by simpa [peekTokenIs] using hels
      rw [← h.1.2.2.2]
      simp [hk]

theorem parseFunctionArgsLoop_comma (k : Nat) (ids : List Identifier) (c cm q : Token)
    (l : List Token) (e : List String) (h : cm.TokenKind = .COMMA) :
    parseFunctionArgsLoop (k + 1) ids (st c (cm :: q :: l) e) =
      parseFunctionArgsLoop k (ids ++ [⟨q, q.Literal⟩]) (st q l e) := by
  have h' : peekTokenIs .COMMA (st c (cm :: q :: l) e) = true := by
    simp [peekTokenIs, st, scanner.Scanner.NextToken, h]
  rw [parseFunctionArgsLoop, if_pos h']
  rfl

theorem parseFunctionArgsLoop_stop (k : Nat) (ids : List Identifier) (c x : Token)
    (l : List Token) (e : List String) (h : x.TokenKind ≠ .COMMA) :
    parseFunctionArgsLoop (k + 1) ids (st c (x :: l) e) = some (ids, st c (x :: l) e) := by
  have h' : ¬ peekTokenIs .COMMA (st c (x :: l) e) = true := by
    simpa [peekTokenIs, st, scanner.Scanner.NextToken] using h
  rw [parseFunctionArgsLoop, if_neg h']

theorem parseFunctionArgsLoop_params (cm x : Token) (hcm : cm.TokenKind = .COMMA)
    (hx : x.TokenKind ≠ .COMMA) (l : List Token) (e : List String) :
    ∀ (qs : List Token) (ids : List Identifier) (c : Token), ∃ tl,
      parseFunctionArgsLoop (qs.length + 1) ids (st c (commaList cm qs ++ x :: l) e) =
        some (ids ++ qs.map (fun t => ⟨t, t.Literal⟩), st tl (x :: l) e) := by
  intro qs
  induction qs with
  | nil =>
    intro ids c
    simp only [commaList, List.nil_append, List.length_nil, List.map_nil, List.append_nil]
    exact ⟨c, parseFunctionArgsLoop_stop 0 ids c x l e hx⟩
  | cons q qs ih =>
    intro ids c
    obtain ⟨tl, h⟩ := ih (ids ++ [⟨q, q.Literal⟩]) q
    refine ⟨tl, ?_⟩
    simp only [commaList, List.cons_append, List.length_cons, List.map_cons]
    rw [parseFunctionArgsLoop_comma _ _ _ _ _ _ _ hcm, h]
    simp

/-- The parameter list of a function literal: identifiers separated by commas
up to the closing parenthesis. -/
theorem parseFunctionArgs_params (cm lp rp : Token) (hcm : cm.TokenKind = .COMMA)
    (hrp : rp.TokenKind = .RPAREN) (l : List Token) (e : List String) (ps : List Token)
    (hps : ∀ t ∈ ps, t.TokenKind = .IDENT) :
    parseFunctionArgs ps.length (st lp (commaSeparated cm ps ++ rp :: l) e) =
      some (some (ps.map (fun t => ⟨t, t.Literal⟩)), st rp l e) := by
  cases ps with
  | nil =>
    have h' : peekTokenIs .RPAREN (st lp (rp :: l) e) = true := by
      simp [peekTokenIs, st, scanner.Scanner.NextToken, hrp]
    simp only [commaSeparated, List.nil_append, List.map_nil, parseFunctionArgs, if_pos h']
    rfl
  | cons q qs =>
    have hq : q.TokenKind = .IDENT := hps q (List.mem_cons_self _ _)
    have h' : ¬ peekTokenIs .RPAREN (st lp (q :: (commaList cm qs ++ rp :: l)) e) = true := by
      simp [peekTokenIs, st, scanner.Scanner.NextToken, hq]
    simp only [commaSeparated, List.cons_append, List.length_cons, List.map_cons,
      parseFunctionArgs, if_neg h', nextToken_st, stL, List.nil_append]
    obtain ⟨tl, h⟩ := parseFunctionArgsLoop_params cm rp hcm (by simp [hrp]) l e qs
      [⟨q, q.Literal⟩] q
    have hc : (st q (commaList cm qs ++ rp :: l) e).currentToken = q := rfl
    rw [hc, h]
    simp only []
    rw [expectPeek_pos _ _ _ _ _ hrp]
    simp


theorem parseBlockStatement_st (k : Nat) (lb : Token) (l : List Token) (e : List String) :
    parseBlockStatement (k + 1) (st lb l e) =
      match parseBlockStatementLoop k [] (stL l e) with
      | none => none
      | some (statements, q) => some (some (.mk lb statements), q) := by
  cases l <;> rfl

theorem parseBlockStatementLoop_step (k : Nat) (stmts : List Statement) (t : Token)
    (l : List Token) (e : List String) (h1 : t.TokenKind ≠ .RBRACE) (h2 : t.TokenKind ≠ .EOF) :
    parseBlockStatementLoop (k + 1) stmts (st t l e) =
      match parseStatement k (st t l e) with
      | none => none
      | some (stmt, q) =>
        parseBlockStatementLoop k (match stmt with | some s => stmts ++ [s] | none => stmts)
          (nextToken q) := by
  have h' : (!currentTokenIs .RBRACE (st t l e) && !currentTokenIs .EOF (st t l e)) = true := by
    simp [currentTokenIs, st, h1, h2]
  rw [parseBlockStatementLoop]
  exact if_pos h'

theorem parseBlockStatementLoop_stop (k : Nat) (stmts : List Statement) (t : Token)
    (l : List Token) (e : List String) (h : t.TokenKind = .RBRACE ∨ t.TokenKind = .EOF) :
    parseBlockStatementLoop (k + 1) stmts (st t l e) = some (stmts, st t l e) := by
  have h' : ¬ (!currentTokenIs .RBRACE (st t l e) && !currentTokenIs .EOF (st t l e)) = true := by
    rcases h with h | h <;> simp [currentTokenIs, st, h]
  rw [parseBlockStatementLoop]
  exact if_neg h'

/-- A block with one expression statement: once `parseExpression` at `LOWEST`
has read the statement up to the closing brace, the block is that one
statement. -/
theorem parseBlockStatement_single (n : Nat) (lb t tl rb : Token) (l rest : List Token)
    (X : Option Expression) (e errs : List String)
    (h1 : t.TokenKind ≠ .TYPE) (h2 : t.TokenKind ≠ .LET) (h3 : t.TokenKind ≠ .RETURN)
    (h4 : t.TokenKind ≠ .EOF) (h5 : t.TokenKind ≠ .RBRACE) (hrb : rb.TokenKind = .RBRACE)
    (h : parseExpression (n + 1) LOWEST (st t l e) = some (X, st tl (rb :: rest) errs)) :
    parseBlockStatement (n + 5) (st lb (t :: l) e) =
      some (some (.mk lb [.ExpressionStatement (some (.mk t X))]), st rb rest errs) := by
  have hsemi : peekTokenIs .SEMI (st tl (rb :: rest) errs) = false := by
    simp [peekTokenIs, st, scanner.Scanner.NextToken, hrb]
  rw [parseBlockStatement_st, stL, parseBlockStatementLoop_step _ _ _ _ _ h5 h4,
    parseStatement_expression _ _ _ _ h1 h2 h3, parseExpressionStatement_st, h]
  simp only [hsemi, nextToken_st, stL, Bool.false_eq_true, if_false]
  rw [parseBlockStatementLoop_stop _ _ _ _ _ (Or.inl hrb)]
  rfl

/-- The expression `a op b`. -/
theorem expression_binary (n : Nat) (a op b x : Token) (A B : Expression)
    (l : List Token) (e : List String)
    (ha : operand a = some A) (hb : operand b = some B)
    (hop : isBinop op.TokenKind = true) (hx : precOf x.TokenKind = LOWEST) :
    parseExpression (n + 5) LOWEST (st a (op :: b :: x :: l) e) =
      some (some (.InfixExpression op op.Literal (some A) (some B)), st b (x :: l) e) := by
  have hp := lowest_lt_binop _ hop
  rw [parseExpression_atom _ _ _ _ _ _ (atom_of_operand _ _ ha),
    loop_binop _ _ _ _ _ _ _ hop hp, parseInfixExpression_st, stL,
    parseExpression_operand_stop _ _ _ _ _ _ _ hb (Or.inr (by rw [hx]; exact Nat.le_of_lt hp))]
  simp only []
  exact loop_stop _ _ _ _ _ _ _ (Or.inr (by rw [hx]))

theorem parseExpression_func (k : Nat) (p : Precedence) (fn : Token) (l : List Token)
    (e : List String) (h : fn.TokenKind = .FUNC) :
    parseExpression (k + 1) p (st fn l e) =
      match parseFunctionLiteral k (st fn l e) with
      | none => none
      | some (x, q) => parseExpressionLoop k p x q := by
  obtain ⟨kind, lit⟩ := fn
  cases h
  rfl

theorem parseFunctionLiteral_st (k : Nat) (fn lp : Token) (l : List Token) (e : List String)
    (h : lp.TokenKind = .LPAREN) :
    parseFunctionLiteral (k + 1) (st fn (lp :: l) e) =
      match parseFunctionArgs k (st lp l e) with
      | none => none
      | some (arguments, q) =>
        match expectPeek .LBRACE q with
        | (false, q) => some (none, q)
        | (true, q) =>
          match parseBlockStatement k q with
          | none => none
          | some (body, q) => some (some (.FunctionLiteral fn arguments body), q) := by
  rw [parseFunctionLiteral]
  simp only [expectPeek_pos _ _ _ _ _ h]
  rfl

theorem isStart_not_statement (k : TokenKind) (h : isStart k = true) :
    k ≠ .TYPE ∧ k ≠ .LET ∧ k ≠ .RETURN ∧ k ≠ .EOF := by
  cases k <;> simp [isStart] at h <;> decide

theorem parseStatement_let (k : Nat) (t : Token) (l : List Token) (e : List String)
    (h : t.TokenKind = .LET) :
    parseStatement (k + 1) (st t l e) =
      match parseLetStatement k (st t l e) with
      | none => none
      | some (ptr, q) => some (some (.LetStatement ptr), q) := by
  obtain ⟨kind, lit⟩ := t
  cases h
  rfl

theorem parseLetStatement_st (k : Nat) (lt name eq : Token) (l : List Token) (e : List String)
    (hn : name.TokenKind = .IDENT) (heq : eq.TokenKind = .ASSIGN) :
    parseLetStatement (k + 1) (st lt (name :: eq :: l) e) =
      match parseExpression k LOWEST (stL l e) with
      | none => none
      | some (value, q) =>
        some (some (.mk lt (some ⟨name, name.Literal⟩) value),
          if peekTokenIs .SEMI q then nextToken q else q) := by
  rw [parseLetStatement]
  simp only [expectPeek_pos _ _ _ _ _ hn, expectPeek_pos _ _ _ _ _ heq, nextToken_st]
  rfl

/-- A let statement alone, with or without its `;`: once `parseExpression` at
`LOWEST` has read the value up to `rest`, which is `[EOF]` or `[;, EOF]`, the
program is that one statement. -/
theorem let_program (n : Nat) (lt name eq t tl : Token) (l rest : List Token)
    (X : Option Expression) (errs : List String)
    (hlt : lt.TokenKind = .LET) (hn : name.TokenKind = .IDENT) (heq : eq.TokenKind = .ASSIGN)
    (hrest : (∃ x, x.TokenKind = .EOF ∧ rest = [x]) ∨
      (∃ s x, s.TokenKind = .SEMI ∧ x.TokenKind = .EOF ∧ rest = [s, x]))
    (h : parseExpression (n + 1) LOWEST (st t l []) = some (X, st tl rest errs)) :
    parse (n + 4) (lt :: name :: eq :: t :: l) =
      some ([.LetStatement (some (.mk lt (some ⟨name, name.Literal⟩) X))], errs) := by
  simp only [parse, ParseProgram, New_eq, stL]
  rw [ParseProgramLoop_step _ _ _ _ _ (by rw [hlt]; decide), parseStatement_let _ _ _ _ hlt,
    parseLetStatement_st _ _ _ _ _ _ hn heq, stL, h]
  rcases hrest with ⟨x, hx, rfl⟩ | ⟨s, x, hs, hx, rfl⟩
  · have hsemi : peekTokenIs .SEMI (st tl [x] errs) = false := by
      simp [peekTokenIs, st, scanner.Scanner.NextToken, hx]
    simp only [hsemi, nextToken_st, stL, Bool.false_eq_true, if_false]
    rw [ParseProgramLoop_eof _ _ _ _ _ hx]
    rfl
  · have hsemi : peekTokenIs .SEMI (st tl [s, x] errs) = true := by
      simp [peekTokenIs, st, scanner.Scanner.NextToken, hs]
    simp only [hsemi, nextToken_st, stL, if_true]
    rw [ParseProgramLoop_eof _ _ _ _ _ hx]
    rfl

end parser
namespace parser
open token ast

/-- An expression of the grammar has one tree, which it parses to as a
statement of its own and in front of any token without table precedence. -/
theorem expression_tree (e : GExpr) (he : e.wf = true) :
    ∃ (T : Expression), ParsesTo e T ∧
      (∃ t w, e.tokens = t :: w ∧ isStart t.TokenKind = true) ∧
      ∀ (x : Token) (rest : List Token) (errs : List String), precOf x.TokenKind = LOWEST →
        ∃ fuel tl, parseExpression fuel LOWEST (stL (e.tokens ++ x :: rest) errs) =
          some (some T, st tl (x :: rest) errs) := by
  obtain ⟨t, w, T, tl, hw, ht, h⟩ := expression_parses e he
  refine ⟨T, ?_, ⟨t, w, hw, ht⟩, fun x rest errs hx => ?_⟩
  · obtain ⟨f, hf⟩ := h ⟨.EOF, ""⟩ [] [] rfl
    obtain ⟨h1, h2, h3, h4⟩ := isStart_not_statement _ ht
    refine ⟨t, f + 4, fun fuel hfuel => ?_⟩
    rw [hw]
    exact parse_mono hfuel _ _ (single_statement f t tl ⟨.EOF, ""⟩ _ _ [] h1 h2 h3 h4 rfl hf)
  · obtain ⟨f, hf⟩ := h x rest errs hx
    refine ⟨f + 1, tl, ?_⟩
    rw [hw]
    exact hf

/-- The first argument and the comma loop of `parseInvocationArguments` on a
non-empty list of argument expressions. -/
theorem arguments_parse (cm : Token) (hcm : cm.TokenKind = .COMMA) :
    ∀ (es : List GExpr), es ≠ [] → (∀ e ∈ es, e.wf = true) →
      ∃ (Ts : List Expression), List.Forall₂ ParsesTo es Ts ∧
        ∀ (acc : List (Option Expression)) (x : Token) (rest : List Token)
          (errs : List String), precOf x.TokenKind = LOWEST → x.TokenKind ≠ .COMMA →
          ∃ fuel tl a q,
            parseExpression fuel LOWEST (stL (argTokens cm es ++ x :: rest) errs) =
              some (a, q) ∧
            parseInvocationArgumentsLoop fuel (acc ++ [a]) q =
              some (acc ++ Ts.map some, st tl (x :: rest) errs)
  | [], h, _ => absurd rfl h
  | [e], _, hwf => by
    obtain ⟨T, hT, _, h⟩ := expression_tree e (hwf e (List.mem_singleton.mpr rfl))
    refine ⟨[T], List.Forall₂.cons hT List.Forall₂.nil, fun acc x rest errs hx hxc => ?_⟩
    obtain ⟨f, tl, hf⟩ := h x rest errs hx
    refine ⟨f + 1, tl, some T, st tl (x :: rest) errs, ?_, ?_⟩
    · simp only [argTokens]
      exact parseExpression_mono (Nat.le_succ f) _ _ _ hf
    · exact argsLoop_stop _ _ _ _ _ _ hxc
  | e :: e' :: es, _, hwf => by
    obtain ⟨T, hT, _, h⟩ := expression_tree e (hwf e (List.mem_cons_self _ _))
    obtain ⟨Ts, hTs, h2⟩ := arguments_parse cm hcm (e' :: es) (List.cons_ne_nil _ _)
      (fun a ha => hwf a (List.mem_cons_of_mem _ ha))
    refine ⟨T :: Ts, List.Forall₂.cons hT hTs, fun acc x rest errs hx hxc => ?_⟩
    obtain ⟨f1, tl1, hf1⟩ := h cm (argTokens cm (e' :: es) ++ x :: rest) errs (by rw [hcm]; rfl)
    obtain ⟨f2, tl2, a, q, hf2, hf3⟩ := h2 (acc ++ [some T]) x rest errs hx hxc
    refine ⟨f1 + f2 + 1, tl2, some T, st tl1 (cm :: (argTokens cm (e' :: es) ++ x :: rest)) errs,
      ?_, ?_⟩
    · simp only [argTokens, List.append_assoc, List.cons_append]
      exact parseExpression_mono (by omega : f1 ≤ f1 + f2 + 1) _ _ _ hf1
    · rw [argsLoop_comma _ _ _ _ _ _ hcm, parseExpression_mono (Nat.le_add_left f2 f1) _ _ _ hf2]
      simp only []
      rw [parseInvocationArgumentsLoop_mono (Nat.le_add_left f2 f1) _ _ _ hf3]
      simp

theorem argTokens_first (cm : Token) : ∀ (es : List GExpr), es ≠ [] →
    (∀ e ∈ es, e.wf = true) → ∃ t w, argTokens cm es = t :: w ∧ isStart t.TokenKind = true
  | [], h, _ => absurd rfl h
  | [e], _, hwf => by
    obtain ⟨_, _, ⟨t, w, hw, ht⟩, _⟩ := expression_tree e (hwf e (List.mem_singleton.mpr rfl))
    exact ⟨t, w, by simp only [argTokens, hw], ht⟩
  | e :: e' :: es, _, hwf => by
    obtain ⟨_, _, ⟨t, w, hw, ht⟩, _⟩ := expression_tree e (hwf e (List.mem_cons_self _ _))
    exact ⟨t, w ++ cm :: argTokens cm (e' :: es), by simp only [argTokens, hw, List.cons_append],
      ht⟩

/-- The expression `( a o b` with the closing parenthesis missing. -/
theorem expression_group_unclosed (n : Nat) (lp a o b x : Token) (A B : Expression)
    (l : List Token) (e : List String)
    (ha : operand a = some A) (hb : operand b = some B)
    (ho : isBinop o.TokenKind = true) (hlp : lp.TokenKind = .LPAREN)
    (hx : precOf x.TokenKind = LOWEST) (hxr : x.TokenKind ≠ .RPAREN) :
    parseExpression (n + 7) LOWEST (st lp (a :: o :: b :: x :: l) e) =
      some (none, st b (x :: l) (e ++ ["expected next token to be '" ++
        TokenKind.RPAREN.String ++ "', received " ++ x.TokenKind.String])) := by
  rw [parseExpression_group _ _ _ _ _ hlp, parseExpressionGroup_st, stL,
    expression_binary _ a o b x A B l e ha hb ho hx]
  simp only []
  rw [expectPeek_neg _ _ _ _ _ hxr]
  simp only []
  exact loop_stop _ _ _ _ _ _ _ (Or.inr (by rw [hx]))

end parser

namespace strconv

open parser

theorem decimalFrom_ge (cs : List Nat) : ∀ n, n ≤ decimalFrom n cs := by
  induction cs with
  | nil => intro n; exact Nat.le_refl _
  | cons c cs ih =>
    intro n
    have := ih (10 * n + (c - 48))
    simp only [decimalFrom, List.foldl_cons] at this ⊢
    omega

theorem ParseUintLoop_decimal (cs : List Nat) :
    ∀ (n : Nat), n ≤ 2 ^ 64 - 1 → cs.all isDecimalDigit = true →
      ParseUintLoop 10 true ((2 ^ 64 - 1) / 10 + 1) (2 ^ 64 - 1) cs n false =
        if decimalFrom n cs ≤ 2 ^ 64 - 1 then .ok (decimalFrom n cs, false)
        else .error .ErrRange := by
  induction cs with
  | nil =>
    intro n hn _
    simp only [ParseUintLoop, decimalFrom, List.foldl_nil, if_pos hn]
  | cons c cs ih =>
    intro n hn hall
    simp only [List.all_cons, Bool.and_eq_true, isDecimalDigit, decide_eq_true_eq] at hall
    obtain ⟨⟨hc1, hc2⟩, hcs⟩ := hall
    have hc95 : ¬ (c = 95 ∧ true = true) := by omega
    have hd : (48 ≤ c ∧ c ≤ 57) := ⟨hc1, hc2⟩
    have hge := decimalFrom_ge cs (10 * n + (c - 48))
    have hdf : decimalFrom n (c :: cs) = decimalFrom (10 * n + (c - 48)) cs := rfl
    rw [ParseUintLoop, if_neg hc95]
    simp only [if_pos hd]
    have hbase : ¬ (c - 48 ≥ 10) := by omega
    rw [if_neg hbase, hdf]
    by_cases hcut : n ≥ (2 ^ 64 - 1) / 10 + 1
    · rw [if_pos hcut]
      have : ¬ decimalFrom (10 * n + (c - 48)) cs ≤ 2 ^ 64 - 1 := by
        norm_num at hcut ⊢
        omega
      rw [if_neg this]
    · rw [if_neg hcut]
      norm_num at hcut
      by_cases hov : 10 * n + (c - 48) ≤ 2 ^ 64 - 1
      · have h1 : n * 10 % 2 ^ 64 = n * 10 := Nat.mod_eq_of_lt (by norm_num; omega)
        have h2 : (n * 10 + (c - 48)) % 2 ^ 64 = 10 * n + (c - 48) := by
          rw [Nat.mul_comm]
          exact Nat.mod_eq_of_lt (by norm_num at hov ⊢; omega)
        simp only [h1, h2]
        have h3 : ¬ (10 * n + (c - 48) < n * 10 ∨ 10 * n + (c - 48) > 2 ^ 64 - 1) := by
          omega
        rw [if_neg h3]
        exact ih _ hov (by simpa using hcs)
      · have h1 : n * 10 % 2 ^ 64 = n * 10 := Nat.mod_eq_of_lt (by norm_num; omega)
        have h3 : (n * 10 + (c - 48)) % 2 ^ 64 < n * 10 ∨
            (n * 10 + (c - 48)) % 2 ^ 64 > 2 ^ 64 - 1 := by
          left
          norm_num at hov ⊢
          omega
        simp only [h1]
        rw [if_pos h3]
        have : ¬ decimalFrom (10 * n + (c - 48)) cs ≤ 2 ^ 64 - 1 := by omega
        rw [if_neg this]


theorem ParseUint_decimal (c : Nat) (cs : List Nat) (hall : (c :: cs).all isDecimalDigit = true)
    (hz : c ≠ 48 ∨ cs = []) :
    ParseUint (c :: cs) =
      if decimalFrom 0 (c :: cs) ≤ 2 ^ 64 - 1 then .ok (decimalFrom 0 (c :: cs))
      else .error .ErrRange := by
  by_cases hc : c = 48
  · have hcs : cs = [] := by
      rcases hz with h | h
      · exact absurd hc h
      · exact h
    subst hc hcs
    rfl
  · have hl := ParseUintLoop_decimal (c :: cs) 0 (by norm_num) hall
    simp only [ParseUint, if_neg hc]
    rw [hl]
    by_cases h64 : decimalFrom 0 (c :: cs) ≤ 2 ^ 64 - 1
    · simp only [if_pos h64]
      simp
    · simp only [if_neg h64]

theorem ParseInt_decimal (lit : String) (hd : isDecimal lit = true)
    (hz : hasLeadingZero lit = false) :
    ParseInt lit =
      if decimalValue lit < 2 ^ 63 then .ok (decimalValue lit : Int) else .error .ErrRange := by
  obtain ⟨data⟩ := lit
  cases data with
  | nil => simp [isDecimal] at hd
  | cons c0 rest =>
    simp only [isDecimal, List.isEmpty_cons, Bool.not_false, Bool.true_and, List.map_cons] at hd
    have hc0 : 48 ≤ c0.toNat ∧ c0.toNat ≤ 57 := by
      simp only [List.all_cons, Bool.and_eq_true, isDecimalDigit, decide_eq_true_eq] at hd
      exact hd.1
    have hz' : c0.toNat ≠ 48 ∨ rest.map Char.toNat = [] := by
      cases rest with
      | nil => right; rfl
      | cons c1 r =>
        left
        simpa [hasLeadingZero] using hz
    have hu := ParseUint_decimal c0.toNat (rest.map Char.toNat) hd hz'
    have hsign : ¬ (c0.toNat = 43 ∨ c0.toNat = 45) := by omega
    have hneg : (decide (c0.toNat = 45)) = false := by
      simp only [decide_eq_false_iff_not]; omega
    simp only [ParseInt, List.map_cons, if_neg hsign, hneg, decimalValue]
    rw [hu]
    by_cases h63 : decimalFrom 0 (c0.toNat :: rest.map Char.toNat) < 2 ^ 63
    · have h64 : decimalFrom 0 (c0.toNat :: rest.map Char.toNat) ≤ 2 ^ 64 - 1 := by
        norm_num at h63 ⊢; omega
      simp only [if_pos h64, if_pos h63]
      have hn : ¬ (True ∧ decimalFrom 0 (c0.toNat :: rest.map Char.toNat) ≥ 2 ^ 63) := by
        intro h; exact absurd h63 (Nat.not_lt.mpr h.2)
      have hf : ¬ (false = true ∧ decimalFrom 0 (c0.toNat :: rest.map Char.toNat) > 2 ^ 63) := by
        intro h; exact absurd h.1 (by decide)
      rw [if_neg hn, if_neg hf]
      rfl
    · simp only [if_neg h63]
      by_cases h64 : decimalFrom 0 (c0.toNat :: rest.map Char.toNat) ≤ 2 ^ 64 - 1
      · simp only [if_pos h64]
        have hn : (True ∧ decimalFrom 0 (c0.toNat :: rest.map Char.toNat) ≥ 2 ^ 63) :=
          ⟨trivial, Nat.not_lt.mp h63⟩
        rw [if_pos hn]
      · simp only [if_neg h64]

theorem quoteRune_digit (c : Char) (h : isDecimalDigit c.toNat = true) :
    quoteRune c = String.singleton c := by
  simp only [isDecimalDigit, Bool.and_eq_true, decide_eq_true_eq] at h
  have h1 : c ≠ '"' := by rintro rfl; simp at h
  have h2 : c ≠ '\\' := by rintro rfl; simp at h
  have h3 : ¬ (c.toNat < 32 ∨ c.toNat = 127) := by omega
  simp only [quoteRune, if_neg h1, if_neg h2, if_neg h3]
  repeat rw [if_neg (by omega)]

theorem join_singletons (l : List Char) (h : (l.map Char.toNat).all isDecimalDigit = true) :
    ∀ (acc : String), List.foldl (fun r s => r ++ s) acc (l.map quoteRune) = acc ++ String.mk l := by
  induction l with
  | nil => intro acc; apply String.ext; simp
  | cons c l ih =>
    intro acc
    simp only [List.map_cons, List.all_cons, Bool.and_eq_true] at h
    simp only [List.map_cons, List.foldl_cons]
    rw [ih h.2, quoteRune_digit c h.1]
    apply String.ext
    simp [String.singleton]

theorem Quote_decimal (lit : String) (hd : isDecimal lit = true) :
    Quote lit = "\"" ++ lit ++ "\"" := by
  simp only [isDecimal, Bool.and_eq_true] at hd
  simp only [Quote, String.join]
  rw [join_singletons lit.data hd.2]
  apply String.ext
  simp

end strconv

/-!
# An absent node comes with a diagnostic
-/

namespace parser
open token ast

theorem Clean.of_eq {p q : Parser} {G : Prop} (h : q.errors = p.errors) (g : G) :
    Clean p q G := ⟨[], by simp [h], fun _ => g⟩

theorem Clean.trans {p q r : Parser} {G1 G2 G : Prop} (h1 : Clean p q G1) (h2 : Clean q r G2)
    (g : G1 → G2 → G) : Clean p r G := by
  obtain ⟨m1, e1, g1⟩ := h1
  obtain ⟨m2, e2, g2⟩ := h2
  refine ⟨m1 ++ m2, by rw [e2, e1, List.append_assoc], fun h => ?_⟩
  obtain ⟨a, b⟩ := List.append_eq_nil.mp h
  exact g (g1 a) (g2 b)

theorem Clean.congr {p p' q q' : Parser} {G : Prop} (hp : p'.errors = p.errors)
    (hq : q'.errors = q.errors) (h : Clean p q G) : Clean p' q' G := by
  obtain ⟨m, e, g⟩ := h
  exact ⟨m, by rw [hp, hq, e], g⟩

theorem Clean.mono {p q : Parser} {G G' : Prop} (h : Clean p q G) (g : G → G') :
    Clean p q G' := by
  obtain ⟨m, e, g1⟩ := h
  exact ⟨m, e, fun hm => g (g1 hm)⟩

theorem Clean.of_next {p q : Parser} {G : Prop} (h : Clean (nextToken p) q G) : Clean p q G :=
  h

/-- A step that leaves `G` false has appended at least one message. -/
theorem Clean.appended {p q : Parser} {G : Prop} (h : Clean p q G) (hG : ¬ G) :
    ∃ msgs, msgs ≠ [] ∧ q.errors = p.errors ++ msgs := by
  obtain ⟨m, e, g⟩ := h
  exact ⟨m, fun hm => hG (g hm), e⟩

/-- A step that leaves the error log as it was has `G`. -/
theorem Clean.of_same {p q : Parser} {G : Prop} (h : Clean p q G) (he : q.errors = p.errors) :
    G := by
  obtain ⟨m, e, g⟩ := h
  rw [e] at he
  exact g (List.append_right_eq_self.mp he)

theorem expectPeek_clean (t : TokenKind) (p : Parser) :
    Clean p (expectPeek t p).2 ((expectPeek t p).1 = true) := by
  unfold expectPeek
  split
  · exact Clean.of_eq rfl rfl
  · exact ⟨[_], rfl, fun h => by simp at h⟩

theorem expectPeek_clean_of {t : TokenKind} {p q : Parser} {b : Bool}
    (h : expectPeek t p = (b, q)) : Clean p q (b = true) := by
  have := expectPeek_clean t p
  rw [h] at this
  exact this

theorem parseIntegerLiteral_clean (p : Parser) :
    Clean p (parseIntegerLiteral p).2 (completeOptExpression (parseIntegerLiteral p).1 = true) := by
  unfold parseIntegerLiteral
  split
  · exact ⟨[_], rfl, fun h => by simp at h⟩
  · exact Clean.of_eq rfl (by simp [completeOptExpression, Expression.complete])

theorem completeArguments_append (l : List (Option Expression)) (e : Option Expression) :
    completeArguments (l ++ [e]) = (completeArguments l && completeOptExpression e) := by
  induction l with
  | nil => simp [completeArguments]
  | cons a l ih => simp [completeArguments, ih, Bool.and_assoc]

theorem completeStatements_append (l : List Statement) (s : Statement) :
    completeStatements (l ++ [s]) = (completeStatements l && s.complete) := by
  induction l with
  | nil => simp [completeStatements]
  | cons a l ih => simp [completeStatements, ih, Bool.and_assoc]

theorem cleanAt_zero : CleanAt 0 := by
  constructor <;> intros <;> rename_i h
  · simp [parseExpression] at h
  · simp [parseExpressionLoop] at h
  · simp [parsePrefixExpression] at h
  · simp [parseInfixExpression] at h
  · simp [parseExpressionGroup] at h
  · simp [parseIfExpression] at h
  · simp [parseFunctionLiteral] at h
  · simp [parseInvocationExpression] at h
  · simp [parseInvocationArguments] at h
  · simp [parseInvocationArgumentsLoop] at h
  · simp [parseBlockStatement] at h
  · simp [parseBlockStatementLoop] at h
  · simp [parseStatement] at h
  · simp [parseLetStatement] at h
  · simp [parseReturnStatement] at h
  · simp [parseExpressionStatement] at h

theorem parseTypeDeclarationLoop_errors (n : Nat) : ∀ (p q : Parser),
    parseTypeDeclarationLoop n p = some q → q.errors = p.errors := by
  induction n with
  | zero => intro p q h; simp [parseTypeDeclarationLoop] at h
  | succ n ih =>
    intro p q h
    rw [parseTypeDeclarationLoop] at h
    split at h
    · exact ih (nextToken p) q h
    · cases h; rfl

theorem parseReturnStatementLoop_errors (n : Nat) : ∀ (p q : Parser),
    parseReturnStatementLoop n p = some q → q.errors = p.errors := by
  induction n with
  | zero => intro p q h; simp [parseReturnStatementLoop] at h
  | succ n ih =>
    intro p q h
    rw [parseReturnStatementLoop] at h
    split at h
    · exact ih (nextToken p) q h
    · cases h; rfl

theorem parseFunctionArgsLoop_errors (n : Nat) : ∀ (ids : List Identifier) (p : Parser)
    (r : List Identifier) (q : Parser),
    parseFunctionArgsLoop n ids p = some (r, q) → q.errors = p.errors := by
  induction n with
  | zero => intro ids p r q h; simp [parseFunctionArgsLoop] at h
  | succ n ih =>
    intro ids p r q h
    rw [parseFunctionArgsLoop] at h
    split at h
    · exact ih _ (nextToken (nextToken p)) _ _ h
    · cases h; rfl

theorem parseFunctionArgs_clean (n : Nat) (p : Parser) (r : Option (List Identifier))
    (q : Parser) (h : parseFunctionArgs n p = some (r, q)) : Clean p q (r.isSome = true) := by
  rw [parseFunctionArgs] at h
  simp only [] at h
  split at h
  · cases h; exact Clean.of_eq rfl rfl
  · rcases h1 : parseFunctionArgsLoop n ([] ++ [⟨(nextToken p).currentToken,
        (nextToken p).currentToken.Literal⟩]) (nextToken p) with _ | ⟨ids, p1⟩
    · rw [h1] at h; cases h
    rw [h1] at h
    simp only [] at h
    have e1 := parseFunctionArgsLoop_errors _ _ _ _ _ h1
    rcases h2 : expectPeek .RPAREN p1 with ⟨_ | _, p2⟩
    · simp only [h2] at h
      cases h
      exact Clean.mono (Clean.congr e1.symm rfl (expectPeek_clean_of h2)) (fun g => by cases g)
    · simp only [h2] at h
      cases h
      exact Clean.mono (Clean.congr e1.symm rfl (expectPeek_clean_of h2)) (fun _ => rfl)

theorem parseTypeDeclaration_clean (n : Nat) (p : Parser)
    (r : Option TypeDeclarationStatement) (q : Parser)
    (h : parseTypeDeclaration n p = some (r, q)) :
    Clean p q (∃ s, r = some s ∧ s.Name.isSome = true) := by
  rw [parseTypeDeclaration] at h
  simp only [] at h
  rcases h1 : expectPeek .IDENT p with ⟨_ | _, p1⟩
  · simp only [h1] at h
    cases h
    exact (expectPeek_clean_of h1).mono (fun g => by cases g)
  simp only [h1] at h
  rcases h2 : expectPeek .EQL p1 with ⟨_ | _, p2⟩
  · simp only [h2] at h
    cases h
    exact (expectPeek_clean_of h1).trans (expectPeek_clean_of h2) (fun _ g => by cases g)
  simp only [h2] at h
  rcases h3 : parseTypeDeclarationLoop n p2 with _ | p3
  · simp [h3] at h
  simp only [h3] at h
  cases h
  exact (expectPeek_clean_of h1).trans
    ((expectPeek_clean_of h2).congr rfl (parseTypeDeclarationLoop_errors _ _ _ h3))
    (fun _ _ => ⟨_, rfl, rfl⟩)


theorem parseExpression_clean (n : Nat)
    (hEL : ∀ prec l p r q, parseExpressionLoop n prec l p = some (r, q) →
      Clean p q (completeOptExpression l = true → completeOptExpression r = true))
    (hP : ∀ p r q, parsePrefixExpression n p = some (r, q) →
      Clean p q (completeOptExpression r = true))
    (hG : ∀ p r q, parseExpressionGroup n p = some (r, q) →
      Clean p q (completeOptExpression r = true))
    (hIf : ∀ p r q, parseIfExpression n p = some (r, q) →
      Clean p q (completeOptExpression r = true))
    (hF : ∀ p r q, parseFunctionLiteral n p = some (r, q) →
      Clean p q (completeOptExpression r = true)) :
    ∀ prec p r q, parseExpression (n + 1) prec p = some (r, q) →
      Clean p q (completeOptExpression r = true) := by
  intro prec p r q h
  rw [parseExpression] at h
  have key : ∀ l p1, Clean p p1 (completeOptExpression l = true) →
      parseExpressionLoop n prec l p1 = some (r, q) →
      Clean p q (completeOptExpression r = true) :=
    fun l p1 c hl => c.trans (hEL _ _ _ _ _ hl) (fun a b => b a)
  cases hfn : p.prefixParseFns p.currentToken.TokenKind with
  | none =>
    simp only [hfn] at h
    cases h
    exact ⟨[_], rfl, fun h => by simp at h⟩
  | some fn =>
    simp only [hfn] at h
    cases fn <;> simp only [] at h
    · refine key _ _ ?_ h
      exact Clean.of_eq rfl rfl
    · exact key _ _ (parseIntegerLiteral_clean p) h
    · rcases hc : parsePrefixExpression n p with _ | ⟨l, p1⟩
      · simp [hc] at h
      simp only [hc] at h
      exact key _ _ (hP _ _ _ hc) h
    · refine key _ _ ?_ h
      exact Clean.of_eq rfl rfl
    · refine key _ _ ?_ h
      exact Clean.of_eq rfl rfl
    · refine key _ _ ?_ h
      exact Clean.of_eq rfl rfl
    · rcases hc : parseExpressionGroup n p with _ | ⟨l, p1⟩
      · simp [hc] at h
      simp only [hc] at h
      exact key _ _ (hG _ _ _ hc) h
    · rcases hc : parseIfExpression n p with _ | ⟨l, p1⟩
      · simp [hc] at h
      simp only [hc] at h
      exact key _ _ (hIf _ _ _ hc) h
    · rcases hc : parseFunctionLiteral n p with _ | ⟨l, p1⟩
      · simp [hc] at h
      simp only [hc] at h
      exact key _ _ (hF _ _ _ hc) h

theorem parseExpressionLoop_clean (n : Nat)
    (hEL : ∀ prec l p r q, parseExpressionLoop n prec l p = some (r, q) →
      Clean p q (completeOptExpression l = true → completeOptExpression r = true))
    (hI : ∀ l p r q, parseInfixExpression n l p = some (r, q) →
      Clean p q (completeOptExpression l = true → completeOptExpression r = true))
    (hIE : ∀ f p r q, parseInvocationExpression n f p = some (r, q) →
      Clean p q (completeOptExpression f = true → completeOptExpression r = true)) :
    ∀ prec l p r q, parseExpressionLoop (n + 1) prec l p = some (r, q) →
      Clean p q (completeOptExpression l = true → completeOptExpression r = true) := by
  intro prec l p r q h
  rw [parseExpressionLoop] at h
  split at h
  · cases hfn : p.infixParseFns p.peekToken.TokenKind with
    | none =>
      simp only [hfn] at h
      cases h
      exact Clean.of_eq rfl id
    | some fn =>
      simp only [hfn] at h
      cases fn <;> simp only [] at h
      · rcases hc : parseInfixExpression n l (nextToken p) with _ | ⟨l1, p1⟩
        · simp [hc] at h
        simp only [hc] at h
        exact (Clean.of_next (hI _ _ _ _ hc)).trans (hEL _ _ _ _ _ h)
          (fun a b c => b (a c))
      · rcases hc : parseInvocationExpression n l (nextToken p) with _ | ⟨l1, p1⟩
        · simp [hc] at h
        simp only [hc] at h
        exact (Clean.of_next (hIE _ _ _ _ hc)).trans (hEL _ _ _ _ _ h)
          (fun a b c => b (a c))
  · cases h
    exact Clean.of_eq rfl id

theorem parsePrefixExpression_clean (n : Nat)
    (hE : ∀ prec p r q, parseExpression n prec p = some (r, q) →
      Clean p q (completeOptExpression r = true)) :
    ∀ p r q, parsePrefixExpression (n + 1) p = some (r, q) →
      Clean p q (completeOptExpression r = true) := by
  intro p r q h
  rw [parsePrefixExpression] at h
  rcases hc : parseExpression n PREFIX (nextToken p) with _ | ⟨r1, p1⟩
  · simp [hc] at h
  simp only [hc] at h
  cases h
  exact Clean.mono (Clean.of_next (hE _ _ _ _ hc))
    (fun g => by simpa [completeOptExpression, Expression.complete] using g)

theorem parseInfixExpression_clean (n : Nat)
    (hE : ∀ prec p r q, parseExpression n prec p = some (r, q) →
      Clean p q (completeOptExpression r = true)) :
    ∀ l p r q, parseInfixExpression (n + 1) l p = some (r, q) →
      Clean p q (completeOptExpression l = true → completeOptExpression r = true) := by
  intro l p r q h
  rw [parseInfixExpression] at h
  rcases hc : parseExpression n (currentPrecedence p) (nextToken p) with _ | ⟨r1, p1⟩
  · simp [hc] at h
  simp only [hc] at h
  cases h
  exact Clean.mono (Clean.of_next (hE _ _ _ _ hc))
    (fun g gl => by
      simp only [completeOptExpression, Expression.complete, Bool.and_eq_true]
      exact ⟨gl, g⟩)

theorem parseExpressionGroup_clean (n : Nat)
    (hE : ∀ prec p r q, parseExpression n prec p = some (r, q) →
      Clean p q (completeOptExpression r = true)) :
    ∀ p r q, parseExpressionGroup (n + 1) p = some (r, q) →
      Clean p q (completeOptExpression r = true) := by
  intro p r q h
  rw [parseExpressionGroup] at h
  rcases hc : parseExpression n LOWEST (nextToken p) with _ | ⟨r1, p1⟩
  · simp [hc] at h
  simp only [hc] at h
  rcases h2 : expectPeek .RPAREN p1 with ⟨_ | _, p2⟩
  · simp only [h2] at h
    cases h
    exact (Clean.of_next (hE _ _ _ _ hc)).trans (expectPeek_clean_of h2)
      (fun _ g => by cases g)
  · simp only [h2] at h
    cases h
    exact (Clean.of_next (hE _ _ _ _ hc)).trans (expectPeek_clean_of h2)
      (fun g _ => g)


theorem parseIfExpression_clean (n : Nat)
    (hE : ∀ prec p r q, parseExpression n prec p = some (r, q) →
      Clean p q (completeOptExpression r = true))
    (hB : ∀ p r q, parseBlockStatement n p = some (r, q) →
      Clean p q (completeOptBlock r = true)) :
    ∀ p r q, parseIfExpression (n + 1) p = some (r, q) →
      Clean p q (completeOptExpression r = true) := by
  intro p r q h
  rw [parseIfExpression] at h
  rcases h1 : expectPeek .LPAREN p with ⟨_ | _, p1⟩
  · simp only [h1] at h
    cases h
    exact Clean.mono (expectPeek_clean_of h1) (fun g => by cases g)
  simp only [h1] at h
  have c1 := expectPeek_clean_of h1
  rcases h2 : parseExpression n LOWEST (nextToken p1) with _ | ⟨c, p3⟩
  · simp [h2] at h
  simp only [h2] at h
  have c2 := c1.trans (Clean.of_next (hE _ _ _ _ h2)) (fun _ g => g)
  rcases h3 : expectPeek .RPAREN p3 with ⟨_ | _, p4⟩
  · simp only [h3] at h
    cases h
    exact c2.trans (expectPeek_clean_of h3) (fun _ g => by cases g)
  simp only [h3] at h
  have c3 := c2.trans (expectPeek_clean_of h3) (fun g _ => g)
  rcases h4 : expectPeek .LBRACE p4 with ⟨_ | _, p5⟩
  · simp only [h4] at h
    cases h
    exact c3.trans (expectPeek_clean_of h4) (fun _ g => by cases g)
  simp only [h4] at h
  have c4 := c3.trans (expectPeek_clean_of h4) (fun g _ => g)
  rcases h5 : parseBlockStatement n p5 with _ | ⟨b, p6⟩
  · simp [h5] at h
  simp only [h5] at h
  have c5 := c4.trans (hB _ _ _ h5) (fun g1 g2 => And.intro g1 g2)
  split at h
  · rcases h6 : expectPeek .LBRACE (nextToken p6) with ⟨_ | _, p7⟩
    · simp only [h6] at h
      cases h
      exact c5.trans (Clean.of_next (expectPeek_clean_of h6)) (fun _ g => by cases g)
    simp only [h6] at h
    have c6 := c5.trans (Clean.of_next (expectPeek_clean_of h6)) (fun g _ => g)
    rcases h7 : parseBlockStatement n p7 with _ | ⟨a, p8⟩
    · simp [h7] at h
    simp only [h7] at h
    cases h
    refine c6.trans (hB _ _ _ h7) (fun g1 g2 => ?_)
    cases a with
    | none => simp [completeOptBlock] at g2
    | some a =>
      simp only [completeOptExpression, Expression.complete, completeAlternative,
        Bool.and_eq_true]
      exact ⟨⟨g1.1, g1.2⟩, by simpa [completeOptBlock] using g2⟩
  · cases h
    refine Clean.mono c5 (fun g => ?_)
    simp only [completeOptExpression, Expression.complete, completeAlternative,
      Bool.and_eq_true]
    exact ⟨⟨g.1, g.2⟩, trivial⟩

theorem parseFunctionLiteral_clean (n : Nat)
    (hB : ∀ p r q, parseBlockStatement n p = some (r, q) →
      Clean p q (completeOptBlock r = true)) :
    ∀ p r q, parseFunctionLiteral (n + 1) p = some (r, q) →
      Clean p q (completeOptExpression r = true) := by
  intro p r q h
  rw [parseFunctionLiteral] at h
  rcases h1 : expectPeek .LPAREN p with ⟨_ | _, p1⟩
  · simp only [h1] at h
    cases h
    exact Clean.mono (expectPeek_clean_of h1) (fun g => by cases g)
  simp only [h1] at h
  have c1 := expectPeek_clean_of h1
  rcases h2 : parseFunctionArgs n p1 with _ | ⟨a, p2⟩
  · simp [h2] at h
  simp only [h2] at h
  have c2 := c1.trans (parseFunctionArgs_clean _ _ _ _ h2) (fun _ g => g)
  rcases h3 : expectPeek .LBRACE p2 with ⟨_ | _, p3⟩
  · simp only [h3] at h
    cases h
    exact c2.trans (expectPeek_clean_of h3) (fun _ g => by cases g)
  simp only [h3] at h
  have c3 := c2.trans (expectPeek_clean_of h3) (fun g _ => g)
  rcases h4 : parseBlockStatement n p3 with _ | ⟨b, p4⟩
  · simp [h4] at h
  simp only [h4] at h
  cases h
  refine c3.trans (hB _ _ _ h4) (fun g1 g2 => ?_)
  simp only [completeOptExpression, Expression.complete, Bool.and_eq_true]
  exact ⟨g1, g2⟩

theorem parseInvocationExpression_clean (n : Nat)
    (hA : ∀ p r q, parseInvocationArguments n p = some (r, q) →
      Clean p q (completeOptArguments r = true)) :
    ∀ f p r q, parseInvocationExpression (n + 1) f p = some (r, q) →
      Clean p q (completeOptExpression f = true → completeOptExpression r = true) := by
  intro f p r q h
  rw [parseInvocationExpression] at h
  rcases h1 : parseInvocationArguments n p with _ | ⟨a, p1⟩
  · simp [h1] at h
  simp only [h1] at h
  cases h
  refine Clean.mono (hA _ _ _ h1) (fun g gf => ?_)
  simp only [completeOptExpression, Expression.complete, Bool.and_eq_true]
  exact ⟨gf, g⟩

theorem parseInvocationArguments_clean (n : Nat)
    (hE : ∀ prec p r q, parseExpression n prec p = some (r, q) →
      Clean p q (completeOptExpression r = true))
    (hL : ∀ a p r q, parseInvocationArgumentsLoop n a p = some (r, q) →
      Clean p q (completeArguments a = true → completeArguments r = true)) :
    ∀ p r q, parseInvocationArguments (n + 1) p = some (r, q) →
      Clean p q (completeOptArguments r = true) := by
  intro p r q h
  rw [parseInvocationArguments] at h
  try simp only [] at h
  split at h
  · cases h
    exact Clean.of_eq rfl (by simp [completeOptArguments, completeArguments])
  · rcases h1 : parseExpression n LOWEST (nextToken p) with _ | ⟨e, p1⟩
    · simp [h1] at h
    simp only [h1, List.nil_append] at h
    have c1 : Clean p p1 (completeOptExpression e = true) := Clean.of_next (hE _ _ _ _ h1)
    rcases h2 : parseInvocationArgumentsLoop n [e] p1 with _ | ⟨a, p2⟩
    · simp [h2] at h
    simp only [h2] at h
    have c2 := c1.trans (hL _ _ _ _ h2) (fun g1 g2 =>
      g2 (by simpa [completeArguments] using g1))
    rcases h3 : expectPeek .RPAREN p2 with ⟨_ | _, p3⟩
    · simp only [h3] at h
      cases h
      exact c2.trans (expectPeek_clean_of h3) (fun _ g => by cases g)
    · simp only [h3] at h
      cases h
      exact c2.trans (expectPeek_clean_of h3) (fun g _ => by
        simpa [completeOptArguments] using g)

theorem parseInvocationArgumentsLoop_clean (n : Nat)
    (hE : ∀ prec p r q, parseExpression n prec p = some (r, q) →
      Clean p q (completeOptExpression r = true))
    (hL : ∀ a p r q, parseInvocationArgumentsLoop n a p = some (r, q) →
      Clean p q (completeArguments a = true → completeArguments r = true)) :
    ∀ a p r q, parseInvocationArgumentsLoop (n + 1) a p = some (r, q) →
      Clean p q (completeArguments a = true → completeArguments r = true) := by
  intro a p r q h
  rw [parseInvocationArgumentsLoop] at h
  split at h
  · simp only [] at h
    rcases h1 : parseExpression n LOWEST (nextToken (nextToken p)) with _ | ⟨e, p1⟩
    · simp [h1] at h
    simp only [h1] at h
    have c1 : Clean p p1 (completeOptExpression e = true) :=
      Clean.of_next (Clean.of_next (hE _ _ _ _ h1))
    exact c1.trans (hL _ _ _ _ h) (fun g1 g2 ga => g2 (by
      rw [completeArguments_append, ga, g1]; rfl))
  · cases h
    exact Clean.of_eq rfl id

theorem parseBlockStatement_clean (n : Nat)
    (hL : ∀ a p r q, parseBlockStatementLoop n a p = some (r, q) →
      Clean p q (completeStatements a = true → completeStatements r = true)) :
    ∀ p r q, parseBlockStatement (n + 1) p = some (r, q) →
      Clean p q (completeOptBlock r = true) := by
  intro p r q h
  rw [parseBlockStatement] at h
  try simp only [] at h
  rcases h1 : parseBlockStatementLoop n [] (nextToken p) with _ | ⟨l, p1⟩
  · simp [h1] at h
  simp only [h1] at h
  cases h
  refine Clean.mono (Clean.of_next (hL _ _ _ _ h1)) (fun g => ?_)
  simp only [completeOptBlock, BlockStatement.complete]
  exact g (by simp [completeStatements])

theorem parseBlockStatementLoop_clean (n : Nat)
    (hS : ∀ p r q, parseStatement n p = some (r, q) →
      Clean p q (∀ s, r = some s → s.complete = true))
    (hL : ∀ a p r q, parseBlockStatementLoop n a p = some (r, q) →
      Clean p q (completeStatements a = true → completeStatements r = true)) :
    ∀ a p r q, parseBlockStatementLoop (n + 1) a p = some (r, q) →
      Clean p q (completeStatements a = true → completeStatements r = true) := by
  intro a p r q h
  rw [parseBlockStatementLoop] at h
  split at h
  · rcases h1 : parseStatement n p with _ | ⟨s, p1⟩
    · simp [h1] at h
    simp only [h1] at h
    refine (hS _ _ _ h1).trans (Clean.of_next (hL _ _ _ _ h)) (fun g1 g2 ga => g2 ?_)
    cases s with
    | none => exact ga
    | some s =>
      simp only []
      rw [completeStatements_append, ga, g1 s rfl]
      rfl
  · cases h
    exact Clean.of_eq rfl id

theorem parseStatement_clean (n : Nat)
    (hLet : ∀ p r q, parseLetStatement n p = some (r, q) →
      Clean p q (∃ s, r = some s ∧ s.complete = true))
    (hR : ∀ p r q, parseReturnStatement n p = some (r, q) →
      Clean p q (∃ s, r = some s ∧ s.complete = true))
    (hES : ∀ p r q, parseExpressionStatement n p = some (r, q) →
      Clean p q (∃ s, r = some s ∧ s.complete = true)) :
    ∀ p r q, parseStatement (n + 1) p = some (r, q) →
      Clean p q (∀ s, r = some s → s.complete = true) := by
  intro p r q h
  rw [parseStatement] at h
  split at h
  · rcases h1 : parseTypeDeclaration n p with _ | ⟨s, p1⟩
    · simp [h1] at h
    simp only [h1] at h
    cases h
    refine Clean.mono (parseTypeDeclaration_clean _ _ _ _ h1) (fun g s hs => ?_)
    obtain ⟨t, rfl, ht⟩ := g
    cases hs
    exact ht
  · rcases h1 : parseLetStatement n p with _ | ⟨s, p1⟩
    · simp [h1] at h
    simp only [h1] at h
    cases h
    refine Clean.mono (hLet _ _ _ h1) (fun g s hs => ?_)
    obtain ⟨t, rfl, ht⟩ := g
    cases hs
    exact ht
  · rcases h1 : parseReturnStatement n p with _ | ⟨s, p1⟩
    · simp [h1] at h
    simp only [h1] at h
    cases h
    refine Clean.mono (hR _ _ _ h1) (fun g s hs => ?_)
    obtain ⟨t, rfl, ht⟩ := g
    cases hs
    exact ht
  · rcases h1 : parseExpressionStatement n p with _ | ⟨s, p1⟩
    · simp [h1] at h
    simp only [h1] at h
    cases h
    refine Clean.mono (hES _ _ _ h1) (fun g s hs => ?_)
    obtain ⟨t, rfl, ht⟩ := g
    cases hs
    exact ht

theorem semi_errors (p : Parser) :
    (if peekTokenIs .SEMI p = true then nextToken p else p).errors = p.errors := by
  split <;> rfl

theorem parseLetStatement_clean (n : Nat)
    (hE : ∀ prec p r q, parseExpression n prec p = some (r, q) →
      Clean p q (completeOptExpression r = true)) :
    ∀ p r q, parseLetStatement (n + 1) p = some (r, q) →
      Clean p q (∃ s, r = some s ∧ s.complete = true) := by
  intro p r q h
  rw [parseLetStatement] at h
  rcases h1 : expectPeek .IDENT p with ⟨_ | _, p1⟩
  · simp only [h1] at h
    cases h
    exact Clean.mono (expectPeek_clean_of h1) (fun g => by cases g)
  simp only [h1] at h
  have c1 := expectPeek_clean_of h1
  rcases h2 : expectPeek .ASSIGN p1 with ⟨_ | _, p2⟩
  · simp only [h2] at h
    cases h
    exact c1.trans (expectPeek_clean_of h2) (fun _ g => by cases g)
  simp only [h2] at h
  have c2 := c1.trans (expectPeek_clean_of h2) (fun g _ => g)
  rcases h3 : parseExpression n LOWEST (nextToken p2) with _ | ⟨v, p3⟩
  · simp [h3] at h
  simp only [h3] at h
  cases h
  refine Clean.congr rfl (semi_errors p3) (c2.trans (Clean.of_next (hE _ _ _ _ h3))
    (fun _ g => ⟨_, rfl, ?_⟩))
  simpa [LetStatement.complete] using g

theorem parseReturnStatement_clean (n : Nat)
    (hE : ∀ prec p r q, parseExpression n prec p = some (r, q) →
      Clean p q (completeOptExpression r = true)) :
    ∀ p r q, parseReturnStatement (n + 1) p = some (r, q) →
      Clean p q (∃ s, r = some s ∧ s.complete = true) := by
  intro p r q h
  rw [parseReturnStatement] at h
  try simp only [] at h
  rcases h1 : parseExpression n LOWEST (nextToken p) with _ | ⟨v, p1⟩
  · simp [h1] at h
  simp only [h1] at h
  rcases h2 : parseReturnStatementLoop n p1 with _ | p2
  · simp [h2] at h
  simp only [h2] at h
  cases h
  refine Clean.congr rfl (parseReturnStatementLoop_errors _ _ _ h2)
    (Clean.mono (Clean.of_next (hE _ _ _ _ h1)) (fun g => ⟨_, rfl, ?_⟩))
  simpa [ReturnStatement.complete] using g

theorem parseExpressionStatement_clean (n : Nat)
    (hE : ∀ prec p r q, parseExpression n prec p = some (r, q) →
      Clean p q (completeOptExpression r = true)) :
    ∀ p r q, parseExpressionStatement (n + 1) p = some (r, q) →
      Clean p q (∃ s, r = some s ∧ s.complete = true) := by
  intro p r q h
  rw [parseExpressionStatement] at h
  simp only [] at h
  rcases h1 : parseExpression n LOWEST p with _ | ⟨v, p1⟩
  · simp [h1] at h
  simp only [h1] at h
  cases h
  refine Clean.congr rfl (semi_errors p1)
    (Clean.mono (hE _ _ _ _ h1) (fun g => ⟨_, rfl, ?_⟩))
  simpa [ExpressionStatement.complete] using g

theorem cleanAt_succ (n : Nat) (ih : CleanAt n) : CleanAt (n + 1) :=
  { expression := parseExpression_clean n ih.expressionLoop ih.prefixExpression
      ih.expressionGroup ih.ifExpression ih.functionLiteral
    expressionLoop := parseExpressionLoop_clean n ih.expressionLoop ih.infixExpression
      ih.invocationExpression
    prefixExpression := parsePrefixExpression_clean n ih.expression
    infixExpression := parseInfixExpression_clean n ih.expression
    expressionGroup := parseExpressionGroup_clean n ih.expression
    ifExpression := parseIfExpression_clean n ih.expression ih.blockStatement
    functionLiteral := parseFunctionLiteral_clean n ih.blockStatement
    invocationExpression := parseInvocationExpression_clean n ih.invocationArguments
    invocationArguments := parseInvocationArguments_clean n ih.expression
      ih.invocationArgumentsLoop
    invocationArgumentsLoop := parseInvocationArgumentsLoop_clean n ih.expression
      ih.invocationArgumentsLoop
    blockStatement := parseBlockStatement_clean n ih.blockStatementLoop
    blockStatementLoop := parseBlockStatementLoop_clean n ih.statement ih.blockStatementLoop
    statement := parseStatement_clean n ih.letStatement ih.returnStatement
      ih.expressionStatement
    letStatement := parseLetStatement_clean n ih.expression
    returnStatement := parseReturnStatement_clean n ih.expression
    expressionStatement := parseExpressionStatement_clean n ih.expression }

theorem cleanAt (n : Nat) : CleanAt n := by
  induction n with
  | zero => exact cleanAt_zero
  | succ n ih => exact cleanAt_succ n ih

theorem ParseProgramLoop_clean (n : Nat) : ∀ (a : List Statement) (p : Parser)
    (r : List Statement) (q : Parser), ParseProgramLoop n a p = some (r, q) →
      Clean p q (completeStatements a = true → completeStatements r = true) := by
  induction n with
  | zero => intro a p r q h; simp [ParseProgramLoop] at h
  | succ n ih =>
    intro a p r q h
    rw [ParseProgramLoop] at h
    split at h
    · rcases h1 : parseStatement n p with _ | ⟨s, p1⟩
      · simp [h1] at h
      simp only [h1] at h
      refine ((cleanAt n).statement _ _ _ h1).trans (Clean.of_next (ih _ _ _ _ h))
        (fun g1 g2 ga => g2 ?_)
      cases s with
      | none => exact ga
      | some s =>
        simp only []
        rw [completeStatements_append, ga, g1 s rfl]
        rfl
    · cases h
      exact Clean.of_eq rfl id

/-- When `New` then `ParseProgram` return with an empty error log, every
statement returned is complete. -/
theorem parse_clean (fuel : Nat) (toks : List Token) (stmts : List Statement)
    (h : parse fuel toks = some (stmts, [])) : completeStatements stmts = true := by
  rw [parse, ParseProgram] at h
  rcases h1 : ParseProgramLoop fuel [] (New ⟨toks⟩) with _ | ⟨l, p1⟩
  · simp [h1] at h
  simp only [h1, Option.some.injEq, Prod.mk.injEq, Parser.Errors] at h
  obtain ⟨rfl, he⟩ := h
  have c := ParseProgramLoop_clean _ _ _ _ _ h1
  exact c.of_same (by rw [he]; rfl) (by simp [completeStatements])

end parser

namespace ast

mutual

theorem expression_entriesPresent : ∀ (e : Expression),
    e.complete = true → e.entriesPresent = true
  | .Identifier _, _ => by simp [Expression.entriesPresent]
  | .IntegerLiteral _ _, _ => by simp [Expression.entriesPresent]
  | .Boolean _ _, _ => by simp [Expression.entriesPresent]
  | .NoneLiteral _, _ => by simp [Expression.entriesPresent]
  | .NullLiteral _, _ => by simp [Expression.entriesPresent]
  | .PrefixExpression _ _ r, h => by
    simp only [Expression.complete] at h
    simp only [Expression.entriesPresent]
    exact optExpression_entriesPresent r h
  | .InfixExpression _ _ l r, h => by
    simp only [Expression.complete, Bool.and_eq_true] at h
    simp only [Expression.entriesPresent, Bool.and_eq_true]
    exact ⟨optExpression_entriesPresent l h.1, optExpression_entriesPresent r h.2⟩
  | .IfExpression _ c cons alt, h => by
    simp only [Expression.complete, Bool.and_eq_true] at h
    simp only [Expression.entriesPresent, Bool.and_eq_true]
    exact ⟨⟨optExpression_entriesPresent c h.1.1, optBlock_entriesPresent cons h.1.2⟩,
      alternative_entriesPresent alt h.2⟩
  | .FunctionLiteral _ _ body, h => by
    simp only [Expression.complete, Bool.and_eq_true] at h
    simp only [Expression.entriesPresent]
    exact optBlock_entriesPresent body h.2
  | .InvocationExpression _ f args, h => by
    simp only [Expression.complete, Bool.and_eq_true] at h
    simp only [Expression.entriesPresent, Bool.and_eq_true]
    exact ⟨optExpression_entriesPresent f h.1, optArguments_entriesPresent args h.2⟩

theorem optExpression_entriesPresent : ∀ (e : Option Expression),
    completeOptExpression e = true → entriesPresentOptExpression e = true
  | none, h => by simp [completeOptExpression] at h
  | some e, h => by
    simp only [completeOptExpression] at h
    simp only [entriesPresentOptExpression]
    exact expression_entriesPresent e h

theorem optArguments_entriesPresent : ∀ (a : Option (List (Option Expression))),
    completeOptArguments a = true → entriesPresentOptArguments a = true
  | none, h => by simp [completeOptArguments] at h
  | some l, h => by
    simp only [completeOptArguments] at h
    simp only [entriesPresentOptArguments]
    exact arguments_entriesPresent l h

theorem arguments_entriesPresent : ∀ (l : List (Option Expression)),
    completeArguments l = true → entriesPresentArguments l = true
  | [], _ => by simp [entriesPresentArguments]
  | none :: _, h => by simp [completeArguments, completeOptExpression] at h
  | some e :: l, h => by
    simp only [completeArguments, completeOptExpression, Bool.and_eq_true] at h
    simp only [entriesPresentArguments, Bool.and_eq_true]
    exact ⟨expression_entriesPresent e h.1, arguments_entriesPresent l h.2⟩

theorem optBlock_entriesPresent : ∀ (b : Option BlockStatement),
    completeOptBlock b = true → entriesPresentOptBlock b = true
  | none, h => by simp [completeOptBlock] at h
  | some b, h => by
    simp only [completeOptBlock] at h
    simp only [entriesPresentOptBlock]
    exact block_entriesPresent b h

theorem alternative_entriesPresent : ∀ (b : Option BlockStatement),
    completeAlternative b = true → entriesPresentOptBlock b = true
  | none, _ => by simp [entriesPresentOptBlock]
  | some b, h => by
    simp only [completeAlternative] at h
    simp only [entriesPresentOptBlock]
    exact block_entriesPresent b h

theorem block_entriesPresent : ∀ (b : BlockStatement),
    b.complete = true → b.entriesPresent = true
  | .mk _ l, h => by
    simp only [BlockStatement.complete] at h
    simp only [BlockStatement.entriesPresent]
    exact statements_entriesPresent l h

theorem statements_entriesPresent : ∀ (l : List Statement),
    completeStatements l = true → entriesPresentStatements l = true
  | [], _ => by simp [entriesPresentStatements]
  | s :: l, h => by
    simp only [completeStatements, Bool.and_eq_true] at h
    simp only [entriesPresentStatements, Bool.and_eq_true]
    exact ⟨statement_entriesPresent s h.1, statements_entriesPresent l h.2⟩

theorem statement_entriesPresent : ∀ (s : Statement),
    s.complete = true → s.entriesPresent = true
  | .LetStatement none, _ => by simp [Statement.entriesPresent]
  | .LetStatement (some (.mk _ _ v)), h => by
    simp only [Statement.complete, LetStatement.complete, Bool.and_eq_true] at h
    simp only [Statement.entriesPresent, LetStatement.entriesPresent]
    exact optExpression_entriesPresent v h.2
  | .ReturnStatement none, _ => by simp [Statement.entriesPresent]
  | .ReturnStatement (some (.mk _ v)), h => by
    simp only [Statement.complete, ReturnStatement.complete] at h
    simp only [Statement.entriesPresent, ReturnStatement.entriesPresent]
    exact optExpression_entriesPresent v h
  | .TypeDeclarationStatement _, _ => by simp [Statement.entriesPresent]
  | .ExpressionStatement none, _ => by simp [Statement.entriesPresent]
  | .ExpressionStatement (some (.mk _ v)), h => by
    simp only [Statement.complete, ExpressionStatement.complete] at h
    simp only [Statement.entriesPresent, ExpressionStatement.entriesPresent]
    exact optExpression_entriesPresent v h

end

end ast

/-!
# Termination on sequences without `return` and `type`
-/

namespace parser
open token ast

theorem nextToken_stL (l : List Token) (e : List String) :
    nextToken (stL l e) = stL l.tail e := by
  cases l with
  | nil => rfl
  | cons t r => exact nextToken_st t r e

theorem peekError_stL (k : TokenKind) (l : List Token) (e : List String) :
    ∃ m, peekError k (stL l e) = stL l (e ++ [m]) := by
  cases l with
  | nil => exact ⟨_, rfl⟩
  | cons t r => exact ⟨_, rfl⟩

theorem expectPeek_stL (k : TokenKind) (l : List Token) (e : List String) :
    expectPeek k (stL l e) = (true, stL l.tail e) ∨
      ∃ m, expectPeek k (stL l e) = (false, stL l (e ++ [m])) := by
  unfold expectPeek
  split
  · left
    rw [nextToken_stL]
  · right
    obtain ⟨m, hm⟩ := peekError_stL k l e
    exact ⟨m, by rw [hm]⟩

theorem semi_stL (l : List Token) (e : List String) :
    ∃ l', l' <:+ l ∧
      (if peekTokenIs .SEMI (stL l e) = true then stL l.tail e else stL l e) = stL l' e := by
  split
  · exact ⟨l.tail, List.tail_suffix l, rfl⟩
  · exact ⟨l, List.suffix_refl l, rfl⟩

theorem noPrefixParseFn_stL (k : TokenKind) (l : List Token) (e : List String) :
    noPrefixParseFn k (stL l e) =
      stL l (e ++ ["no prefix parse function defined for TokenKind " ++ k.String]) := by
  cases l <;> rfl

theorem parseIntegerLiteral_stL (l : List Token) (e : List String) :
    ∃ r e', parseIntegerLiteral (stL l e) = (r, stL l e') := by
  unfold parseIntegerLiteral
  split
  · cases l with
    | nil => exact ⟨_, _, rfl⟩
    | cons t r => exact ⟨_, _, rfl⟩
  · exact ⟨_, _, rfl⟩

theorem prefixParseFns_stL (l : List Token) (e : List String) :
    (stL l e).prefixParseFns = registeredPrefix := by
  cases l <;> rfl

theorem infixParseFns_stL (l : List Token) (e : List String) :
    (stL l e).infixParseFns = registeredInfix := by
  cases l <;> rfl

theorem tail_suffix_of_suffix_cons {l' r : List Token} {t : Token} (h : l' <:+ t :: r) :
    l'.tail <:+ r := by
  rcases List.suffix_cons_iff.mp h with h | h
  · subst h; exact List.suffix_refl r
  · exact (List.tail_suffix l').trans h

theorem fuel_succ {N fuel : Nat} (h : N + 1 ≤ fuel) : ∃ k, fuel = k + 1 ∧ N ≤ k :=
  ⟨fuel - 1, by omega, by omega⟩

theorem Halts.after {α : Type} {run : Nat → Option (α × Parser)} {l : List Token} {r : α}
    (N : Nat) (l' : List Token) (e' : List String) (hs : l' <:+ l)
    (h : ∀ k, N ≤ k → run (k + 1) = some (r, stL l' e')) : Halts run l :=
  ⟨N + 1, r, l', e', hs, fun fuel hf => by
    obtain ⟨k, rfl, hk⟩ := fuel_succ hf
    exact h k hk⟩

theorem parsePrefixExpression_halts (l : List Token)
    (hE : ∀ prec e, Halts (fun k => parseExpression k prec (stL l.tail e)) l.tail) :
    ∀ e, Halts (fun k => parsePrefixExpression k (stL l e)) l := by
  intro e
  obtain ⟨N, r, l1, e1, hs, h⟩ := hE PREFIX e
  apply Halts.after N l1 e1 (hs.trans (List.tail_suffix l))
  intro k hk
  simp only [parsePrefixExpression, nextToken_stL, h k hk]
  rfl

theorem parseInfixExpression_halts (l : List Token)
    (hE : ∀ prec e, Halts (fun k => parseExpression k prec (stL l.tail e)) l.tail) :
    ∀ left e, Halts (fun k => parseInfixExpression k left (stL l e)) l := by
  intro left e
  obtain ⟨N, r, l1, e1, hs, h⟩ := hE (currentPrecedence (stL l e)) e
  apply Halts.after N l1 e1 (hs.trans (List.tail_suffix l))
  intro k hk
  simp only [parseInfixExpression, nextToken_stL, h k hk]
  rfl

theorem parseExpressionGroup_halts (l : List Token)
    (hE : ∀ prec e, Halts (fun k => parseExpression k prec (stL l.tail e)) l.tail) :
    ∀ e, Halts (fun k => parseExpressionGroup k (stL l e)) l := by
  intro e
  obtain ⟨N, r, l1, e1, hs, h⟩ := hE LOWEST e
  rcases expectPeek_stL .RPAREN l1 e1 with h2 | ⟨m, h2⟩
  · apply Halts.after N l1.tail e1
      (((List.tail_suffix l1).trans hs).trans (List.tail_suffix l))
    intro k hk
    simp only [parseExpressionGroup, nextToken_stL, h k hk, h2]
    rfl
  · apply Halts.after N l1 (e1 ++ [m]) (hs.trans (List.tail_suffix l))
    intro k hk
    simp only [parseExpressionGroup, nextToken_stL, h k hk, h2]
    rfl

theorem parseInvocationArgumentsLoop_halts (l : List Token)
    (hE : ∀ l', l' <:+ l.tail →
      ∀ prec e, Halts (fun k => parseExpression k prec (stL l' e)) l')
    (hL : ∀ l', l' <:+ l.tail →
      ∀ a e, Halts (fun k => parseInvocationArgumentsLoop k a (stL l' e)) l') :
    ∀ a e, Halts (fun k => parseInvocationArgumentsLoop k a (stL l e)) l := by
  intro a e
  by_cases hc : peekTokenIs .COMMA (stL l e) = true
  · obtain ⟨N1, r1, l1, e1, hs1, h1⟩ := hE l.tail.tail (List.tail_suffix _) LOWEST e
    obtain ⟨N2, r2, l2, e2, hs2, h2⟩ :=
      hL l1 (hs1.trans (List.tail_suffix _)) (a ++ [r1]) e1
    apply Halts.after (N1 + N2) l2 e2
      (((hs2.trans hs1).trans (List.tail_suffix _)).trans (List.tail_suffix l))
    intro k hk
    rw [parseInvocationArgumentsLoop, if_pos hc]
    simp only [nextToken_stL, h1 k (by omega), h2 k (by omega)]
    rfl
  · apply Halts.after 0 l e (List.suffix_refl l)
    intro k _
    rw [parseInvocationArgumentsLoop, if_neg hc]

theorem parseInvocationArguments_halts (l : List Token)
    (hE : ∀ prec e, Halts (fun k => parseExpression k prec (stL l.tail e)) l.tail)
    (hL : ∀ l', l' <:+ l.tail →
      ∀ a e, Halts (fun k => parseInvocationArgumentsLoop k a (stL l' e)) l') :
    ∀ e, Halts (fun k => parseInvocationArguments k (stL l e)) l := by
  intro e
  by_cases hc : currentTokenIs .RPAREN (stL l.tail e) = true
  · apply Halts.after 0 l.tail e (List.tail_suffix l)
    intro k _
    simp only [parseInvocationArguments, nextToken_stL, hc, if_true]
    rfl
  · obtain ⟨N1, r1, l1, e1, hs1, h1⟩ := hE LOWEST e
    obtain ⟨N2, r2, l2, e2, hs2, h2⟩ := hL l1 hs1 ([] ++ [r1]) e1
    rcases expectPeek_stL .RPAREN l2 e2 with h3 | ⟨m, h3⟩
    · apply Halts.after (N1 + N2) l2.tail e2
        ((((List.tail_suffix l2).trans hs2).trans hs1).trans (List.tail_suffix l))
      intro k hk
      simp only [parseInvocationArguments, nextToken_stL, hc, h1 k (by omega),
        h2 k (by omega), h3]
      rfl
    · apply Halts.after (N1 + N2) l2 (e2 ++ [m]) ((hs2.trans hs1).trans (List.tail_suffix l))
      intro k hk
      simp only [parseInvocationArguments, nextToken_stL, hc, h1 k (by omega),
        h2 k (by omega), h3]
      rfl

theorem parseInvocationExpression_halts (l : List Token)
    (hA : ∀ e, Halts (fun k => parseInvocationArguments k (stL l e)) l) :
    ∀ f e, Halts (fun k => parseInvocationExpression k f (stL l e)) l := by
  intro f e
  obtain ⟨N, r, l1, e1, hs, h⟩ := hA e
  apply Halts.after N l1 e1 hs
  intro k hk
  simp only [parseInvocationExpression, h k hk]
  rfl

theorem parseBlockStatement_halts (l : List Token)
    (hL : ∀ a e, Halts (fun k => parseBlockStatementLoop k a (stL l.tail e)) l.tail) :
    ∀ e, Halts (fun k => parseBlockStatement k (stL l e)) l := by
  intro e
  obtain ⟨N, r, l1, e1, hs, h⟩ := hL [] e
  apply Halts.after N l1 e1 (hs.trans (List.tail_suffix l))
  intro k hk
  simp only [parseBlockStatement, nextToken_stL, h k hk]
  rfl


theorem suffix_tail {a b : List Token} (h : a <:+ b) : a.tail <:+ b :=
  (List.tail_suffix a).trans h

theorem parseIfExpression_halts (l : List Token)
    (hE : ∀ l', l' <:+ l.tail →
      ∀ prec e, Halts (fun k => parseExpression k prec (stL l' e)) l')
    (hB : ∀ l', l' <:+ l.tail → ∀ e, Halts (fun k => parseBlockStatement k (stL l' e)) l') :
    ∀ e, Halts (fun k => parseIfExpression k (stL l e)) l := by
  intro e
  rcases expectPeek_stL .LPAREN l e with h1 | ⟨m1, h1⟩
  swap
  · apply Halts.after 0 l (e ++ [m1]) (List.suffix_refl l)
    intro k _
    simp only [parseIfExpression, h1]
    rfl
  obtain ⟨N2, c, l2, e2, hs2, h2⟩ := hE l.tail.tail (List.tail_suffix _) LOWEST e
  have hs2' : l2 <:+ l.tail := hs2.trans (List.tail_suffix _)
  rcases expectPeek_stL .RPAREN l2 e2 with h3 | ⟨m3, h3⟩
  swap
  · apply Halts.after N2 l2 (e2 ++ [m3]) (hs2'.trans (List.tail_suffix l))
    intro k hk
    simp only [parseIfExpression, h1, nextToken_stL, h2 k hk, h3]
    rfl
  rcases expectPeek_stL .LBRACE l2.tail e2 with h4 | ⟨m4, h4⟩
  swap
  · apply Halts.after N2 l2.tail (e2 ++ [m4]) ((suffix_tail hs2').trans (List.tail_suffix l))
    intro k hk
    simp only [parseIfExpression, h1, nextToken_stL, h2 k hk, h3, h4]
    rfl
  have hs4 : l2.tail.tail <:+ l.tail := suffix_tail (suffix_tail hs2')
  obtain ⟨N5, b, l5, e5, hs5, h5⟩ := hB l2.tail.tail hs4 e2
  have hs5' : l5 <:+ l.tail := hs5.trans hs4
  cases hc : peekTokenIs .ELSE (stL l5 e5) with
  | false =>
    apply Halts.after (N2 + N5) l5 e5 (hs5'.trans (List.tail_suffix l))
    intro k hk
    simp only [parseIfExpression, h1, nextToken_stL, h2 k (by omega), h3, h4,
      h5 k (by omega), hc, Bool.false_eq_true, if_false]
    rfl
  | true =>
    rcases expectPeek_stL .LBRACE l5.tail e5 with h6 | ⟨m6, h6⟩
    swap
    · apply Halts.after (N2 + N5) l5.tail (e5 ++ [m6])
        ((suffix_tail hs5').trans (List.tail_suffix l))
      intro k hk
      simp only [parseIfExpression, h1, nextToken_stL, h2 k (by omega), h3, h4,
        h5 k (by omega), hc, if_true, h6]
      rfl
    have hs6 : l5.tail.tail <:+ l.tail := suffix_tail (suffix_tail hs5')
    obtain ⟨N7, a, l7, e7, hs7, h7⟩ := hB l5.tail.tail hs6 e5
    apply Halts.after (N2 + N5 + N7) l7 e7 ((hs7.trans hs6).trans (List.tail_suffix l))
    intro k hk
    simp only [parseIfExpression, h1, nextToken_stL, h2 k (by omega), h3, h4,
      h5 k (by omega), hc, if_true, h6, h7 k (by omega)]
    rfl

theorem peek_nonempty (k : TokenKind) (hk : k ≠ .EOF) (l : List Token) (e : List String)
    (h : peekTokenIs k (stL l e) = true) : l.tail ≠ [] := by
  intro hl
  match l, hl with
  | [], _ =>
    have : peekTokenIs k (stL [] e) = decide (TokenKind.EOF = k) := rfl
    rw [this] at h
    exact hk (of_decide_eq_true h).symm
  | [t], _ =>
    have : peekTokenIs k (stL [t] e) = decide (TokenKind.EOF = k) := rfl
    rw [this] at h
    exact hk (of_decide_eq_true h).symm

theorem parseFunctionArgsLoop_halts (n : Nat) : ∀ (l : List Token), l.length ≤ n →
    ∀ (ids : List Identifier) (e : List String),
      ∃ (N : Nat) (r : List Identifier) (l' : List Token), l' <:+ l ∧
        ∀ fuel, N ≤ fuel → parseFunctionArgsLoop fuel ids (stL l e) = some (r, stL l' e) := by
  induction n with
  | zero =>
    intro l hl ids e
    have hl0 : l = [] := List.length_eq_zero.mp (Nat.le_zero.mp hl)
    subst hl0
    refine ⟨1, ids, [], List.suffix_refl _, fun fuel hf => ?_⟩
    obtain ⟨k, rfl, _⟩ := fuel_succ hf
    rfl
  | succ n ih =>
    intro l hl ids e
    cases hc : peekTokenIs .COMMA (stL l e) with
    | false =>
      refine ⟨1, ids, l, List.suffix_refl _, fun fuel hf => ?_⟩
      obtain ⟨k, rfl, _⟩ := fuel_succ hf
      rw [parseFunctionArgsLoop]
      simp only [hc, Bool.false_eq_true, if_false]
    | true =>
      have hne := peek_nonempty .COMMA (by decide) l e hc
      have hlen : l.tail.tail.length ≤ n := by
        cases l with
        | nil => exact absurd rfl hne
        | cons t r =>
          cases r with
          | nil => exact absurd rfl hne
          | cons x r' =>
            simp only [List.tail_cons, List.length_cons] at hl ⊢
            omega
      obtain ⟨N, r, l', hs, h⟩ := ih l.tail.tail hlen
        (ids ++ [⟨(stL l.tail.tail e).currentToken, (stL l.tail.tail e).currentToken.Literal⟩]) e
      refine ⟨N + 1, r, l', (hs.trans (List.tail_suffix _)).trans (List.tail_suffix _),
        fun fuel hf => ?_⟩
      obtain ⟨k, rfl, hk⟩ := fuel_succ hf
      rw [parseFunctionArgsLoop]
      simp only [hc, if_true, nextToken_stL, h k hk]

theorem parseFunctionArgs_halts (l : List Token) :
    ∀ e, Halts (fun k => parseFunctionArgs k (stL l e)) l := by
  intro e
  cases hc : peekTokenIs .RPAREN (stL l e) with
  | true =>
    refine ⟨0, some [], l.tail, e, List.tail_suffix l, fun fuel _ => ?_⟩
    simp only [parseFunctionArgs, hc, if_true, nextToken_stL]
  | false =>
    obtain ⟨N, r, l1, hs, h⟩ := parseFunctionArgsLoop_halts l.tail.length l.tail (Nat.le_refl _)
      ([] ++ [⟨(stL l.tail e).currentToken, (stL l.tail e).currentToken.Literal⟩]) e
    rcases expectPeek_stL .RPAREN l1 e with h2 | ⟨m, h2⟩
    · refine ⟨N, some r, l1.tail, e, (suffix_tail hs).trans (List.tail_suffix l),
        fun fuel hf => ?_⟩
      simp only [parseFunctionArgs, hc, Bool.false_eq_true, if_false, nextToken_stL,
        h fuel hf, h2]
    · refine ⟨N, none, l1, e ++ [m], hs.trans (List.tail_suffix l), fun fuel hf => ?_⟩
      simp only [parseFunctionArgs, hc, Bool.false_eq_true, if_false, nextToken_stL,
        h fuel hf, h2]

theorem parseFunctionLiteral_halts (l : List Token)
    (hB : ∀ l', l' <:+ l.tail → ∀ e, Halts (fun k => parseBlockStatement k (stL l' e)) l') :
    ∀ e, Halts (fun k => parseFunctionLiteral k (stL l e)) l := by
  intro e
  rcases expectPeek_stL .LPAREN l e with h1 | ⟨m1, h1⟩
  swap
  · apply Halts.after 0 l (e ++ [m1]) (List.suffix_refl l)
    intro k _
    simp only [parseFunctionLiteral, h1]
    rfl
  obtain ⟨N2, a, l2, e2, hs2, h2⟩ := parseFunctionArgs_halts l.tail e
  rcases expectPeek_stL .LBRACE l2 e2 with h3 | ⟨m3, h3⟩
  swap
  · apply Halts.after N2 l2 (e2 ++ [m3]) (hs2.trans (List.tail_suffix l))
    intro k hk
    simp only [parseFunctionLiteral, h1, h2 k hk, h3]
    rfl
  obtain ⟨N4, b, l4, e4, hs4, h4⟩ := hB l2.tail (suffix_tail hs2) e2
  apply Halts.after (N2 + N4) l4 e4 ((hs4.trans (suffix_tail hs2)).trans (List.tail_suffix l))
  intro k hk
  simp only [parseFunctionLiteral, h1, h2 k (by omega), h3, h4 k (by omega)]
  rfl

theorem parseLetStatement_halts (l : List Token)
    (hE : ∀ l', l' <:+ l.tail →
      ∀ prec e, Halts (fun k => parseExpression k prec (stL l' e)) l') :
    ∀ e, Halts (fun k => parseLetStatement k (stL l e)) l := by
  intro e
  rcases expectPeek_stL .IDENT l e with h1 | ⟨m1, h1⟩
  swap
  · apply Halts.after 0 l (e ++ [m1]) (List.suffix_refl l)
    intro k _
    simp only [parseLetStatement, h1]
    rfl
  rcases expectPeek_stL .ASSIGN l.tail e with h2 | ⟨m2, h2⟩
  swap
  · apply Halts.after 0 l.tail (e ++ [m2]) (List.tail_suffix l)
    intro k _
    simp only [parseLetStatement, h1, h2]
    rfl
  have hs3 : l.tail.tail.tail <:+ l.tail := suffix_tail (List.tail_suffix _)
  obtain ⟨N3, v, l3, e3, hs, h3⟩ := hE l.tail.tail.tail hs3 LOWEST e
  obtain ⟨l4, hs4, h4⟩ := semi_stL l3 e3
  apply Halts.after N3 l4 e3 (((hs4.trans hs).trans hs3).trans (List.tail_suffix l))
  intro k hk
  simp only [parseLetStatement, h1, h2, nextToken_stL, h3 k hk, h4]
  rfl


theorem parseExpressionLoop_halts (l : List Token)
    (hI : ∀ left e, Halts (fun k => parseInfixExpression k left (stL l.tail e)) l.tail)
    (hIE : ∀ f e, Halts (fun k => parseInvocationExpression k f (stL l.tail e)) l.tail)
    (hEL : ∀ l', l' <:+ l.tail →
      ∀ prec left e, Halts (fun k => parseExpressionLoop k prec left (stL l' e)) l') :
    ∀ prec left e, Halts (fun k => parseExpressionLoop k prec left (stL l e)) l := by
  intro prec left e
  cases hc : (!peekTokenIs .SEMI (stL l e) && decide (prec < peekPrecedence (stL l e))) with
  | false =>
    apply Halts.after 0 l e (List.suffix_refl l)
    intro k _
    rw [parseExpressionLoop]
    simp only [hc, Bool.false_eq_true, if_false]
    rfl
  | true =>
    cases hfn : registeredInfix (stL l e).peekToken.TokenKind with
    | none =>
      apply Halts.after 0 l e (List.suffix_refl l)
      intro k _
      rw [parseExpressionLoop]
      simp only [hc, if_true, infixParseFns_stL, hfn]
      rfl
    | some fn =>
      cases fn with
      | parseInfixExpression =>
        obtain ⟨N1, r1, l1, e1, hs1, h1⟩ := hI left e
        obtain ⟨N2, r2, l2, e2, hs2, h2⟩ := hEL l1 hs1 prec r1 e1
        apply Halts.after (N1 + N2) l2 e2 ((hs2.trans hs1).trans (List.tail_suffix l))
        intro k hk
        rw [parseExpressionLoop]
        simp only [hc, if_true, infixParseFns_stL, hfn, nextToken_stL, h1 k (by omega)]
        exact h2 k (by omega)
      | parseInvocationExpression =>
        obtain ⟨N1, r1, l1, e1, hs1, h1⟩ := hIE left e
        obtain ⟨N2, r2, l2, e2, hs2, h2⟩ := hEL l1 hs1 prec r1 e1
        apply Halts.after (N1 + N2) l2 e2 ((hs2.trans hs1).trans (List.tail_suffix l))
        intro k hk
        rw [parseExpressionLoop]
        simp only [hc, if_true, infixParseFns_stL, hfn, nextToken_stL, h1 k (by omega)]
        exact h2 k (by omega)

theorem parseExpression_halts (l : List Token)
    (hP : ∀ e, Halts (fun k => parsePrefixExpression k (stL l e)) l)
    (hG : ∀ e, Halts (fun k => parseExpressionGroup k (stL l e)) l)
    (hIf : ∀ e, Halts (fun k => parseIfExpression k (stL l e)) l)
    (hF : ∀ e, Halts (fun k => parseFunctionLiteral k (stL l e)) l)
    (hEL : ∀ l', l' <:+ l →
      ∀ prec left e, Halts (fun k => parseExpressionLoop k prec left (stL l' e)) l') :
    ∀ prec e, Halts (fun k => parseExpression k prec (stL l e)) l := by
  intro prec e
  have direct : ∀ (r1 : Option Expression) (e1 : List String),
      ∃ N2 r2 l2 e2, l2 <:+ l ∧
        ∀ k, N2 ≤ k → parseExpressionLoop k prec r1 (stL l e1) = some (r2, stL l2 e2) :=
    fun r1 e1 => hEL l (List.suffix_refl l) prec r1 e1
  have via : ∀ (run : Nat → Option (Option Expression × Parser)), Halts run l →
      ∃ N r2 l2 e2, l2 <:+ l ∧ ∀ k, N ≤ k →
        (match run k with
          | none => none
          | some (leftExp, p) => parseExpressionLoop k prec leftExp p) = some (r2, stL l2 e2) := by
    intro run hrun
    obtain ⟨N1, r1, l1, e1, hs1, h1⟩ := hrun
    obtain ⟨N2, r2, l2, e2, hs2, h2⟩ := hEL l1 hs1 prec r1 e1
    refine ⟨N1 + N2, r2, l2, e2, hs2.trans hs1, fun k hk => ?_⟩
    rw [h1 k (by omega)]
    exact h2 k (by omega)
  cases hfn : registeredPrefix (stL l e).currentToken.TokenKind with
  | none =>
    apply Halts.after 0 l _ (List.suffix_refl l)
    intro k _
    rw [parseExpression]
    simp only [prefixParseFns_stL, hfn, noPrefixParseFn_stL]
    rfl
  | some fn =>
    cases fn with
    | parseIdentifier =>
      obtain ⟨N2, r2, l2, e2, hs2, h2⟩ := direct (parseIdentifier (stL l e)).1 e
      apply Halts.after N2 l2 e2 hs2
      intro k hk
      rw [parseExpression]
      simp only [prefixParseFns_stL, hfn]
      exact h2 k hk
    | parseIntegerLiteral =>
      obtain ⟨r1, e1, hi⟩ := parseIntegerLiteral_stL l e
      obtain ⟨N2, r2, l2, e2, hs2, h2⟩ := direct r1 e1
      apply Halts.after N2 l2 e2 hs2
      intro k hk
      rw [parseExpression]
      simp only [prefixParseFns_stL, hfn, hi]
      exact h2 k hk
    | parseBoolean =>
      obtain ⟨N2, r2, l2, e2, hs2, h2⟩ := direct (parseBoolean (stL l e)).1 e
      apply Halts.after N2 l2 e2 hs2
      intro k hk
      rw [parseExpression]
      simp only [prefixParseFns_stL, hfn]
      exact h2 k hk
    | parseNone =>
      obtain ⟨N2, r2, l2, e2, hs2, h2⟩ := direct (parseNone (stL l e)).1 e
      apply Halts.after N2 l2 e2 hs2
      intro k hk
      rw [parseExpression]
      simp only [prefixParseFns_stL, hfn]
      exact h2 k hk
    | parseNull =>
      obtain ⟨N2, r2, l2, e2, hs2, h2⟩ := direct (parseNull (stL l e)).1 e
      apply Halts.after N2 l2 e2 hs2
      intro k hk
      rw [parseExpression]
      simp only [prefixParseFns_stL, hfn]
      exact h2 k hk
    | parsePrefixExpression =>
      obtain ⟨N, r2, l2, e2, hs2, h2⟩ := via _ (hP e)
      apply Halts.after N l2 e2 hs2
      intro k hk
      rw [parseExpression]
      simp only [prefixParseFns_stL, hfn]
      exact h2 k hk
    | parseExpressionGroup =>
      obtain ⟨N, r2, l2, e2, hs2, h2⟩ := via _ (hG e)
      apply Halts.after N l2 e2 hs2
      intro k hk
      rw [parseExpression]
      simp only [prefixParseFns_stL, hfn]
      exact h2 k hk
    | parseIfExpression =>
      obtain ⟨N, r2, l2, e2, hs2, h2⟩ := via _ (hIf e)
      apply Halts.after N l2 e2 hs2
      intro k hk
      rw [parseExpression]
      simp only [prefixParseFns_stL, hfn]
      exact h2 k hk
    | parseFunctionLiteral =>
      obtain ⟨N, r2, l2, e2, hs2, h2⟩ := via _ (hF e)
      apply Halts.after N l2 e2 hs2
      intro k hk
      rw [parseExpression]
      simp only [prefixParseFns_stL, hfn]
      exact h2 k hk

theorem parseExpressionStatement_halts (l : List Token)
    (hE : ∀ prec e, Halts (fun k => parseExpression k prec (stL l e)) l) :
    ∀ e, Halts (fun k => parseExpressionStatement k (stL l e)) l := by
  intro e
  obtain ⟨N, v, l1, e1, hs, h⟩ := hE LOWEST e
  obtain ⟨l2, hs2, h2⟩ := semi_stL l1 e1
  apply Halts.after N l2 e1 (hs2.trans hs)
  intro k hk
  simp only [parseExpressionStatement, h k hk, nextToken_stL, h2]
  rfl

theorem parseStatement_at_let (k : Nat) (p : Parser)
    (h : p.currentToken.TokenKind = .LET) :
    parseStatement (k + 1) p =
      match parseLetStatement k p with
      | none => none
      | some (ptr, p) => some (some (.LetStatement ptr), p) := by
  rw [parseStatement]
  split
  · rename_i heq; rw [h] at heq; cases heq
  · rfl
  · rename_i heq; rw [h] at heq; cases heq
  · rename_i h1 h2 h3; exact absurd h h2

theorem parseStatement_at_other (k : Nat) (p : Parser)
    (hT : p.currentToken.TokenKind ≠ .TYPE) (hL : p.currentToken.TokenKind ≠ .LET)
    (hR : p.currentToken.TokenKind ≠ .RETURN) :
    parseStatement (k + 1) p =
      match parseExpressionStatement k p with
      | none => none
      | some (ptr, p) => some (some (.ExpressionStatement ptr), p) := by
  rw [parseStatement]
  split
  · rename_i heq; exact absurd heq hT
  · rename_i heq; exact absurd heq hL
  · rename_i heq; exact absurd heq hR
  · rfl

theorem parseStatement_halts (l : List Token)
    (hT : ∀ e, (stL l e).currentToken.TokenKind ≠ .TYPE)
    (hR : ∀ e, (stL l e).currentToken.TokenKind ≠ .RETURN)
    (hLet : ∀ e, Halts (fun k => parseLetStatement k (stL l e)) l)
    (hES : ∀ e, Halts (fun k => parseExpressionStatement k (stL l e)) l) :
    ∀ e, Halts (fun k => parseStatement k (stL l e)) l := by
  intro e
  by_cases hlet : (stL l e).currentToken.TokenKind = .LET
  · obtain ⟨N, r, l1, e1, hs, h⟩ := hLet e
    apply Halts.after N l1 e1 hs
    intro k hk
    rw [parseStatement_at_let k _ hlet]
    simp only [h k hk]
    rfl
  · obtain ⟨N, r, l1, e1, hs, h⟩ := hES e
    apply Halts.after N l1 e1 hs
    intro k hk
    rw [parseStatement_at_other k _ (hT e) hlet (hR e)]
    simp only [h k hk]
    rfl

theorem tail_suffix_tail {a b : List Token} (h : a <:+ b) : a.tail <:+ b.tail := by
  cases b with
  | nil =>
    have : a = [] := List.suffix_nil.mp h
    subst this
    exact List.suffix_refl _
  | cons t r => exact tail_suffix_of_suffix_cons h

theorem parseBlockStatementLoop_halts (l : List Token)
    (hS : ∀ e, Halts (fun k => parseStatement k (stL l e)) l)
    (hBL : ∀ l', l' <:+ l.tail →
      ∀ a e, Halts (fun k => parseBlockStatementLoop k a (stL l' e)) l') :
    ∀ a e, Halts (fun k => parseBlockStatementLoop k a (stL l e)) l := by
  intro a e
  cases hc : (!currentTokenIs .RBRACE (stL l e) && !currentTokenIs .EOF (stL l e)) with
  | false =>
    apply Halts.after 0 l e (List.suffix_refl l)
    intro k _
    rw [parseBlockStatementLoop]
    simp only [hc, Bool.false_eq_true, if_false]
    rfl
  | true =>
    obtain ⟨N1, s, l1, e1, hs1, h1⟩ := hS e
    cases s with
    | none =>
      obtain ⟨N2, r2, l2, e2, hs2, h2⟩ := hBL l1.tail (tail_suffix_tail hs1) a e1
      apply Halts.after (N1 + N2) l2 e2 ((hs2.trans (tail_suffix_tail hs1)).trans
        (List.tail_suffix l))
      intro k hk
      rw [parseBlockStatementLoop]
      simp only [hc, if_true, h1 k (by omega), nextToken_stL]
      exact h2 k (by omega)
    | some s =>
      obtain ⟨N2, r2, l2, e2, hs2, h2⟩ := hBL l1.tail (tail_suffix_tail hs1) (a ++ [s]) e1
      apply Halts.after (N1 + N2) l2 e2 ((hs2.trans (tail_suffix_tail hs1)).trans
        (List.tail_suffix l))
      intro k hk
      rw [parseBlockStatementLoop]
      simp only [hc, if_true, h1 k (by omega), nextToken_stL]
      exact h2 k (by omega)

theorem ParseProgramLoop_halts (l : List Token)
    (hS : ∀ e, Halts (fun k => parseStatement k (stL l e)) l)
    (hPL : ∀ l', l' <:+ l.tail →
      ∀ a e, Halts (fun k => ParseProgramLoop k a (stL l' e)) l') :
    ∀ a e, Halts (fun k => ParseProgramLoop k a (stL l e)) l := by
  intro a e
  by_cases hc : (stL l e).currentToken.TokenKind ≠ .EOF
  · obtain ⟨N1, s, l1, e1, hs1, h1⟩ := hS e
    cases s with
    | none =>
      obtain ⟨N2, r2, l2, e2, hs2, h2⟩ := hPL l1.tail (tail_suffix_tail hs1) a e1
      apply Halts.after (N1 + N2) l2 e2 ((hs2.trans (tail_suffix_tail hs1)).trans
        (List.tail_suffix l))
      intro k hk
      rw [ParseProgramLoop, if_pos hc]
      simp only [h1 k (by omega), nextToken_stL]
      exact h2 k (by omega)
    | some s =>
      obtain ⟨N2, r2, l2, e2, hs2, h2⟩ := hPL l1.tail (tail_suffix_tail hs1) (a ++ [s]) e1
      apply Halts.after (N1 + N2) l2 e2 ((hs2.trans (tail_suffix_tail hs1)).trans
        (List.tail_suffix l))
      intro k hk
      rw [ParseProgramLoop, if_pos hc]
      simp only [h1 k (by omega), nextToken_stL]
      exact h2 k (by omega)
  · apply Halts.after 0 l e (List.suffix_refl l)
    intro k _
    rw [ParseProgramLoop, if_neg hc]


theorem haltsAt_assemble (l : List Token)
    (hT : ∀ e, (stL l e).currentToken.TokenKind ≠ .TYPE)
    (hR : ∀ e, (stL l e).currentToken.TokenKind ≠ .RETURN)
    (hE : ∀ l', l' <:+ l.tail →
      ∀ prec e, Halts (fun k => parseExpression k prec (stL l' e)) l')
    (hEL : ∀ l', l' <:+ l.tail →
      ∀ prec left e, Halts (fun k => parseExpressionLoop k prec left (stL l' e)) l')
    (hAL : ∀ l', l' <:+ l.tail →
      ∀ a e, Halts (fun k => parseInvocationArgumentsLoop k a (stL l' e)) l')
    (hBL : ∀ l', l' <:+ l.tail →
      ∀ a e, Halts (fun k => parseBlockStatementLoop k a (stL l' e)) l')
    (hPL : ∀ l', l' <:+ l.tail →
      ∀ a e, Halts (fun k => ParseProgramLoop k a (stL l' e)) l')
    (hI : ∀ left e, Halts (fun k => parseInfixExpression k left (stL l.tail e)) l.tail)
    (hIE : ∀ f e, Halts (fun k => parseInvocationExpression k f (stL l.tail e)) l.tail) :
    HaltsAt l := by
  have hE0 := hE l.tail (List.suffix_refl _)
  have hB : ∀ l', l' <:+ l.tail → ∀ e, Halts (fun k => parseBlockStatement k (stL l' e)) l' :=
    fun l' hs => parseBlockStatement_halts l' (hBL l'.tail (suffix_tail hs))
  have h1 := parsePrefixExpression_halts l hE0
  have h2 := parseInfixExpression_halts l hE0
  have h3 := parseExpressionGroup_halts l hE0
  have h4 := parseInvocationArgumentsLoop_halts l hE hAL
  have h5 := parseInvocationArguments_halts l hE0 hAL
  have h6 := parseBlockStatement_halts l (hBL l.tail (List.suffix_refl _))
  have h7 := parseIfExpression_halts l hE hB
  have h8 := parseFunctionLiteral_halts l hB
  have h9 := parseLetStatement_halts l hE
  have h10 := parseExpressionLoop_halts l hI hIE hEL
  have hEL' : ∀ l', l' <:+ l →
      ∀ prec left e, Halts (fun k => parseExpressionLoop k prec left (stL l' e)) l' := by
    intro l' hs
    cases l with
    | nil =>
      have : l' = [] := List.suffix_nil.mp hs
      subst this
      exact h10
    | cons t r =>
      rcases List.suffix_cons_iff.mp hs with h | h
      · subst h; exact h10
      · exact hEL l' h
  have h11 := parseInvocationExpression_halts l h5
  have h12 := parseExpression_halts l h1 h3 h7 h8 hEL'
  have h13 := parseExpressionStatement_halts l h12
  have h14 := parseStatement_halts l hT hR h9 h13
  have h15 := parseBlockStatementLoop_halts l h14 hBL
  have h16 := ParseProgramLoop_halts l h14 hPL
  exact
    { expression := h12
      expressionLoop := h10
      prefixExpression := h1
      infixExpression := h2
      expressionGroup := h3
      ifExpression := h7
      functionLiteral := h8
      invocationExpression := h11
      invocationArguments := h5
      invocationArgumentsLoop := h4
      blockStatement := h6
      blockStatementLoop := h15
      statement := h14
      letStatement := h9
      expressionStatement := h13
      programLoop := h16 }

theorem parseExpression_nil (prec : Precedence) (e : List String) :
    Halts (fun k => parseExpression k prec (stL [] e)) [] :=
  Halts.after 0 [] (e ++ ["no prefix parse function defined for TokenKind EOF"])
    (List.suffix_refl _) (fun _ _ => rfl)

theorem parseExpressionLoop_nil (prec : Precedence) (left : Option Expression)
    (e : List String) : Halts (fun k => parseExpressionLoop k prec left (stL [] e)) [] := by
  apply Halts.after 0 [] e (List.suffix_refl _)
  intro k _
  rw [parseExpressionLoop]
  split
  · rfl
  · rfl

theorem parseInvocationArgumentsLoop_nil (a : List (Option Expression)) (e : List String) :
    Halts (fun k => parseInvocationArgumentsLoop k a (stL [] e)) [] :=
  Halts.after 0 [] e (List.suffix_refl _) (fun _ _ => rfl)

theorem parseBlockStatementLoop_nil (a : List Statement) (e : List String) :
    Halts (fun k => parseBlockStatementLoop k a (stL [] e)) [] :=
  Halts.after 0 [] e (List.suffix_refl _) (fun _ _ => rfl)

theorem ParseProgramLoop_nil (a : List Statement) (e : List String) :
    Halts (fun k => ParseProgramLoop k a (stL [] e)) [] :=
  Halts.after 0 [] e (List.suffix_refl _) (fun _ _ => rfl)

theorem haltsAt_nil : HaltsAt [] := by
  have hn : ∀ l', l' <:+ ([] : List Token).tail → l' = [] := fun l' h => List.suffix_nil.mp h
  refine haltsAt_assemble [] (fun e h => by cases h) (fun e h => by cases h) ?_ ?_ ?_ ?_ ?_ ?_ ?_
  · intro l' hs; rw [hn l' hs]; exact parseExpression_nil
  · intro l' hs; rw [hn l' hs]; exact parseExpressionLoop_nil
  · intro l' hs; rw [hn l' hs]; exact parseInvocationArgumentsLoop_nil
  · intro l' hs; rw [hn l' hs]; exact parseBlockStatementLoop_nil
  · intro l' hs; rw [hn l' hs]; exact ParseProgramLoop_nil
  · exact parseInfixExpression_halts [] parseExpression_nil
  · exact parseInvocationExpression_halts []
      (parseInvocationArguments_halts [] parseExpression_nil
        (fun l' hs => by rw [hn l' hs]; exact parseInvocationArgumentsLoop_nil))

theorem noReturnNoType_tail (t : Token) (r : List Token)
    (h : noReturnNoType (t :: r) = true) :
    t.TokenKind ≠ .TYPE ∧ t.TokenKind ≠ .RETURN ∧ noReturnNoType r = true := by
  simp only [noReturnNoType, List.all_cons, Bool.and_eq_true, bne_iff_ne, ne_eq] at h ⊢
  exact ⟨h.1.2, h.1.1, h.2⟩

/-- On a token sequence without `return` and `type` every parsing method
returns, on the sequence and on each of its final segments. -/
theorem haltsAt (l : List Token) :
    noReturnNoType l = true → ∀ l', l' <:+ l → HaltsAt l' := by
  induction l with
  | nil =>
    intro _ l' hs
    rw [List.suffix_nil.mp hs]
    exact haltsAt_nil
  | cons t r ih =>
    intro h l' hs
    obtain ⟨hT, hR, hr⟩ := noReturnNoType_tail t r h
    have ih' := ih hr
    rcases List.suffix_cons_iff.mp hs with h1 | h1
    · subst h1
      exact haltsAt_assemble (t :: r) (fun _ => hT) (fun _ => hR)
        (fun l' hs => (ih' l' hs).expression)
        (fun l' hs => (ih' l' hs).expressionLoop)
        (fun l' hs => (ih' l' hs).invocationArgumentsLoop)
        (fun l' hs => (ih' l' hs).blockStatementLoop)
        (fun l' hs => (ih' l' hs).programLoop)
        (ih' r (List.suffix_refl r)).infixExpression
        (ih' r (List.suffix_refl r)).invocationExpression
    · exact ih' l' h1

/-- On a token sequence without `return` and `type`, `New` then `ParseProgram`
return: from some fuel on, one and the same program and error log. -/
theorem parse_halts (toks : List Token) (h : noReturnNoType toks = true) :
    ∃ N stmts errs, ∀ fuel, N ≤ fuel → parse fuel toks = some (stmts, errs) := by
  obtain ⟨N, r, l', e', _, hr⟩ :=
    (haltsAt toks h toks (List.suffix_refl toks)).programLoop [] []
  refine ⟨N, r, e', fun fuel hf => ?_⟩
  have := hr fuel hf
  simp only [parse, ParseProgram, New_eq]
  simp only [] at this
  rw [this]
  cases l' <;> rfl

end parser


/-!
# The claims
-/

namespace parser

open token ast

/-- C1 (precedence nesting): the table gives `== != ?` the precedence
`EQUALITY`, `< >` `COMPARE`, `+ -` `SUMMATION` and `* /` `PRODUCT`; and for
atomic operands `a b c` with leaves `A B C` and binary operators `o1 o2` where
the table precedence of `o1` is below that of `o2`, `New` then `ParseProgram` on
`[a, o1, b, o2, c, EOF]` returns, for every fuel from 11 on, the single
statement `ExpressionStatement` of
`InfixExpression(o1, A, InfixExpression(o2, B, C))` and an empty error log. -/
theorem C1_precedence_nesting :
    (precedences .EQL = some EQUALITY ∧ precedences .NEQL = some EQUALITY ∧
      precedences .INTERO = some EQUALITY ∧ precedences .LCHEV = some COMPARE ∧
      precedences .RCHEV = some COMPARE ∧ precedences .SUM = some SUMMATION ∧
      precedences .NEG = some SUMMATION ∧ precedences .MUL = some PRODUCT ∧
      precedences .QUO = some PRODUCT) ∧
    ∀ (a o1 b o2 c : Token) (A B C : Expression),
      operand a = some A → operand b = some B → operand c = some C →
      isBinop o1.TokenKind = true → isBinop o2.TokenKind = true →
      precOf o1.TokenKind < precOf o2.TokenKind → ∀ (fuel : Nat), 11 ≤ fuel →
      parse fuel [a, o1, b, o2, c, ⟨.EOF, ""⟩] =
        some ([.ExpressionStatement (some (.mk a (some (.InfixExpression o1 o1.Literal (some A)
          (some (.InfixExpression o2 o2.Literal (some B) (some C)))))))], []) := by
  refine ⟨⟨rfl, rfl, rfl, rfl, rfl, rfl, rfl, rfl, rfl⟩, ?_⟩
  intro a o1 b o2 c A B C ha hb hc h1 h2 hlt fuel hf
  obtain ⟨h1', h2', h3', h4'⟩ := operand_not_statement_start a A ha
  refine parse_mono hf _ _ ?_
  exact single_statement 7 a c ⟨.EOF, ""⟩ _ _ [] h1' h2' h3' h4' rfl
    (expression_right 0 a o1 b o2 c ⟨.EOF, ""⟩ A B C [] [] ha hb hc h1 h2 hlt rfl)

/-- Witness of C1: `1 + 2 * 3`. -/
theorem C1_witness :
    parse 11 [⟨.INT, "1"⟩, ⟨.SUM, "+"⟩, ⟨.INT, "2"⟩, ⟨.MUL, "*"⟩, ⟨.INT, "3"⟩, ⟨.EOF, ""⟩] =
      some ([.ExpressionStatement (some (.mk ⟨.INT, "1"⟩ (some (.InfixExpression ⟨.SUM, "+"⟩ "+"
        (some (.IntegerLiteral ⟨.INT, "1"⟩ 1))
        (some (.InfixExpression ⟨.MUL, "*"⟩ "*" (some (.IntegerLiteral ⟨.INT, "2"⟩ 2))
          (some (.IntegerLiteral ⟨.INT, "3"⟩ 3))))))))], []) :=
  C1_precedence_nesting.2 ⟨.INT, "1"⟩ ⟨.SUM, "+"⟩ ⟨.INT, "2"⟩ ⟨.MUL, "*"⟩ ⟨.INT, "3"⟩ _ _ _
    rfl rfl rfl rfl rfl (by decide) 11 (Nat.le_refl _)

/-- C2 (operators of non-increasing precedence): for atomic operands `a b c`
with leaves `A B C` and binary operators `o1 o2` where the table precedence of
`o2` does not exceed that of `o1`, `New` then `ParseProgram` on
`[a, o1, b, o2, c, EOF]` returns, for every fuel from 9 on, the single
statement `ExpressionStatement` of
`InfixExpression(o2, InfixExpression(o1, A, B), C)` and an empty error log. -/
theorem C2_chain_left (a o1 b o2 c : Token) (A B C : Expression)
    (ha : operand a = some A) (hb : operand b = some B) (hc : operand c = some C)
    (h1 : isBinop o1.TokenKind = true) (h2 : isBinop o2.TokenKind = true)
    (hge : precOf o2.TokenKind ≤ precOf o1.TokenKind) (fuel : Nat) (hf : 9 ≤ fuel) :
    parse fuel [a, o1, b, o2, c, ⟨.EOF, ""⟩] =
      some ([.ExpressionStatement (some (.mk a (some (.InfixExpression o2 o2.Literal
        (some (.InfixExpression o1 o1.Literal (some A) (some B))) (some C)))))], []) := by
  obtain ⟨h1', h2', h3', h4'⟩ := operand_not_statement_start a A ha
  refine parse_mono hf _ _ ?_
  exact single_statement 5 a c ⟨.EOF, ""⟩ _ _ [] h1' h2' h3' h4' rfl
    (expression_left 0 a o1 b o2 c ⟨.EOF, ""⟩ A B C [] [] ha hb hc h1 h2 hge rfl)

/-- Witness of C2: `1 - 2 - 3`. -/
theorem C2_witness :
    parse 9 [⟨.INT, "1"⟩, ⟨.NEG, "-"⟩, ⟨.INT, "2"⟩, ⟨.NEG, "-"⟩, ⟨.INT, "3"⟩, ⟨.EOF, ""⟩] =
      some ([.ExpressionStatement (some (.mk ⟨.INT, "1"⟩ (some (.InfixExpression ⟨.NEG, "-"⟩ "-"
        (some (.InfixExpression ⟨.NEG, "-"⟩ "-" (some (.IntegerLiteral ⟨.INT, "1"⟩ 1))
          (some (.IntegerLiteral ⟨.INT, "2"⟩ 2))))
        (some (.IntegerLiteral ⟨.INT, "3"⟩ 3))))))], []) :=
  C2_chain_left ⟨.INT, "1"⟩ ⟨.NEG, "-"⟩ ⟨.INT, "2"⟩ ⟨.NEG, "-"⟩ ⟨.INT, "3"⟩ _ _ _
    rfl rfl rfl rfl rfl (by decide) 9 (Nat.le_refl _)

/-- C3 (grouping overrides precedence): for atomic operands `a b c` with leaves
`A B C`, any binary operators `o1 o2`, an opening and a closing parenthesis,
`New` then `ParseProgram` on `[(, a, o1, b, ), o2, c, EOF]` returns, for every
fuel from 10 on, the single statement `ExpressionStatement` of
`InfixExpression(o2, InfixExpression(o1, A, B), C)`, with no node for the
parentheses, and an empty error log. -/
theorem C3_grouping (lp a o1 b rp o2 c : Token) (A B C : Expression)
    (ha : operand a = some A) (hb : operand b = some B) (hc : operand c = some C)
    (h1 : isBinop o1.TokenKind = true) (h2 : isBinop o2.TokenKind = true)
    (hlp : lp.TokenKind = .LPAREN) (hrp : rp.TokenKind = .RPAREN)
    (fuel : Nat) (hf : 10 ≤ fuel) :
    parse fuel [lp, a, o1, b, rp, o2, c, ⟨.EOF, ""⟩] =
      some ([.ExpressionStatement (some (.mk lp (some (.InfixExpression o2 o2.Literal
        (some (.InfixExpression o1 o1.Literal (some A) (some B))) (some C)))))], []) := by
  refine parse_mono hf _ _ ?_
  exact single_statement 6 lp c ⟨.EOF, ""⟩ _ _ [] (by simp [hlp]) (by simp [hlp])
    (by simp [hlp]) (by simp [hlp]) rfl
    (expression_group 0 lp a o1 b rp o2 c ⟨.EOF, ""⟩ A B C [] [] ha hb hc h1 h2 hlp hrp rfl)

/-- Witness of C3: `(1 + 2) * 3`. -/
theorem C3_witness :
    parse 10 [⟨.LPAREN, "("⟩, ⟨.INT, "1"⟩, ⟨.SUM, "+"⟩, ⟨.INT, "2"⟩, ⟨.RPAREN, ")"⟩,
        ⟨.MUL, "*"⟩, ⟨.INT, "3"⟩, ⟨.EOF, ""⟩] =
      some ([.ExpressionStatement (some (.mk ⟨.LPAREN, "("⟩ (some (.InfixExpression
        ⟨.MUL, "*"⟩ "*"
        (some (.InfixExpression ⟨.SUM, "+"⟩ "+" (some (.IntegerLiteral ⟨.INT, "1"⟩ 1))
          (some (.IntegerLiteral ⟨.INT, "2"⟩ 2))))
        (some (.IntegerLiteral ⟨.INT, "3"⟩ 3))))))], []) :=
  C3_grouping ⟨.LPAREN, "("⟩ ⟨.INT, "1"⟩ ⟨.SUM, "+"⟩ ⟨.INT, "2"⟩ ⟨.RPAREN, ")"⟩ ⟨.MUL, "*"⟩
    ⟨.INT, "3"⟩ _ _ _ rfl rfl rfl rfl rfl rfl rfl 10 (Nat.le_refl _)

/-- C4, as amended (the same operator twice nests to the left): for every binary
operator `o` and atomic operands `a b c` with leaves `A B C`, `New` then
`ParseProgram` on `[a, o, b, o, c, EOF]` returns, for every fuel from 9 on, the
single statement `ExpressionStatement` of the left-leaning tree
`InfixExpression(o, InfixExpression(o, A, B), C)` and an empty error log. -/
theorem C4_same_operator_left (a o b c : Token) (A B C : Expression)
    (ha : operand a = some A) (hb : operand b = some B) (hc : operand c = some C)
    (ho : isBinop o.TokenKind = true) (fuel : Nat) (hf : 9 ≤ fuel) :
    parse fuel [a, o, b, o, c, ⟨.EOF, ""⟩] =
      some ([.ExpressionStatement (some (.mk a (some (.InfixExpression o o.Literal
        (some (.InfixExpression o o.Literal (some A) (some B))) (some C)))))], []) := by
  obtain ⟨h1', h2', h3', h4'⟩ := operand_not_statement_start a A ha
  refine parse_mono hf _ _ ?_
  exact single_statement 5 a c ⟨.EOF, ""⟩ _ _ [] h1' h2' h3' h4' rfl
    (expression_left 0 a o b o c ⟨.EOF, ""⟩ A B C [] [] ha hb hc ho ho (Nat.le_refl _) rfl)

/-- Witness of C4 as amended: `1 + 2 + 3`. -/
theorem C4_witness :
    parse 9 [⟨.INT, "1"⟩, ⟨.SUM, "+"⟩, ⟨.INT, "2"⟩, ⟨.SUM, "+"⟩, ⟨.INT, "3"⟩, ⟨.EOF, ""⟩] =
      some ([.ExpressionStatement (some (.mk ⟨.INT, "1"⟩ (some (.InfixExpression ⟨.SUM, "+"⟩ "+"
        (some (.InfixExpression ⟨.SUM, "+"⟩ "+" (some (.IntegerLiteral ⟨.INT, "1"⟩ 1))
          (some (.IntegerLiteral ⟨.INT, "2"⟩ 2))))
        (some (.IntegerLiteral ⟨.INT, "3"⟩ 3))))))], []) :=
  C4_same_operator_left ⟨.INT, "1"⟩ ⟨.SUM, "+"⟩ ⟨.INT, "2"⟩ ⟨.INT, "3"⟩ _ _ _
    rfl rfl rfl rfl 9 (Nat.le_refl _)

/-- Counterexample to C4 as stated: on `1 - 2 - 3` no amount of fuel makes
`ParseProgram` return the right-leaning tree
`InfixExpression(-, 1, InfixExpression(-, 2, 3))`. -/
theorem C4_counterexample :
    ¬ ∃ fuel, parse fuel
        [⟨.INT, "1"⟩, ⟨.NEG, "-"⟩, ⟨.INT, "2"⟩, ⟨.NEG, "-"⟩, ⟨.INT, "3"⟩, ⟨.EOF, ""⟩] =
      some ([.ExpressionStatement (some (.mk ⟨.INT, "1"⟩ (some (.InfixExpression ⟨.NEG, "-"⟩ "-"
        (some (.IntegerLiteral ⟨.INT, "1"⟩ 1))
        (some (.InfixExpression ⟨.NEG, "-"⟩ "-" (some (.IntegerLiteral ⟨.INT, "2"⟩ 2))
          (some (.IntegerLiteral ⟨.INT, "3"⟩ 3))))))))], []) := by
  rintro ⟨fuel, h⟩
  have h1 := parse_mono (Nat.le_max_left fuel 9) _ _ h
  have h2 := parse_mono (Nat.le_max_right fuel 9) _ _
    (single_statement 5 ⟨.INT, "1"⟩ ⟨.INT, "3"⟩ ⟨.EOF, ""⟩ _ _ [] (by decide) (by decide)
      (by decide) (by decide) rfl
      (expression_left 0 ⟨.INT, "1"⟩ ⟨.NEG, "-"⟩ ⟨.INT, "2"⟩ ⟨.NEG, "-"⟩ ⟨.INT, "3"⟩
        ⟨.EOF, ""⟩ _ _ _ [] [] rfl rfl rfl rfl rfl (Nat.le_refl _) rfl))
  rw [h2] at h1
  simp at h1

/-- C5 (valid single expression): for every expression `e` of the grammar
`E ::= atom | ('!' | '-') E | E binop E | '(' E ')' | E '(' [E (',' E)*] ')'`
whose tokens have the kinds their places require (an atom being an identifier,
an integer literal whose text denotes a 64-bit integer, `true`, `false`, `none`
or `null`), `New` then `ParseProgram` on the tokens of `e` followed by `EOF`
returns, from some fuel on, exactly one statement, an `ExpressionStatement` on
the first token of `e` with a present expression, and an empty error log. -/
theorem C5_valid_single_expression (e : GExpr) (he : e.wf = true) :
    ∃ (tok : Token) (T : Expression) (N : Nat), e.tokens.head? = some tok ∧
      ∀ fuel, N ≤ fuel →
        parse fuel (e.tokens ++ [⟨.EOF, ""⟩]) =
          some ([.ExpressionStatement (some (.mk tok (some T)))], []) := by
  obtain ⟨t, w, T, tl, hw, ht, h⟩ := expression_parses e he
  obtain ⟨f, hf⟩ := h ⟨.EOF, ""⟩ [] [] rfl
  obtain ⟨h1, h2, h3, h4⟩ := isStart_not_statement _ ht
  refine ⟨t, T, f + 4, by rw [hw]; rfl, fun fuel hfuel => ?_⟩
  rw [hw]
  exact parse_mono hfuel _ _ (single_statement f t tl ⟨.EOF, ""⟩ _ _ [] h1 h2 h3 h4 rfl hf)

/-- Witness of C5: `-f(1, (2 + x) * 3) == !true`. -/
theorem C5_witness :
    ∃ (tok : Token) (T : Expression) (N : Nat),
      some (⟨.NEG, "-"⟩ : Token) = some tok ∧
      ∀ fuel, N ≤ fuel →
        parse fuel [⟨.NEG, "-"⟩, ⟨.IDENT, "f"⟩, ⟨.LPAREN, "("⟩, ⟨.INT, "1"⟩, ⟨.COMMA, ","⟩,
            ⟨.LPAREN, "("⟩, ⟨.INT, "2"⟩, ⟨.SUM, "+"⟩, ⟨.IDENT, "x"⟩, ⟨.RPAREN, ")"⟩,
            ⟨.MUL, "*"⟩, ⟨.INT, "3"⟩, ⟨.RPAREN, ")"⟩, ⟨.EQL, "=="⟩, ⟨.BANG, "!"⟩,
            ⟨.TRUE, "true"⟩, ⟨.EOF, ""⟩] =
          some ([.ExpressionStatement (some (.mk tok (some T)))], []) :=
  C5_valid_single_expression
    (.binary
      (.unary ⟨.NEG, "-"⟩
        (.call (.atom ⟨.IDENT, "f"⟩) ⟨.LPAREN, "("⟩
          (.cons (.atom ⟨.INT, "1"⟩) ⟨.COMMA, ","⟩
            (.one (.binary
              (.group ⟨.LPAREN, "("⟩
                (.binary (.atom ⟨.INT, "2"⟩) ⟨.SUM, "+"⟩ (.atom ⟨.IDENT, "x"⟩))
                ⟨.RPAREN, ")"⟩)
              ⟨.MUL, "*"⟩ (.atom ⟨.INT, "3"⟩))))
          ⟨.RPAREN, ")"⟩))
      ⟨.EQL, "=="⟩
      (.unary ⟨.BANG, "!"⟩ (.atom ⟨.TRUE, "true"⟩)))
    rfl

/-- C6 (failed statements are omitted), failing input: on `let x 5;` (no `=`)
`New` then `ParseProgram` returns, for every fuel from 6 on, a program of two
entries, the first being the `nil` pointer of the failed let statement inside
a non-nil interface value, and the one diagnostic of the missing `=`. -/
theorem C6_failed_let_is_appended : ∀ n,
    parse (n + 6) [⟨.LET, "let"⟩, ⟨.IDENT, "x"⟩, ⟨.INT, "5"⟩, ⟨.SEMI, ";"⟩, ⟨.EOF, ""⟩] =
      some ([.LetStatement none,
          .ExpressionStatement (some (.mk ⟨.INT, "5"⟩ (some (.IntegerLiteral ⟨.INT, "5"⟩ 5))))],
        ["expected next token to be '=', received INT"]) := by
  intro n
  exact parse_mono (Nat.le_add_left 6 n) _ _ rfl

/-- C7 (the parser always finishes), failing input: on `return 1` (no `;`) `New`
then `ParseProgram` does not return, whatever the fuel. -/
theorem C7_return_without_semicolon_diverges :
    ∀ fuel, parse fuel [⟨.RETURN, "return"⟩, ⟨.INT, "1"⟩, ⟨.EOF, ""⟩] = none := by
  intro fuel
  cases fuel with
  | zero => rfl
  | succ k =>
    simp only [parse, ParseProgram, New_eq, stL]
    rw [ParseProgramLoop_step _ _ _ _ _ (by decide)]
    cases k with
    | zero => rfl
    | succ k =>
      rw [parseStatement_return _ _ _ _ rfl]
      cases k with
      | zero => rfl
      | succ k =>
        rw [parseReturnStatement_st, stL]
        cases hE : parseExpression k LOWEST (st ⟨.INT, "1"⟩ [⟨.EOF, ""⟩] []) with
        | none => rfl
        | some v =>
          have hv := parseExpression_det _ _ _ _ hE
            (parseExpression_operand_stop 0 LOWEST ⟨.INT, "1"⟩ ⟨.EOF, ""⟩ _ [] [] rfl
              (Or.inr (Nat.le_refl _)))
          subst hv
          simp only []
          rw [parseReturnStatementLoop_diverges k _ _ _ (by decide) (by decide)]

/-- C8 (let statement): for tokens `let`, an identifier `name`, `=`, `;` and every
expression `e` of the grammar of C5, there is one tree `T`, the one that
`ParseProgram` returns for `e` alone as an expression statement, such that from
some fuel on `New` then `ParseProgram` on `[let, name, =] ++ e ++ [;, EOF]`
returns exactly one statement, the `LetStatement` with name
`Identifier(name.Literal)` and value `T`, and an empty error log; and the same
on `[let, name, =] ++ e ++ [EOF]`, where the `;` is left out. -/
theorem C8_let_statement (lt name eq semi : Token) (e : GExpr)
    (hlt : lt.TokenKind = .LET) (hn : name.TokenKind = .IDENT) (heq : eq.TokenKind = .ASSIGN)
    (hsemi : semi.TokenKind = .SEMI) (he : e.wf = true) :
    ∃ (tok : Token) (T : Expression) (N : Nat),
      (∀ fuel, N ≤ fuel →
        parse fuel (e.tokens ++ [⟨.EOF, ""⟩]) =
          some ([.ExpressionStatement (some (.mk tok (some T)))], [])) ∧
      (∀ fuel, N ≤ fuel →
        parse fuel (lt :: name :: eq :: (e.tokens ++ [semi, ⟨.EOF, ""⟩])) =
          some ([.LetStatement (some (.mk lt (some ⟨name, name.Literal⟩) (some T)))], [])) ∧
      (∀ fuel, N ≤ fuel →
        parse fuel (lt :: name :: eq :: (e.tokens ++ [⟨.EOF, ""⟩])) =
          some ([.LetStatement (some (.mk lt (some ⟨name, name.Literal⟩) (some T)))], [])) := by
  obtain ⟨t, w, T, tl, hw, ht, h⟩ := expression_parses e he
  obtain ⟨f1, hf1⟩ := h ⟨.EOF, ""⟩ [] [] rfl
  obtain ⟨f2, hf2⟩ := h semi [⟨.EOF, ""⟩] [] (by rw [hsemi]; rfl)
  obtain ⟨h1, h2, h3, h4⟩ := isStart_not_statement _ ht
  refine ⟨t, T, f1 + f2 + 4, fun fuel hfuel => ?_, fun fuel hfuel => ?_, fun fuel hfuel => ?_⟩
  · rw [hw]
    exact parse_mono (by omega) _ _
      (single_statement f1 t tl ⟨.EOF, ""⟩ _ _ [] h1 h2 h3 h4 rfl hf1)
  · rw [hw]
    exact parse_mono (by omega) _ _
      (let_program f2 lt name eq t tl _ _ _ [] hlt hn heq
        (Or.inr ⟨semi, ⟨.EOF, ""⟩, hsemi, rfl, rfl⟩) hf2)
  · rw [hw]
    exact parse_mono (by omega) _ _
      (let_program f1 lt name eq t tl _ _ _ [] hlt hn heq
        (Or.inl ⟨⟨.EOF, ""⟩, rfl, rfl⟩) hf1)

/-- Witness of C8: `let x = 5;` gives the `LetStatement` with name `x` and value
`IntegerLiteral(5)`. -/
theorem C8_witness :
    ∃ N, ∀ fuel, N ≤ fuel →
      parse fuel [⟨.LET, "let"⟩, ⟨.IDENT, "x"⟩, ⟨.ASSIGN, "="⟩, ⟨.INT, "5"⟩, ⟨.SEMI, ";"⟩,
          ⟨.EOF, ""⟩] =
        some ([.LetStatement (some (.mk ⟨.LET, "let"⟩ (some ⟨⟨.IDENT, "x"⟩, "x"⟩)
          (some (.IntegerLiteral ⟨.INT, "5"⟩ 5))))], []) := by
  obtain ⟨tok, T, N, h1, h2, _⟩ := C8_let_statement ⟨.LET, "let"⟩ ⟨.IDENT, "x"⟩
    ⟨.ASSIGN, "="⟩ ⟨.SEMI, ";"⟩ (.atom ⟨.INT, "5"⟩) rfl rfl rfl rfl rfl
  have e1 : parse (max N 5) [⟨.INT, "5"⟩, ⟨.EOF, ""⟩] =
      some ([.ExpressionStatement (some (.mk tok (some T)))], []) :=
    h1 (max N 5) (Nat.le_max_left _ _)
  have e2 : parse (max N 5) [⟨.INT, "5"⟩, ⟨.EOF, ""⟩] =
      some ([.ExpressionStatement (some (.mk ⟨.INT, "5"⟩
        (some (.IntegerLiteral ⟨.INT, "5"⟩ 5))))], []) :=
    parse_mono (Nat.le_max_right _ _) _ _ rfl
  rw [e2] at e1
  simp only [Option.some.injEq, Prod.mk.injEq, List.cons.injEq, and_true,
    Statement.ExpressionStatement.injEq, ExpressionStatement.mk.injEq] at e1
  refine ⟨N, fun fuel hf => ?_⟩
  have h := h2 fuel hf
  rw [← e1.2] at h
  exact h

/-- C9 (alternative of an if expression): whenever `parseIfExpression` returns a
present `IfExpression`, its condition was parsed after the `(`, its
consequence block was parsed after the `)` and the opening brace, ending in a
state `p6`, and the alternative is present if and only if the peek token of
`p6`, the token right after the end of the consequence block, is `else`.
`if (x) { 1 }` gives an `IfExpression` without alternative and an empty error
log; `if (x) { 1 } else { 2 }` gives one whose alternative is the block of the
single expression statement `2`, and an empty error log (both from fuel 11
on). -/
theorem C9_if_alternative :
    (∀ (fuel : Nat) (p : Parser) (tok : Token) (cond : Option Expression)
        (cons alt : Option BlockStatement) (p' : Parser),
      parseIfExpression (fuel + 1) p = some (some (.IfExpression tok cond cons alt), p') →
      ∃ p3 p6,
        parseExpression fuel LOWEST (nextToken (expectPeek .LPAREN p).2) = some (cond, p3) ∧
        parseBlockStatement fuel (expectPeek .LBRACE (expectPeek .RPAREN p3).2).2 =
          some (cons, p6) ∧
        (alt.isSome = true ↔ p6.peekToken.TokenKind = .ELSE)) ∧
    (∀ n, parse (n + 11) [⟨.IF, "if"⟩, ⟨.LPAREN, "("⟩, ⟨.IDENT, "x"⟩, ⟨.RPAREN, ")"⟩,
        ⟨.LBRACE, "\x7b"⟩, ⟨.INT, "1"⟩, ⟨.RBRACE, "\x7d"⟩, ⟨.EOF, ""⟩] =
      some ([.ExpressionStatement (some (.mk ⟨.IF, "if"⟩ (some (.IfExpression ⟨.IF, "if"⟩
        (some (.Identifier ⟨⟨.IDENT, "x"⟩, "x"⟩))
        (some (.mk ⟨.LBRACE, "\x7b"⟩ [.ExpressionStatement (some (.mk ⟨.INT, "1"⟩
          (some (.IntegerLiteral ⟨.INT, "1"⟩ 1))))]))
        none))))], [])) ∧
    (∀ n, parse (n + 11) [⟨.IF, "if"⟩, ⟨.LPAREN, "("⟩, ⟨.IDENT, "x"⟩, ⟨.RPAREN, ")"⟩,
        ⟨.LBRACE, "\x7b"⟩, ⟨.INT, "1"⟩, ⟨.RBRACE, "\x7d"⟩, ⟨.ELSE, "else"⟩,
        ⟨.LBRACE, "\x7b"⟩, ⟨.INT, "2"⟩, ⟨.RBRACE, "\x7d"⟩, ⟨.EOF, ""⟩] =
      some ([.ExpressionStatement (some (.mk ⟨.IF, "if"⟩ (some (.IfExpression ⟨.IF, "if"⟩
        (some (.Identifier ⟨⟨.IDENT, "x"⟩, "x"⟩))
        (some (.mk ⟨.LBRACE, "\x7b"⟩ [.ExpressionStatement (some (.mk ⟨.INT, "1"⟩
          (some (.IntegerLiteral ⟨.INT, "1"⟩ 1))))]))
        (some (.mk ⟨.LBRACE, "\x7b"⟩ [.ExpressionStatement (some (.mk ⟨.INT, "2"⟩
          (some (.IntegerLiteral ⟨.INT, "2"⟩ 2))))]))))))], [])) :=
  ⟨ifExpression_alternative,
    fun n => parse_mono (Nat.le_add_left 11 n) _ _ rfl,
    fun n => parse_mono (Nat.le_add_left 11 n) _ _ rfl⟩

/-- Witness of C9: the state after the consequence block of
`if (x) { 1 } else { 2 }` has `else` as its peek token, and the alternative is
present. -/
theorem C9_witness :
    ∃ p3 p6,
      parseExpression 7 LOWEST (nextToken (expectPeek .LPAREN
        (stL [⟨.IF, "if"⟩, ⟨.LPAREN, "("⟩, ⟨.IDENT, "x"⟩, ⟨.RPAREN, ")"⟩,
          ⟨.LBRACE, "\x7b"⟩, ⟨.INT, "1"⟩, ⟨.RBRACE, "\x7d"⟩, ⟨.ELSE, "else"⟩,
          ⟨.LBRACE, "\x7b"⟩, ⟨.INT, "2"⟩, ⟨.RBRACE, "\x7d"⟩, ⟨.EOF, ""⟩] [])).2) =
        some (some (.Identifier ⟨⟨.IDENT, "x"⟩, "x"⟩), p3) ∧
      parseBlockStatement 7 (expectPeek .LBRACE (expectPeek .RPAREN p3).2).2 =
        some (some (.mk ⟨.LBRACE, "\x7b"⟩ [.ExpressionStatement (some (.mk ⟨.INT, "1"⟩
          (some (.IntegerLiteral ⟨.INT, "1"⟩ 1))))]), p6) ∧
      ((some (BlockStatement.mk ⟨.LBRACE, "\x7b"⟩ [.ExpressionStatement
          (some (.mk ⟨.INT, "2"⟩ (some (.IntegerLiteral ⟨.INT, "2"⟩ 2))))])).isSome = true ↔
        p6.peekToken.TokenKind = .ELSE) :=
  C9_if_alternative.1 7 _ ⟨.IF, "if"⟩ _ _ _
    (st ⟨.RBRACE, "\x7d"⟩ [⟨.EOF, ""⟩] []) rfl

/-- C10 (function literal): for every list `ps` of identifier tokens (empty or
not), `New` then `ParseProgram` on `func ( p1 , ... , pn ) { a + b }` followed
by `EOF` returns, for every fuel from `n + 14` on, exactly one
`ExpressionStatement` whose expression is the `FunctionLiteral` with the
parameters `Identifier(p1), ..., Identifier(pn)` in source order and a body
block of the single expression statement `InfixExpression(+, a, b)`, and an
empty error log. -/
theorem C10_function_literal (ps : List Token) (hps : ∀ t ∈ ps, t.TokenKind = .IDENT)
    (fuel : Nat) (hf : ps.length + 14 ≤ fuel) :
    parse fuel ([⟨.FUNC, "func"⟩, ⟨.LPAREN, "("⟩] ++ commaSeparated ⟨.COMMA, ","⟩ ps ++
        [⟨.RPAREN, ")"⟩, ⟨.LBRACE, "\x7b"⟩, ⟨.IDENT, "a"⟩, ⟨.SUM, "+"⟩, ⟨.IDENT, "b"⟩,
          ⟨.RBRACE, "\x7d"⟩, ⟨.EOF, ""⟩]) =
      some ([.ExpressionStatement (some (.mk ⟨.FUNC, "func"⟩ (some (.FunctionLiteral
        ⟨.FUNC, "func"⟩ (some (ps.map (fun t => ⟨t, t.Literal⟩)))
        (some (.mk ⟨.LBRACE, "\x7b"⟩ [.ExpressionStatement (some (.mk ⟨.IDENT, "a"⟩
          (some (.InfixExpression ⟨.SUM, "+"⟩ "+" (some (.Identifier ⟨⟨.IDENT, "a"⟩, "a"⟩))
            (some (.Identifier ⟨⟨.IDENT, "b"⟩, "b"⟩))))))]))))))], []) := by
  refine parse_mono hf _ _ ?_
  have hargs := parseFunctionArgs_params ⟨.COMMA, ","⟩ ⟨.LPAREN, "("⟩ ⟨.RPAREN, ")"⟩ rfl rfl
    [⟨.LBRACE, "\x7b"⟩, ⟨.IDENT, "a"⟩, ⟨.SUM, "+"⟩, ⟨.IDENT, "b"⟩, ⟨.RBRACE, "\x7d"⟩,
      ⟨.EOF, ""⟩] [] ps hps
  have hbody := parseBlockStatement_single 4 ⟨.LBRACE, "\x7b"⟩ ⟨.IDENT, "a"⟩ ⟨.IDENT, "b"⟩
    ⟨.RBRACE, "\x7d"⟩ _ [⟨.EOF, ""⟩] _ [] [] (by decide) (by decide) (by decide) (by decide)
    (by decide) rfl
    (expression_binary 0 ⟨.IDENT, "a"⟩ ⟨.SUM, "+"⟩ ⟨.IDENT, "b"⟩ ⟨.RBRACE, "\x7d"⟩ _ _
      [⟨.EOF, ""⟩] [] rfl rfl rfl rfl)
  have hE : parseExpression (ps.length + 10 + 1) LOWEST
      (st ⟨.FUNC, "func"⟩ (⟨.LPAREN, "("⟩ :: (commaSeparated ⟨.COMMA, ","⟩ ps ++
        [⟨.RPAREN, ")"⟩, ⟨.LBRACE, "\x7b"⟩, ⟨.IDENT, "a"⟩, ⟨.SUM, "+"⟩, ⟨.IDENT, "b"⟩,
          ⟨.RBRACE, "\x7d"⟩, ⟨.EOF, ""⟩])) []) =
      some (some (.FunctionLiteral
        ⟨.FUNC, "func"⟩ (some (ps.map (fun t => ⟨t, t.Literal⟩)))
        (some (.mk ⟨.LBRACE, "\x7b"⟩ [.ExpressionStatement (some (.mk ⟨.IDENT, "a"⟩
          (some (.InfixExpression ⟨.SUM, "+"⟩ "+" (some (.Identifier ⟨⟨.IDENT, "a"⟩, "a"⟩))
            (some (.Identifier ⟨⟨.IDENT, "b"⟩, "b"⟩))))))]))),
        st ⟨.RBRACE, "\x7d"⟩ [⟨.EOF, ""⟩] []) := by
    rw [parseExpression_func _ _ _ _ _ rfl, parseFunctionLiteral_st _ _ _ _ _ rfl,
      parseFunctionArgs_mono (Nat.le_add_right ps.length 9) _ _ hargs]
    simp only []
    rw [expectPeek_pos .LBRACE _ _ _ _ rfl]
    simp only []
    rw [parseBlockStatement_mono (Nat.le_add_left 9 ps.length) _ _ hbody]
    simp only []
    exact loop_stop _ _ _ _ _ _ _ (Or.inr (Nat.le_refl _))
  exact single_statement (ps.length + 10) ⟨.FUNC, "func"⟩ ⟨.RBRACE, "\x7d"⟩ ⟨.EOF, ""⟩ _ _ []
    (by decide) (by decide) (by decide) (by decide) rfl hE

/-- Witness of C10: `func(a, b) { a + b }`. -/
theorem C10_witness :
    parse 16 [⟨.FUNC, "func"⟩, ⟨.LPAREN, "("⟩, ⟨.IDENT, "a"⟩, ⟨.COMMA, ","⟩, ⟨.IDENT, "b"⟩,
        ⟨.RPAREN, ")"⟩, ⟨.LBRACE, "\x7b"⟩, ⟨.IDENT, "a"⟩, ⟨.SUM, "+"⟩, ⟨.IDENT, "b"⟩,
        ⟨.RBRACE, "\x7d"⟩, ⟨.EOF, ""⟩] =
      some ([.ExpressionStatement (some (.mk ⟨.FUNC, "func"⟩ (some (.FunctionLiteral
        ⟨.FUNC, "func"⟩ (some [⟨⟨.IDENT, "a"⟩, "a"⟩, ⟨⟨.IDENT, "b"⟩, "b"⟩])
        (some (.mk ⟨.LBRACE, "\x7b"⟩ [.ExpressionStatement (some (.mk ⟨.IDENT, "a"⟩
          (some (.InfixExpression ⟨.SUM, "+"⟩ "+" (some (.Identifier ⟨⟨.IDENT, "a"⟩, "a"⟩))
            (some (.Identifier ⟨⟨.IDENT, "b"⟩, "b"⟩))))))]))))))], []) :=
  C10_function_literal [⟨.IDENT, "a"⟩, ⟨.IDENT, "b"⟩] (by decide) 16 (Nat.le_refl _)

end parser
namespace parser
open token ast

/-- C11 (invocation): for an identifier token `f`, tokens `(`, `,` and `)`, and
every list `es` of well-formed argument expressions, empty or not, there is
the list `Ts` of their trees, each the tree its expression parses to alone,
such that from some fuel on `New` then `ParseProgram` on `f ( e1 , ... , en )`
followed by `EOF` returns exactly one `ExpressionStatement` whose expression is
the `InvocationExpression` with callee `Identifier(f)` and the arguments `Ts`
in source order, all present, and the error log is empty. -/
theorem C11_invocation (f lp cm rp : Token) (es : List GExpr)
    (hf : f.TokenKind = .IDENT) (hlp : lp.TokenKind = .LPAREN) (hcm : cm.TokenKind = .COMMA)
    (hrp : rp.TokenKind = .RPAREN) (hes : ∀ e ∈ es, e.wf = true) :
    ∃ (Ts : List Expression), List.Forall₂ ParsesTo es Ts ∧
      ∃ N, ∀ fuel, N ≤ fuel →
        parse fuel (f :: lp :: (argTokens cm es ++ [rp, ⟨.EOF, ""⟩])) =
          some ([.ExpressionStatement (some (.mk f (some (.InvocationExpression lp
            (some (.Identifier ⟨f, f.Literal⟩)) (some (Ts.map some))))))], []) := by
  have hfo : operand f = some (.Identifier ⟨f, f.Literal⟩) := by
    obtain ⟨k, l⟩ := f
    cases hf
    rfl
  obtain ⟨h1, h2, h3, h4⟩ := operand_not_statement_start f _ hfo
  by_cases hnil : es = []
  · subst hnil
    refine ⟨[], List.Forall₂.nil, 8, fun fuel hfuel => parse_mono hfuel _ _ ?_⟩
    refine single_statement 4 f rp ⟨.EOF, ""⟩ _ _ [] h1 h2 h3 h4 rfl ?_
    simp only [argTokens, List.nil_append, List.map_nil]
    rw [parseExpression_atom _ _ _ _ _ _ (atom_of_operand _ _ hfo),
      loop_call _ _ _ _ _ _ _ hlp (by decide), parseInvocationExpression_st,
      parseInvocationArguments_empty _ _ _ _ _ hrp]
    simp only []
    exact loop_stop _ _ _ _ _ _ _ (Or.inr (Nat.le_refl _))
  · obtain ⟨Ts, hTs, h⟩ := arguments_parse cm hcm es hnil hes
    obtain ⟨t, w, hw, ht⟩ := argTokens_first cm es hnil hes
    obtain ⟨f1, tl, a, q, hf1, hf2⟩ := h [] rp [⟨.EOF, ""⟩] []
      (by rw [hrp]; rfl) (by rw [hrp]; decide)
    refine ⟨Ts, hTs, f1 + 8, fun fuel hfuel => parse_mono hfuel _ _ ?_⟩
    refine single_statement (f1 + 4) f rp ⟨.EOF, ""⟩ _ _ [] h1 h2 h3 h4 rfl ?_
    rw [hw] at hf1
    simp only [List.cons_append, stL] at hf1
    simp only [List.nil_append] at hf2
    simp only [hw, List.cons_append]
    rw [parseExpression_atom _ _ _ _ _ _ (atom_of_operand _ _ hfo),
      loop_call _ _ _ _ _ _ _ hlp (by decide), parseInvocationExpression_st,
      parseInvocationArguments_nonempty _ _ _ _ _ (isStart_ne_rparen _ ht),
      parseExpression_mono (by omega : f1 ≤ f1 + 1) _ _ _ hf1]
    simp only []
    rw [parseInvocationArgumentsLoop_mono (by omega : f1 ≤ f1 + 1) _ _ _ hf2]
    simp only []
    rw [expectPeek_pos _ _ _ _ _ hrp]
    simp only []
    exact loop_stop _ _ _ _ _ _ _ (Or.inr (Nat.le_refl _))

/-- Witness of C11: `add(1, 2)` gives the invocation of `add` with the
arguments `IntegerLiteral(1)` and `IntegerLiteral(2)`. -/
theorem C11_witness :
    ∃ N, ∀ fuel, N ≤ fuel →
      parse fuel [⟨.IDENT, "add"⟩, ⟨.LPAREN, "("⟩, ⟨.INT, "1"⟩, ⟨.COMMA, ","⟩, ⟨.INT, "2"⟩,
          ⟨.RPAREN, ")"⟩, ⟨.EOF, ""⟩] =
        some ([.ExpressionStatement (some (.mk ⟨.IDENT, "add"⟩ (some (.InvocationExpression
          ⟨.LPAREN, "("⟩ (some (.Identifier ⟨⟨.IDENT, "add"⟩, "add"⟩))
          (some [some (.IntegerLiteral ⟨.INT, "1"⟩ 1),
            some (.IntegerLiteral ⟨.INT, "2"⟩ 2)])))))], []) := by
  obtain ⟨Ts, hTs, N, h⟩ := C11_invocation ⟨.IDENT, "add"⟩ ⟨.LPAREN, "("⟩ ⟨.COMMA, ","⟩
    ⟨.RPAREN, ")"⟩ [.atom ⟨.INT, "1"⟩, .atom ⟨.INT, "2"⟩] rfl rfl rfl rfl
    (by intro e he; simp only [List.mem_cons, List.mem_singleton, List.not_mem_nil, or_false] at he; rcases he with rfl | rfl <;> rfl)
  cases hTs with
  | cons h1 hrest =>
    cases hrest with
    | cons h2 hnil =>
      cases hnil
      obtain ⟨tok1, N1, p1⟩ := h1
      obtain ⟨tok2, N2, p2⟩ := h2
      have e1 := p1 (max N1 5) (Nat.le_max_left _ _)
      have e1' : parse (max N1 5) [⟨.INT, "1"⟩, ⟨.EOF, ""⟩] =
          some ([.ExpressionStatement (some (.mk ⟨.INT, "1"⟩
            (some (.IntegerLiteral ⟨.INT, "1"⟩ 1))))], []) :=
        parse_mono (Nat.le_max_right _ _) _ _ rfl
      have e2 := p2 (max N2 5) (Nat.le_max_left _ _)
      have e2' : parse (max N2 5) [⟨.INT, "2"⟩, ⟨.EOF, ""⟩] =
          some ([.ExpressionStatement (some (.mk ⟨.INT, "2"⟩
            (some (.IntegerLiteral ⟨.INT, "2"⟩ 2))))], []) :=
        parse_mono (Nat.le_max_right _ _) _ _ rfl
      simp only [GExpr.tokens, List.cons_append, List.nil_append] at e1 e2
      rw [e1'] at e1
      rw [e2'] at e2
      simp only [Option.some.injEq, Prod.mk.injEq, List.cons.injEq, and_true,
        Statement.ExpressionStatement.injEq, ExpressionStatement.mk.injEq] at e1 e2
      refine ⟨N, fun fuel hf => ?_⟩
      have hh := h fuel hf
      rw [← e1.2, ← e2.2] at hh
      exact hh

/-- C12 (missing closing parenthesis): for an opening parenthesis, atomic
operands `a b` and a binary operator `o`, `New` then `ParseProgram` on
`[(, a, o, b, EOF]` returns, for every fuel from 10 on, a single
`ExpressionStatement` whose expression is absent, and an error log that holds
exactly the message `expected next token to be ')', received EOF`. -/
theorem C12_missing_closing_parenthesis (lp a o b : Token) (A B : Expression)
    (hlp : lp.TokenKind = .LPAREN) (ha : operand a = some A) (hb : operand b = some B)
    (ho : isBinop o.TokenKind = true) (fuel : Nat) (hf : 10 ≤ fuel) :
    parse fuel [lp, a, o, b, ⟨.EOF, ""⟩] =
      some ([.ExpressionStatement (some (.mk lp none))],
        ["expected next token to be ')', received EOF"]) := by
  refine parse_mono hf _ _ ?_
  exact single_statement 6 lp b ⟨.EOF, ""⟩ _ _ _ (by simp [hlp]) (by simp [hlp])
    (by simp [hlp]) (by simp [hlp]) rfl
    (expression_group_unclosed 0 lp a o b ⟨.EOF, ""⟩ A B [] [] ha hb ho hlp rfl (by decide))

/-- Witness of C12: `(1 + 2`. -/
theorem C12_witness :
    parse 10 [⟨.LPAREN, "("⟩, ⟨.INT, "1"⟩, ⟨.SUM, "+"⟩, ⟨.INT, "2"⟩, ⟨.EOF, ""⟩] =
      some ([.ExpressionStatement (some (.mk ⟨.LPAREN, "("⟩ none))],
        ["expected next token to be ')', received EOF"]) :=
  C12_missing_closing_parenthesis ⟨.LPAREN, "("⟩ ⟨.INT, "1"⟩ ⟨.SUM, "+"⟩ ⟨.INT, "2"⟩ _ _
    rfl rfl rfl rfl 10 (Nat.le_refl _)

/-- C13 (no null entries in argument lists), counterexample: on
`f(99999999999999999999)` `ParseProgram` terminates (with fuel 9), and the
arguments list of the `InvocationExpression` it returns holds one entry, which
is absent: the argument that failed to parse was stored, with its diagnostic
in the error log. -/
theorem C13_counterexample :
    parse 9 [⟨.IDENT, "f"⟩, ⟨.LPAREN, "("⟩, ⟨.INT, "99999999999999999999"⟩,
        ⟨.RPAREN, ")"⟩, ⟨.EOF, ""⟩] =
      some ([.ExpressionStatement (some (.mk ⟨.IDENT, "f"⟩ (some (.InvocationExpression
        ⟨.LPAREN, "("⟩ (some (.Identifier ⟨⟨.IDENT, "f"⟩, "f"⟩)) (some [none])))))],
        ["could not parse \"99999999999999999999\" as integer"]) :=
  rfl

/-- C13 (no null entries in argument lists), amended: for every token sequence
on which `New` then `ParseProgram` terminate with an empty error log, no
arguments list of an `InvocationExpression` anywhere in the returned tree
holds an absent entry. The parameters list of a `FunctionLiteral` holds
identifiers built by the parser, never an absent entry. -/
theorem C13_no_null_entries (fuel : Nat) (toks : List Token) (stmts : List Statement)
    (h : parse fuel toks = some (stmts, [])) : entriesPresentStatements stmts = true :=
  statements_entriesPresent stmts (parse_clean fuel toks stmts h)

/-- Witness of C13: the tree of `add(1, 2)`. -/
theorem C13_witness :
    entriesPresentStatements [.ExpressionStatement (some (.mk ⟨.IDENT, "add"⟩
      (some (.InvocationExpression ⟨.LPAREN, "("⟩
        (some (.Identifier ⟨⟨.IDENT, "add"⟩, "add"⟩))
        (some [some (.IntegerLiteral ⟨.INT, "1"⟩ 1),
          some (.IntegerLiteral ⟨.INT, "2"⟩ 2)])))))] = true :=
  C13_no_null_entries 12 [⟨.IDENT, "add"⟩, ⟨.LPAREN, "("⟩, ⟨.INT, "1"⟩, ⟨.COMMA, ","⟩,
    ⟨.INT, "2"⟩, ⟨.RPAREN, ")"⟩, ⟨.EOF, ""⟩] _ rfl

/-- C14 (origin token recorded), failing input: on `none` and on `null` the
node that `parseNone` and `parseNull` build holds the zero token (`ILLEGAL`,
empty text), not the token that was current, while the expression statement
around it does record that token. -/
theorem C14_none_and_null_record_no_token : ∀ n,
    parse (n + 5) [⟨.NONE, "none"⟩, ⟨.EOF, ""⟩] =
      some ([.ExpressionStatement (some (.mk ⟨.NONE, "none"⟩
        (some (.NoneLiteral ⟨.ILLEGAL, ""⟩))))], []) ∧
    parse (n + 5) [⟨.NULL, "null"⟩, ⟨.EOF, ""⟩] =
      some ([.ExpressionStatement (some (.mk ⟨.NULL, "null"⟩
        (some (.NullLiteral ⟨.ILLEGAL, ""⟩))))], []) :=
  fun n => ⟨parse_mono (Nat.le_add_left 5 n) _ _ rfl, parse_mono (Nat.le_add_left 5 n) _ _ rfl⟩

/-- C16 (required-token check): for every parser state `p` and kind `t`, when
the peek token has kind `t`, `expectPeek` returns true, the current token
becomes the old peek token, the peek token becomes the next token of the
scanner, which moves on, and the error log is unchanged; otherwise it returns
false, the current token, the peek token and the scanner are unchanged, and
the error log is the old one with the single message
`expected next token to be '<t>', received <kind of peek>` appended, the kinds
rendered by `TokenKind.String`. The handler maps are unchanged both times. -/
theorem C16_expectPeek (p : Parser) (t : TokenKind) :
    (p.peekToken.TokenKind = t →
      (expectPeek t p).1 = true ∧
      (expectPeek t p).2.currentToken = p.peekToken ∧
      (expectPeek t p).2.peekToken = p.lxr.NextToken.1 ∧
      (expectPeek t p).2.lxr = p.lxr.NextToken.2 ∧
      (expectPeek t p).2.errors = p.errors ∧
      (expectPeek t p).2.prefixParseFns = p.prefixParseFns ∧
      (expectPeek t p).2.infixParseFns = p.infixParseFns) ∧
    (p.peekToken.TokenKind ≠ t →
      (expectPeek t p).1 = false ∧
      (expectPeek t p).2.currentToken = p.currentToken ∧
      (expectPeek t p).2.peekToken = p.peekToken ∧
      (expectPeek t p).2.lxr = p.lxr ∧
      (expectPeek t p).2.errors = p.errors ++ ["expected next token to be '" ++ t.String ++
        "', received " ++ p.peekToken.TokenKind.String] ∧
      (expectPeek t p).2.prefixParseFns = p.prefixParseFns ∧
      (expectPeek t p).2.infixParseFns = p.infixParseFns) := by
  constructor
  · intro h
    have hp : peekTokenIs t p = true := by simp [peekTokenIs, h]
    rw [expectPeek, if_pos hp]
    exact ⟨rfl, rfl, rfl, rfl, rfl, rfl, rfl⟩
  · intro h
    have hp : ¬ peekTokenIs t p = true := by simp [peekTokenIs, h]
    rw [expectPeek, if_neg hp]
    exact ⟨rfl, rfl, rfl, rfl, rfl, rfl, rfl⟩

/-- Witness of C16: in the state with current token `1`, peek token `2` and `)`
still with the scanner, requiring `)` fails and logs one message, and requiring
an integer literal succeeds. -/
theorem C16_witness :
    ((expectPeek .RPAREN (st ⟨.INT, "1"⟩ [⟨.INT, "2"⟩, ⟨.RPAREN, ")"⟩] [])).1 = false ∧
      (expectPeek .RPAREN (st ⟨.INT, "1"⟩ [⟨.INT, "2"⟩, ⟨.RPAREN, ")"⟩] [])).2.errors =
        ["expected next token to be ')', received INT"]) ∧
    ((expectPeek .INT (st ⟨.INT, "1"⟩ [⟨.INT, "2"⟩, ⟨.RPAREN, ")"⟩] [])).1 = true ∧
      (expectPeek .INT (st ⟨.INT, "1"⟩ [⟨.INT, "2"⟩, ⟨.RPAREN, ")"⟩] [])).2.peekToken =
        ⟨.RPAREN, ")"⟩) :=
  ⟨⟨((C16_expectPeek (st ⟨.INT, "1"⟩ [⟨.INT, "2"⟩, ⟨.RPAREN, ")"⟩] []) .RPAREN).2
        (by decide)).1,
      ((C16_expectPeek (st ⟨.INT, "1"⟩ [⟨.INT, "2"⟩, ⟨.RPAREN, ")"⟩] []) .RPAREN).2
        (by decide)).2.2.2.2.1⟩,
    ⟨((C16_expectPeek (st ⟨.INT, "1"⟩ [⟨.INT, "2"⟩, ⟨.RPAREN, ")"⟩] []) .INT).1 rfl).1,
      ((C16_expectPeek (st ⟨.INT, "1"⟩ [⟨.INT, "2"⟩, ⟨.RPAREN, ")"⟩] []) .INT).1 rfl).2.2.1⟩⟩

/-- C15 (an absent node always comes with a diagnostic): whenever
`parseExpression` returns an absent expression, `parseLetStatement` or
`parseTypeDeclaration` returns `nil`, or `parseInvocationArguments` or
`parseFunctionArgs` returns a `nil` list, the error log after the call is the
log before it with at least one message appended. And if `New` then
`ParseProgram` terminate with an empty error log, no slot of the returned tree
is absent (no `nil` statement, let value, return value, expression of an
expression statement, operand, condition, consequence, function body,
parameter list, callee, argument list or argument entry), the alternative of
an `IfExpression` apart, which is absent in the tree of `if (x) { 1 }`. -/
theorem C15_absent_node_has_diagnostic :
    (∀ fuel prec p q, parseExpression fuel prec p = some (none, q) →
      ∃ msgs, msgs ≠ [] ∧ q.errors = p.errors ++ msgs) ∧
    (∀ fuel p q, parseLetStatement fuel p = some (none, q) →
      ∃ msgs, msgs ≠ [] ∧ q.errors = p.errors ++ msgs) ∧
    (∀ fuel p q, parseTypeDeclaration fuel p = some (none, q) →
      ∃ msgs, msgs ≠ [] ∧ q.errors = p.errors ++ msgs) ∧
    (∀ fuel p q, parseInvocationArguments fuel p = some (none, q) →
      ∃ msgs, msgs ≠ [] ∧ q.errors = p.errors ++ msgs) ∧
    (∀ fuel p q, parseFunctionArgs fuel p = some (none, q) →
      ∃ msgs, msgs ≠ [] ∧ q.errors = p.errors ++ msgs) ∧
    (∀ fuel toks stmts, parse fuel toks = some (stmts, []) →
      completeStatements stmts = true) ∧
    (∀ n, parse (n + 11) [⟨.IF, "if"⟩, ⟨.LPAREN, "("⟩, ⟨.IDENT, "x"⟩, ⟨.RPAREN, ")"⟩,
        ⟨.LBRACE, "\x7b"⟩, ⟨.INT, "1"⟩, ⟨.RBRACE, "\x7d"⟩, ⟨.EOF, ""⟩] =
      some ([.ExpressionStatement (some (.mk ⟨.IF, "if"⟩ (some (.IfExpression ⟨.IF, "if"⟩
        (some (.Identifier ⟨⟨.IDENT, "x"⟩, "x"⟩))
        (some (.mk ⟨.LBRACE, "\x7b"⟩ [.ExpressionStatement (some (.mk ⟨.INT, "1"⟩
          (some (.IntegerLiteral ⟨.INT, "1"⟩ 1))))]))
        none))))], [])) := by
  refine ⟨fun fuel prec p q h => ?_, fun fuel p q h => ?_, fun fuel p q h => ?_,
    fun fuel p q h => ?_, fun fuel p q h => ?_, parse_clean,
    fun n => parse_mono (Nat.le_add_left 11 n) _ _ rfl⟩
  · exact ((cleanAt fuel).expression _ _ _ _ h).appended
      (by simp [completeOptExpression])
  · exact ((cleanAt fuel).letStatement _ _ _ h).appended (by simp)
  · exact (parseTypeDeclaration_clean _ _ _ _ h).appended (by simp)
  · exact ((cleanAt fuel).invocationArguments _ _ _ h).appended
      (by simp [completeOptArguments])
  · exact (parseFunctionArgs_clean _ _ _ _ h).appended (by simp)

/-- Witness of C15: `parseExpression` on the lone token `)` returns an absent
expression with one message appended, and the tree of `let x = 5;`, returned
with an empty error log, has no absent slot. -/
theorem C15_witness :
    (∃ msgs, msgs ≠ [] ∧
      (noPrefixParseFn .RPAREN (st ⟨.RPAREN, ")"⟩ [] [])).errors =
        (st ⟨.RPAREN, ")"⟩ [] []).errors ++ msgs) ∧
    completeStatements [.LetStatement (some (.mk ⟨.LET, "let"⟩ (some ⟨⟨.IDENT, "x"⟩, "x"⟩)
      (some (.IntegerLiteral ⟨.INT, "5"⟩ 5))))] = true :=
  ⟨C15_absent_node_has_diagnostic.1 1 LOWEST (st ⟨.RPAREN, ")"⟩ [] []) _ rfl,
    C15_absent_node_has_diagnostic.2.2.2.2.2.1 9 [⟨.LET, "let"⟩, ⟨.IDENT, "x"⟩,
      ⟨.ASSIGN, "="⟩, ⟨.INT, "5"⟩, ⟨.SEMI, ";"⟩, ⟨.EOF, ""⟩] _ rfl⟩

/-- C17 (integer literal conversion), counterexample: the literal `010` is a
non-empty string of decimal digits of decimal value 10, which fits in 64 bits,
and `parseIntegerLiteral` returns `IntegerLiteral` with the value 8; the
literal `08` has the decimal value 8 and `parseIntegerLiteral` returns an
absent node and logs `could not parse "08" as integer`. -/
theorem C17_counterexample :
    (isDecimal "010" = true ∧ decimalValue "010" = 10 ∧
      parseIntegerLiteral (st ⟨.INT, "010"⟩ [] []) =
        (some (.IntegerLiteral ⟨.INT, "010"⟩ 8), st ⟨.INT, "010"⟩ [] [])) ∧
    (isDecimal "08" = true ∧ decimalValue "08" = 8 ∧
      parseIntegerLiteral (st ⟨.INT, "08"⟩ [] []) =
        (none, st ⟨.INT, "08"⟩ [] ["could not parse \"08\" as integer"])) :=
  ⟨⟨rfl, rfl, rfl⟩, ⟨rfl, rfl, rfl⟩⟩

/-- C17 (integer literal conversion), amended: for every parser state whose
current token has as literal a non-empty string of decimal digits with no zero
in front of further digits, if the decimal value `n` of the literal is below
`2^63`, `parseIntegerLiteral` returns `IntegerLiteral` with the current token
and the value `n` and leaves the state, error log included, unchanged; and if
`n` is `2^63` or more it returns an absent node and appends exactly the one
diagnostic `could not parse "<literal>" as integer`. -/
theorem C17_integer_literal (p : Parser) (hd : isDecimal p.currentToken.Literal = true)
    (hz : hasLeadingZero p.currentToken.Literal = false) :
    (decimalValue p.currentToken.Literal < 2 ^ 63 →
      parseIntegerLiteral p =
        (some (.IntegerLiteral p.currentToken (decimalValue p.currentToken.Literal)), p)) ∧
    (2 ^ 63 ≤ decimalValue p.currentToken.Literal →
      parseIntegerLiteral p =
        (none, { p with errors := p.errors ++
          ["could not parse \"" ++ p.currentToken.Literal ++ "\" as integer"] })) := by
  have h := strconv.ParseInt_decimal _ hd hz
  constructor
  · intro hlt
    rw [if_pos hlt] at h
    simp only [parseIntegerLiteral, h]
  · intro hge
    rw [if_neg (Nat.not_lt.mpr hge)] at h
    simp only [parseIntegerLiteral, h, strconv.Quote_decimal _ hd]
    have hs : "could not parse " ++ ("\"" ++ p.currentToken.Literal ++ "\"") ++ " as integer" =
        "could not parse \"" ++ p.currentToken.Literal ++ "\" as integer" := by
      apply String.ext
      simp [String.data_append]
    rw [hs]

/-- Witness of C17: the literal `9223372036854775807` gives `IntegerLiteral`
with that value, and `9223372036854775808` gives an absent node and one
diagnostic. -/
theorem C17_witness :
    parseIntegerLiteral (st ⟨.INT, "9223372036854775807"⟩ [] []) =
      (some (.IntegerLiteral ⟨.INT, "9223372036854775807"⟩ 9223372036854775807),
        st ⟨.INT, "9223372036854775807"⟩ [] []) ∧
    parseIntegerLiteral (st ⟨.INT, "9223372036854775808"⟩ [] []) =
      (none, st ⟨.INT, "9223372036854775808"⟩ []
        ["could not parse \"9223372036854775808\" as integer"]) :=
  ⟨(C17_integer_literal (st ⟨.INT, "9223372036854775807"⟩ [] []) rfl rfl).1 (by decide),
    (C17_integer_literal (st ⟨.INT, "9223372036854775808"⟩ [] []) rfl rfl).2 (by decide)⟩

/-- C18 (parameters are bare identifiers), failing input: on `func(1) { }` the
integer literal `1` is taken as a parameter: the function literal is returned
with an `Identifier` built from the `INT` token, and the error log is empty. -/
theorem C18_integer_accepted_as_parameter : ∀ n,
    parse (n + 7) [⟨.FUNC, "func"⟩, ⟨.LPAREN, "("⟩, ⟨.INT, "1"⟩, ⟨.RPAREN, ")"⟩,
        ⟨.LBRACE, "\x7b"⟩, ⟨.RBRACE, "\x7d"⟩, ⟨.EOF, ""⟩] =
      some ([.ExpressionStatement (some (.mk ⟨.FUNC, "func"⟩ (some (.FunctionLiteral
        ⟨.FUNC, "func"⟩ (some [⟨⟨.INT, "1"⟩, "1"⟩]) (some (.mk ⟨.LBRACE, "\x7b"⟩ []))))))],
        []) :=
  fun n => parse_mono (Nat.le_add_left 7 n) _ _ rfl

/-- C19 (type declaration stub), failing input: on `type T = int;` the parser
requires `==` after the name, logs that `=` is not it, and returns the `nil`
pointer of the failed declaration followed by two expression statements for
`=` and `int`. With the equality token `==` in the place of `=` it returns the
one `TypeDeclarationStatement` named `T` and an empty error log. -/
theorem C19_type_declaration_requires_eql : ∀ n,
    parse (n + 7) [⟨.TYPE, "type"⟩, ⟨.IDENT, "T"⟩, ⟨.ASSIGN, "="⟩, ⟨.IDENT, "int"⟩,
        ⟨.SEMI, ";"⟩, ⟨.EOF, ""⟩] =
      some ([.TypeDeclarationStatement none,
          .ExpressionStatement (some (.mk ⟨.ASSIGN, "="⟩ none)),
          .ExpressionStatement (some (.mk ⟨.IDENT, "int"⟩
            (some (.Identifier ⟨⟨.IDENT, "int"⟩, "int"⟩))))],
        ["expected next token to be '==', received =",
          "no prefix parse function defined for TokenKind ="]) ∧
    parse (n + 7) [⟨.TYPE, "type"⟩, ⟨.IDENT, "T"⟩, ⟨.EQL, "=="⟩, ⟨.IDENT, "int"⟩,
        ⟨.SEMI, ";"⟩, ⟨.EOF, ""⟩] =
      some ([.TypeDeclarationStatement (some ⟨⟨.TYPE, "type"⟩, some ⟨⟨.IDENT, "T"⟩, "T"⟩⟩)],
        []) :=
  fun n => ⟨parse_mono (Nat.le_add_left 7 n) _ _ rfl, parse_mono (Nat.le_add_left 7 n) _ _ rfl⟩

/-- C20 (termination without return/type): for every finite token sequence
that holds no `return` token and no `type` token, `New` then `ParseProgram`
terminate: from some fuel on they return one and the same program and error
log. `parseExpression` returns at once, with an absent expression and the
no-prefix-handler message, when the current token is `EOF`; the loops of
`ParseProgram` and of `parseBlockStatement` stop when the current token is
`EOF`, and the infix loop of `parseExpression` and the comma loops of
`parseInvocationArguments` and `parseFunctionArgs` stop when the peek token is
`EOF`. -/
theorem C20_terminates_without_return_and_type :
    (∀ toks, noReturnNoType toks = true →
      ∃ N stmts errs, ∀ fuel, N ≤ fuel → parse fuel toks = some (stmts, errs)) ∧
    (∀ fuel prec p, p.prefixParseFns = registeredPrefix →
      p.currentToken.TokenKind = .EOF →
      parseExpression (fuel + 1) prec p = some (none, noPrefixParseFn .EOF p)) ∧
    (∀ fuel a p, p.currentToken.TokenKind = .EOF →
      ParseProgramLoop (fuel + 1) a p = some (a, p)) ∧
    (∀ fuel a p, p.currentToken.TokenKind = .EOF →
      parseBlockStatementLoop (fuel + 1) a p = some (a, p)) ∧
    (∀ fuel prec left p, p.infixParseFns = registeredInfix →
      p.peekToken.TokenKind = .EOF →
      parseExpressionLoop (fuel + 1) prec left p = some (left, p)) ∧
    (∀ fuel a p, p.peekToken.TokenKind = .EOF →
      parseInvocationArgumentsLoop (fuel + 1) a p = some (a, p)) ∧
    (∀ fuel ids p, p.peekToken.TokenKind = .EOF →
      parseFunctionArgsLoop (fuel + 1) ids p = some (ids, p)) := by
  refine ⟨parse_halts, ?_, ?_, ?_, ?_, ?_, ?_⟩
  · intro fuel prec p hp hc
    rw [parseExpression]
    simp only [hp, hc]
    rfl
  · intro fuel a p hc
    rw [ParseProgramLoop]
    simp [hc]
  · intro fuel a p hc
    rw [parseBlockStatementLoop]
    simp [currentTokenIs, hc]
  · intro fuel prec left p hp hc
    rw [parseExpressionLoop]
    split
    · simp only [hp, hc]
      rfl
    · rfl
  · intro fuel a p hc
    rw [parseInvocationArgumentsLoop]
    simp [peekTokenIs, hc]
  · intro fuel ids p hc
    rw [parseFunctionArgsLoop]
    simp [peekTokenIs, hc]

/-- Witness of C20: `New` then `ParseProgram` terminate on `let x = 5;`, and
`parseExpression` returns at once on the state of the empty sequence. -/
theorem C20_witness :
    (∃ N stmts errs, ∀ fuel, N ≤ fuel →
      parse fuel [⟨.LET, "let"⟩, ⟨.IDENT, "x"⟩, ⟨.ASSIGN, "="⟩, ⟨.INT, "5"⟩, ⟨.SEMI, ";"⟩,
        ⟨.EOF, ""⟩] = some (stmts, errs)) ∧
    parseExpression 1 LOWEST (stL [] []) = some (none, noPrefixParseFn .EOF (stL [] [])) :=
  ⟨C20_terminates_without_return_and_type.1 [⟨.LET, "let"⟩, ⟨.IDENT, "x"⟩, ⟨.ASSIGN, "="⟩,
      ⟨.INT, "5"⟩, ⟨.SEMI, ";"⟩, ⟨.EOF, ""⟩] rfl,
    C20_terminates_without_return_and_type.2.1 0 LOWEST (stL [] []) rfl rfl⟩

end parser
